import Mathlib

/-!
# ConsoleGraphicsEngine: pixel buffer, rasteriser and input state

A shallow embedding of `ConsoleGraphicsEngine.h` and a verification of its pixel
buffer (`PaintPixel`, `GetPixel`, `ClearScreen`, `Fill`, `DrawBorder`,
`PrintStringW`), of its rasteriser (`DrawLine`, `DrawCircle`, `FillTriangle`,
`DrawPolygon`) and of the keyboard and mouse parts of `ProcessKeys`.

Conventions of the embedding:

* C++ `int` is read in two ways.  The routines named as in the source take it as
  unbounded (`Int`).  For `DrawLine`, `Fill` and `FillTriangle` there is a second
  model, named with the suffix `32`, that takes `int` as the 32-bit two's
  complement type: every arithmetic result is reduced with `wrapInt`, so that
  overflow wraps around.  The theorems on the cells of lines, rectangles and
  triangles are about the 32-bit routines; the unbounded ones are the reference
  they are compared with on coordinates in range, and the subject of the
  termination theorem of `FillTriangle`, which takes integers as unbounded.
* `short`, `wchar_t` and `WORD` are 16 bits wide.  A value stored into a
  `wchar_t` or `WORD` field is reduced with `toWord` (its 16-bit pattern,
  `0 .. 65535`); the raw key samples are held as such patterns.
* `screen` is a pointer into flat memory.  It is modelled as a total map from
  the offset (in cells) to the cell found there; the cells of the buffer are
  the offsets `0 .. screenSize - 1`.  An access through an offset outside that
  range therefore shows up as an access to a cell that is not part of the
  grid.
* Rasteriser routines whose only effect is a sequence of `PaintPixel` calls
  with one fixed character and colour are given as the list of coordinates
  they pass to `PaintPixel`, in call order.
* The floating-point part of `DrawPolygon` (the angle, `cos`, `sin` and the
  conversion to `int`) is a parameter of its model.
* A counted loop (`for (i = a; i <= b; i++)` and the like) recurses on the number
  of iterations it has left, and still tests its condition.  A loop whose number
  of iterations is not fixed on entry takes an iteration bound and yields `none`
  when the bound is reached with the condition still true; the theorems about
  such a loop show that it yields `some` result.  On 32-bit `int`s every loop
  takes an iteration bound, as a counter that wraps around at `INT_MAX` may never
  fail the loop condition.
-/

/-- The pattern of a value converted to a 16-bit unsigned type (`wchar_t`, `WORD`). -/
def toWord (v : Int) : Int := v % 65536

/-- The value of a `wchar_t` converted to `char` (8 bits, signed). -/
def toChar (v : Int) : Int :=
  if v % 256 < 128 then v % 256 else v % 256 - 256

/-- One cell of the display surface (`CHAR_INFO`): `Char.UnicodeChar` and `Attributes`. -/
structure CHAR_INFO where
  UnicodeChar : Int
  Attributes : Int
  deriving DecidableEq, Repr

/-- Derived state of one key or mouse button. -/
structure keyState where
  pressed : Bool
  released : Bool
  held : Bool
  deriving DecidableEq, Repr

/-- The members of the class that the modelled methods read or write. -/
structure ConsoleGraphicsEngine where
  screen : Int → CHAR_INFO
  screenSize : Int
  screenWidth : Int
  screenHeight : Int
  blankChar : Int
  blankColor : Int
  keys : Nat → keyState
  mouse : Nat → keyState
  keyNewState : Nat → Nat
  keyOldState : Nat → Nat
  mouseOldState : Nat → Bool
  mouseNewState : Nat → Bool
  mousePosX : Int
  mousePosY : Int

namespace ConsoleGraphicsEngine

/-- The assignment `screen[i].Char.UnicodeChar = v`. -/
def setUnicodeChar (m : Int → CHAR_INFO) (i v : Int) : Int → CHAR_INFO :=
  fun j => if j = i then { m j with UnicodeChar := toWord v } else m j

/-- The assignment `screen[i].Attributes = v`. -/
def setAttributes (m : Int → CHAR_INFO) (i v : Int) : Int → CHAR_INFO :=
  fun j => if j = i then { m j with Attributes := toWord v } else m j

/-- Method `PaintPixel(x, y, pixelChar, color)`. -/
def PaintPixel (s : ConsoleGraphicsEngine) (x y : Int)
    (pixelChar : Int := 0x2588) (color : Int := 0x000F) : ConsoleGraphicsEngine :=
  if x ≥ s.screenWidth ∨ y ≥ s.screenHeight ∨ x < 0 ∨ y < 0 then s
  else
    let m1 := setUnicodeChar s.screen (s.screenWidth * y + x) pixelChar
    let m2 := setAttributes m1 (s.screenWidth * y + x) color
    { s with screen := m2 }

/-- Method `ClearScreenPixel(x, y)`. -/
def ClearScreenPixel (s : ConsoleGraphicsEngine) (x y : Int) : ConsoleGraphicsEngine :=
  let m1 := setUnicodeChar s.screen (s.screenWidth * y + x) s.blankChar
  let m2 := setAttributes m1 (s.screenWidth * y + x) s.blankColor
  { s with screen := m2 }

/-- Method `GetPixel(x, y)`; the return type is `char`. -/
def GetPixel (s : ConsoleGraphicsEngine) (x y : Int) : Int :=
  toChar (s.screen (s.screenWidth * y + x)).UnicodeChar

/-- The loop `for (int i = 0; i < screenSize; i++)` of `ClearScreen`; the first
argument counts the iterations still available. -/
def ClearScreenLoop (screenSize blankChar blankColor : Int) :
    Nat → Int → (Int → CHAR_INFO) → (Int → CHAR_INFO)
  | 0, _, m => m
  | n + 1, i, m =>
    if i < screenSize then
      ClearScreenLoop screenSize blankChar blankColor n (i + 1)
        (setAttributes (setUnicodeChar m i blankChar) i blankColor)
    else m

/-- Method `ClearScreen()`.  The loop runs for `i = 0 .. screenSize - 1`, then the
character of the last cell is set to `0`. -/
def ClearScreen (s : ConsoleGraphicsEngine) : ConsoleGraphicsEngine :=
  let m := ClearScreenLoop s.screenSize s.blankChar s.blankColor s.screenSize.toNat 0 s.screen
  { s with screen := setUnicodeChar m (s.screenSize - 1) 0 }

/-- The constructor `ConsoleGraphicsEngine(blankCharIn, blankColorIn)`.  The raw
key and mouse samples start at zero (their member initialisers); the members
without an initialiser are given zero and idle values. -/
def mk2 (blankCharIn blankColorIn : Int) : ConsoleGraphicsEngine where
  screen := fun _ => ⟨0, 0⟩
  screenSize := 0
  screenWidth := 0
  screenHeight := 0
  blankChar := toWord blankCharIn
  blankColor := blankColorIn
  keys := fun _ => ⟨false, false, false⟩
  mouse := fun _ => ⟨false, false, false⟩
  keyNewState := fun _ => 0
  keyOldState := fun _ => 0
  mouseOldState := fun _ => false
  mouseNewState := fun _ => false
  mousePosX := 0
  mousePosY := 0

/-- The default constructor: blank character `' '`, blank colour `FG_BLACK`. -/
def mk0 : ConsoleGraphicsEngine := mk2 32 0

/-- The part of `ConstructConsole` that touches the modelled members: the
dimensions, the zero-filled allocation of `screen`, and `ClearScreen()`.  Memory
next to the allocation is taken to hold zero cells as well. -/
def ConstructConsole (s : ConsoleGraphicsEngine) (screenWidthIn screenHeightIn : Int) :
    ConsoleGraphicsEngine :=
  ClearScreen { s with
    screenWidth := screenWidthIn
    screenHeight := screenHeightIn
    screenSize := screenWidthIn * screenHeightIn
    screen := fun _ => ⟨0, 0⟩ }

/-- The inner loop `while (y1 <= y2)` of `Fill`, for the column `x1`, with the
counter taken as an unbounded integer (`FillInner32` is the loop on 32-bit `int`s). -/
def FillInner (x1 y2 inputChar color : Int) :
    Nat → Int → ConsoleGraphicsEngine → ConsoleGraphicsEngine
  | 0, _, s => s
  | n + 1, y1, s =>
    if y1 ≤ y2 then
      FillInner x1 y2 inputChar color n (y1 + 1) (PaintPixel s x1 y1 inputChar color)
    else s

/-- The outer loop `while (x1 <= x2)` of `Fill`, with the counter taken as an
unbounded integer (`FillOuter32` is the loop on 32-bit `int`s). -/
def FillOuter (ystart x2 y2 inputChar color : Int) :
    Nat → Int → ConsoleGraphicsEngine → ConsoleGraphicsEngine
  | 0, _, s => s
  | n + 1, x1, s =>
    if x1 ≤ x2 then
      FillOuter ystart x2 y2 inputChar color n (x1 + 1)
        (FillInner x1 y2 inputChar color (y2 + 1 - ystart).toNat ystart s)
    else s

/-- Method `Fill(x1, y1, x2, y2, inputChar, color)`.  The outer loop runs for the
columns `x1 .. x2`, the inner one for the rows `y1 .. y2`. -/
def Fill (s : ConsoleGraphicsEngine) (x1 y1 x2 y2 : Int)
    (inputChar : Int := 0x2588) (color : Int := 0x000F) : ConsoleGraphicsEngine :=
  FillOuter y1 x2 y2 inputChar color (x2 + 1 - x1).toNat x1 s

/-- One assignment to a field of a cell of `screen`, at offset `i`. -/
inductive Store where
  | char (i v : Int)
  | attr (i v : Int)
  deriving DecidableEq, Repr

/-- The offset a store goes to. -/
def Store.index : Store → Int
  | .char i _ => i
  | .attr i _ => i

/-- The effect of one store on the memory behind `screen`. -/
def Store.run (m : Int → CHAR_INFO) : Store → (Int → CHAR_INFO)
  | .char i v => setUnicodeChar m i v
  | .attr i v => setAttributes m i v

/-- The first loop of `DrawBorder`, `for (int i = 0; i <= screenWidth; i++)`, as
the stores it performs in order. -/
def DrawBorderLoop1 (screenWidth screenHeight borderChar color : Int) :
    Nat → Int → List Store
  | 0, _ => []
  | n + 1, i =>
    if i ≤ screenWidth then
      (if i ≤ screenHeight then
        [ .char i borderChar,
          .char (i * screenWidth) borderChar,
          .char (i * screenWidth + screenWidth - 1) borderChar,
          .attr i color,
          .attr (i * screenWidth) color,
          .attr (i * screenWidth + screenWidth - 1) color ]
      else
        [ .char i borderChar, .attr i color ])
      ++ DrawBorderLoop1 screenWidth screenHeight borderChar color n (i + 1)
    else []

/-- The second loop of `DrawBorder`,
`for (int x = screenSize - screenWidth; x < screenSize; x++)`. -/
def DrawBorderLoop2 (screenSize borderChar color : Int) : Nat → Int → List Store
  | 0, _ => []
  | n + 1, x =>
    if x < screenSize then
      [ .char x borderChar, .attr x color ]
        ++ DrawBorderLoop2 screenSize borderChar color n (x + 1)
    else []

/-- The stores `DrawBorder(borderChar, color)` performs, in order. -/
def DrawBorderStores (s : ConsoleGraphicsEngine) (borderChar color : Int) : List Store :=
  DrawBorderLoop1 s.screenWidth s.screenHeight borderChar color (s.screenWidth + 1).toNat 0
    ++ DrawBorderLoop2 s.screenSize borderChar color s.screenWidth.toNat
        (s.screenSize - s.screenWidth)

/-- Method `DrawBorder(borderChar, color)`. -/
def DrawBorder (s : ConsoleGraphicsEngine)
    (borderChar : Int := 0x2588) (color : Int := 0x000F) : ConsoleGraphicsEngine :=
  { s with screen := (DrawBorderStores s borderChar color).foldl Store.run s.screen }

/-! ### Keyboard and mouse input -/

/-- The fields of a `MOUSE_EVENT_RECORD` that `ProcessKeys` reads. -/
structure MOUSE_EVENT_RECORD where
  X : Int
  Y : Int
  dwButtonState : Nat
  dwEventFlags : Nat
  deriving DecidableEq, Repr

/-- A console input record: a mouse event, or a record of any other `EventType`. -/
inductive INPUT_RECORD where
  | MOUSE_EVENT (e : MOUSE_EVENT_RECORD)
  | other
  deriving DecidableEq, Repr

/-- The value `MOUSE_MOVED` of `dwEventFlags`. -/
def MOUSE_MOVED : Nat := 0x0001

/-- The body of the keyboard loop of `ProcessKeys` for the key code `i`.  The raw
sample `GetAsyncKeyState i` is a `SHORT`, held as its 16-bit pattern. -/
def keyboardBody (GetAsyncKeyState : Nat → Nat) (s : ConsoleGraphicsEngine) (i : Nat) :
    ConsoleGraphicsEngine :=
  let new := GetAsyncKeyState i % 65536
  let k0 : keyState := { s.keys i with pressed := false, released := false }
  let k1 : keyState :=
    if new ≠ s.keyOldState i then
      if new &&& 0x8000 ≠ 0 then
        { k0 with pressed := !k0.held, held := true }
      else
        { k0 with released := true, held := false }
    else k0
  { s with
    keyNewState := Function.update s.keyNewState i new
    keys := Function.update s.keys i k1
    keyOldState := Function.update s.keyOldState i new }

/-- The loop `for (int i = 0; i < 256; i++)` of `ProcessKeys`. -/
def keyboardLoop (GetAsyncKeyState : Nat → Nat) :
    Nat → Nat → ConsoleGraphicsEngine → ConsoleGraphicsEngine
  | 0, _, s => s
  | n + 1, i, s =>
    if i < 256 then keyboardLoop GetAsyncKeyState n (i + 1) (keyboardBody GetAsyncKeyState s i)
    else s

/-- The loop `for (int m = 0; m < 5; m++)` run for a button-state event. -/
def buttonLoop (dwButtonState : Nat) : Nat → Nat → (Nat → Bool) → (Nat → Bool)
  | 0, _, f => f
  | n + 1, m, f =>
    if m < 5 then
      buttonLoop dwButtonState n (m + 1)
        (Function.update f m (decide ((dwButtonState &&& (1 <<< m)) > 0)))
    else f

/-- The body of the event loop of `ProcessKeys` for one input record. -/
def eventBody (s : ConsoleGraphicsEngine) : INPUT_RECORD → ConsoleGraphicsEngine
  | .MOUSE_EVENT e =>
    if e.dwEventFlags = MOUSE_MOVED then
      { s with mousePosX := e.X, mousePosY := e.Y }
    else if e.dwEventFlags = 0 then
      { s with mouseNewState := buttonLoop e.dwButtonState 5 0 s.mouseNewState }
    else s
  | .other => s

/-- The body of the mouse-button loop of `ProcessKeys` for the button `j`. -/
def mouseBody (s : ConsoleGraphicsEngine) (j : Nat) : ConsoleGraphicsEngine :=
  let k0 : keyState := { s.mouse j with pressed := false, released := false }
  let k1 : keyState :=
    if s.mouseNewState j ≠ s.mouseOldState j then
      if s.mouseNewState j then
        { k0 with pressed := true, held := true }
      else
        { k0 with released := true, held := false }
    else k0
  { s with
    mouse := Function.update s.mouse j k1
    mouseOldState := Function.update s.mouseOldState j (s.mouseNewState j) }

/-- The loop `for (int j = 0; j < 5; j++)` of `ProcessKeys`. -/
def mouseLoop : Nat → Nat → ConsoleGraphicsEngine → ConsoleGraphicsEngine
  | 0, _, s => s
  | n + 1, j, s => if j < 5 then mouseLoop n (j + 1) (mouseBody s j) else s

/-- Method `ProcessKeys()`, one tick.  `GetAsyncKeyState` is the raw sample of
every key code for this tick and `input` the records that `ReadConsoleInput`
delivers, in order. -/
def ProcessKeys (s : ConsoleGraphicsEngine) (GetAsyncKeyState : Nat → Nat)
    (input : List INPUT_RECORD) : ConsoleGraphicsEngine :=
  mouseLoop 5 0 (input.foldl eventBody (keyboardLoop GetAsyncKeyState 256 0 s))

/-- Method `GetKeyState(key)`. -/
def GetKeyState (s : ConsoleGraphicsEngine) (key : Nat) : keyState := s.keys key

/-- Method `GetMouseState(key)`. -/
def GetMouseState (s : ConsoleGraphicsEngine) (key : Nat) : keyState := s.mouse key

/-- The engine after a sequence of ticks, each given by its raw key samples and
its input records. -/
def runTicks (s : ConsoleGraphicsEngine) :
    List ((Nat → Nat) × List INPUT_RECORD) → ConsoleGraphicsEngine
  | [] => s
  | t :: ts => runTicks (ProcessKeys s t.1 t.2) ts

/-- Whether a raw key sample says the key is down: bit `0x8000` is set. -/
def isDown (raw : Nat) : Bool := decide (raw % 65536 &&& 0x8000 ≠ 0)

/-- The row of the transition table of the specification selected by
`(previous down, current down)`, as `(pressed, released, held)`. -/
def transitionRow : Bool → Bool → keyState
  | false, false => ⟨false, false, false⟩
  | false, true => ⟨true, false, true⟩
  | true, true => ⟨false, false, true⟩
  | true, false => ⟨false, true, false⟩

/-! ### Lines and circles

These routines only call `PaintPixel` with their own `inputChar` and `color`; each
is given as the list of the coordinates `(x, y)` it passes, in call order. -/

/-- The C function `abs` on `int`. -/
def absInt (v : Int) : Int := if v < 0 then -v else v

/-- The loop `for (int x = x1; x <= x2; x++)` of `DrawLineLow`, with the loop
variable `x` and the locals `y` and `D`, all taken as unbounded integers
(`DrawLineLowLoop32` is the loop on 32-bit `int`s). -/
def DrawLineLowLoop (x2 yi dy dx : Int) : Nat → Int → Int → Int → List (Int × Int)
  | 0, _, _, _ => []
  | n + 1, x, y, D =>
    if x ≤ x2 then
      (x, y) ::
        (if D > 0 then DrawLineLowLoop x2 yi dy dx n (x + 1) (y + yi) (D + 2 * (dy - dx))
         else DrawLineLowLoop x2 yi dy dx n (x + 1) y (D + 2 * dy))
    else []

/-- Method `DrawLineLow(x1, y1, x2, y2)`. -/
def DrawLineLow (x1 y1 x2 y2 : Int) : List (Int × Int) :=
  let dy := y2 - y1
  let dx := x2 - x1
  let yi : Int := if dy < 0 then -1 else 1
  let dy := if dy < 0 then dy * -1 else dy
  let D := 2 * dy - dx
  DrawLineLowLoop x2 yi dy dx (x2 + 1 - x1).toNat x1 y1 D

/-- The loop `for (int y = y1; y <= y2; y++)` of `DrawLineHigh`, with the loop
variable `y` and the locals `x` and `D`, all taken as unbounded integers
(`DrawLineHighLoop32` is the loop on 32-bit `int`s). -/
def DrawLineHighLoop (y2 xi dx dy : Int) : Nat → Int → Int → Int → List (Int × Int)
  | 0, _, _, _ => []
  | n + 1, y, x, D =>
    if y ≤ y2 then
      (x, y) ::
        (if D > 0 then DrawLineHighLoop y2 xi dx dy n (y + 1) (x + xi) (D + 2 * (dx - dy))
         else DrawLineHighLoop y2 xi dx dy n (y + 1) x (D + 2 * dx))
    else []

/-- Method `DrawLineHigh(x1, y1, x2, y2)`. -/
def DrawLineHigh (x1 y1 x2 y2 : Int) : List (Int × Int) :=
  let dy := y2 - y1
  let dx := x2 - x1
  let xi : Int := if dx < 0 then -1 else 1
  let dx := if dx < 0 then dx * -1 else dx
  let D := 2 * dx - dy
  DrawLineHighLoop y2 xi dx dy (y2 + 1 - y1).toNat y1 x1 D

/-- Method `DrawLine(x1, y1, x2, y2)` on unbounded integers (`DrawLine32` is the
method on 32-bit `int`s). -/
def DrawLine (x1 y1 x2 y2 : Int) : List (Int × Int) :=
  let dy := y2 - y1
  let dx := x2 - x1
  if absInt dy < absInt dx then
    if x1 > x2 then DrawLineLow x2 y2 x1 y1
    else DrawLineLow x1 y1 x2 y2
  else if y1 > y2 then DrawLineHigh x2 y2 x1 y1
  else DrawLineHigh x1 y1 x2 y2

/-- Method `DrawTriangle`: three `DrawLine` calls. -/
def DrawTriangle (x1 y1 x2 y2 x3 y3 : Int) : List (Int × Int) :=
  DrawLine x1 y1 x2 y2 ++ DrawLine x2 y2 x3 y3 ++ DrawLine x3 y3 x1 y1

/-- The minor-axis offset a line with major extent `b > 0` and minor extent `a` has
at major offset `k`: `k * a / b` rounded to the nearest integer, halves down. -/
def lineMinor (a b k : Int) : Int := (2 * k * a + b - 1) / (2 * b)

/-- The vertex ordering step of `FillTriangle`: three conditional swaps. -/
def sortVertices (x1 y1 x2 y2 x3 y3 : Int) : (Int × Int) × (Int × Int) × (Int × Int) :=
  let (x1, y1, x2, y2) := if y1 > y2 then (x2, y2, x1, y1) else (x1, y1, x2, y2)
  let (x1, y1, x3, y3) := if y1 > y3 then (x3, y3, x1, y1) else (x1, y1, x3, y3)
  let (x2, y2, x3, y3) := if y2 > y3 then (x3, y3, x2, y2) else (x2, y2, x3, y3)
  ((x1, y1), (x2, y2), (x3, y3))

/-- The local variables of `FillTriangle`, with the counter `i` of the `for` loop
that is running. -/
structure TriLocals where
  t1x : Int
  t2x : Int
  y : Int
  minx : Int
  maxx : Int
  t1xp : Int
  t2xp : Int
  changed1 : Bool
  changed2 : Bool
  signx1 : Int
  signx2 : Int
  dx1 : Int
  dy1 : Int
  dx2 : Int
  dy2 : Int
  e1 : Int
  e2 : Int
  i : Int
  deriving DecidableEq, Repr

/-- The lambda `drawline(sx, ex, ny)`: the loop `for (int i = sx; i <= ex; i++)`,
with `i` taken as an unbounded integer (`drawlineLoop32` is the loop on 32-bit
`int`s). -/
def drawlineLoop (ex ny : Int) : Nat → Int → List (Int × Int)
  | 0, _ => []
  | n + 1, i => if i ≤ ex then (i, ny) :: drawlineLoop ex ny n (i + 1) else []

/-- The cells `drawline(sx, ex, ny)` passes to `PaintPixel`. -/
def drawline (sx ex ny : Int) : List (Int × Int) :=
  drawlineLoop ex ny (ex + 1 - sx).toNat sx

/-- First half, `while (e1 >= dx1) { e1 -= dx1; if (changed1) t1xp = signx1; else goto next1; }`.
The flag tells whether the `goto` was taken. -/
def firstSub1 : Nat → TriLocals → Option (TriLocals × Bool)
  | 0, v => if v.e1 ≥ v.dx1 then none else some (v, false)
  | n + 1, v =>
    if v.e1 ≥ v.dx1 then
      let v := { v with e1 := v.e1 - v.dx1 }
      if v.changed1 then firstSub1 n { v with t1xp := v.signx1 }
      else some (v, true)
    else some (v, false)

/-- First half, the loop `while (i < dx1)` that walks the first edge, up to the
label `next1`. -/
def firstEdge1 : Nat → TriLocals → Option TriLocals
  | 0, v => if v.i < v.dx1 then none else some v
  | n + 1, v =>
    if v.i < v.dx1 then
      let v := { v with i := v.i + 1 }
      let v := { v with e1 := v.e1 + v.dy1 }
      match firstSub1 (n + 1) v with
      | none => none
      | some (v, true) => some v
      | some (v, false) =>
        if v.changed1 then some v
        else firstEdge1 n { v with t1x := v.t1x + v.signx1 }
    else some v

/-- Both halves, `while (e2 >= dx2) { e2 -= dx2; if (changed2) t2xp = signx2; else goto ..; }`.
The flag tells whether the `goto` was taken. -/
def sub2 : Nat → TriLocals → Option (TriLocals × Bool)
  | 0, v => if v.e2 ≥ v.dx2 then none else some (v, false)
  | n + 1, v =>
    if v.e2 ≥ v.dx2 then
      let v := { v with e2 := v.e2 - v.dx2 }
      if v.changed2 then sub2 n { v with t2xp := v.signx2 }
      else some (v, true)
    else some (v, false)

/-- First half, the loop `while (1)` that walks the second edge, up to the label
`next2`. -/
def firstEdge2 : Nat → TriLocals → Option TriLocals
  | 0, _ => none
  | n + 1, v =>
    let v := { v with e2 := v.e2 + v.dy2 }
    match sub2 (n + 1) v with
    | none => none
    | some (v, true) => some v
    | some (v, false) =>
      if v.changed2 then some v
      else firstEdge2 n { v with t2x := v.t2x + v.signx2 }

/-- The start of the body of both `for` loops: `t1xp = 0; t2xp = 0;` and the
initial `minx`, `maxx`. -/
def rowStart (v : TriLocals) : TriLocals :=
  let v := { v with t1xp := 0, t2xp := 0 }
  if v.t1x < v.t2x then { v with minx := v.t1x, maxx := v.t2x }
  else { v with minx := v.t2x, maxx := v.t1x }

/-- The four updates of `minx` and `maxx` before `drawline`. -/
def rowMinMax (v : TriLocals) : TriLocals :=
  let v := if v.minx > v.t1x then { v with minx := v.t1x } else v
  let v := if v.minx > v.t2x then { v with minx := v.t2x } else v
  let v := if v.maxx < v.t1x then { v with maxx := v.t1x } else v
  if v.maxx < v.t2x then { v with maxx := v.t2x } else v

/-- The updates after `drawline`: both edges step in `x`, then `y += 1`. -/
def rowAdvance (v : TriLocals) : TriLocals :=
  let v := if !v.changed1 then { v with t1x := v.t1x + v.signx1 } else v
  let v := { v with t1x := v.t1x + v.t1xp }
  let v := if !v.changed2 then { v with t2x := v.t2x + v.signx2 } else v
  let v := { v with t2x := v.t2x + v.t2xp }
  { v with y := v.y + 1 }

/-- First half, the loop `for (int i = 0; i < dx1;)`: the locals at its end and the
`drawline` calls `(minx, maxx, y)` it makes. -/
def firstHalf (y2 : Int) : Nat → TriLocals → Option (TriLocals × List (Int × Int × Int))
  | 0, v => if v.i < v.dx1 then none else some (v, [])
  | n + 1, v =>
    if v.i < v.dx1 then
      match firstEdge1 (n + 1) (rowStart v) with
      | none => none
      | some v =>
        match firstEdge2 (n + 1) v with
        | none => none
        | some v =>
          let v := rowMinMax v
          let span := (v.minx, v.maxx, v.y)
          let v := rowAdvance v
          if v.y = y2 then some (v, [span])
          else (firstHalf y2 n v).map (fun r => (r.1, span :: r.2))
    else some (v, [])

/-- Second half, `while (e1 >= dx1) { e1 -= dx1; if (changed1) { t1xp = signx1; break; } else goto next3; }`.
Both branches leave the loop in its first iteration.  The flag tells whether the
`goto` was taken. -/
def secondSub1 (v : TriLocals) : TriLocals × Bool :=
  if v.e1 ≥ v.dx1 then
    let v := { v with e1 := v.e1 - v.dx1 }
    if v.changed1 then ({ v with t1xp := v.signx1 }, false)
    else (v, true)
  else (v, false)

/-- Second half, the loop `while (i < dx1)` that walks the first edge, up to the
label `next3`. -/
def secondEdge1 : Nat → TriLocals → Option TriLocals
  | 0, v => if v.i < v.dx1 then none else some v
  | n + 1, v =>
    if v.i < v.dx1 then
      let v := { v with e1 := v.e1 + v.dy1 }
      match secondSub1 v with
      | (v, true) => some v
      | (v, false) =>
        if v.changed1 then some v
        else
          let v := { v with t1x := v.t1x + v.signx1 }
          let v := if v.i < v.dx1 then { v with i := v.i + 1 } else v
          secondEdge1 n v
    else some v

/-- Second half, the loop `while (t2x != x3)` that walks the second edge, up to the
label `next4`. -/
def secondEdge2 (x3 : Int) : Nat → TriLocals → Option TriLocals
  | 0, v => if v.t2x ≠ x3 then none else some v
  | n + 1, v =>
    if v.t2x ≠ x3 then
      let v := { v with e2 := v.e2 + v.dy2 }
      match sub2 (n + 1) v with
      | none => none
      | some (v, true) => some v
      | some (v, false) =>
        if v.changed2 then some v
        else secondEdge2 x3 n { v with t2x := v.t2x + v.signx2 }
    else some v

/-- Second half, the loop `for (int i = 0; i <= dx1; i++)`: the `drawline` calls
`(minx, maxx, y)` it makes. -/
def secondHalf (x3 y3 : Int) : Nat → TriLocals → Option (List (Int × Int × Int))
  | 0, v => if v.i ≤ v.dx1 then none else some []
  | n + 1, v =>
    if v.i ≤ v.dx1 then
      match secondEdge1 (n + 1) (rowStart v) with
      | none => none
      | some v =>
        match secondEdge2 x3 (n + 1) v with
        | none => none
        | some v =>
          let v := rowMinMax v
          let span := (v.minx, v.maxx, v.y)
          let v := rowAdvance v
          if v.y > y3 then some [span]
          else (secondHalf x3 y3 n { v with i := v.i + 1 }).map (fun r => span :: r)
    else some []

/-- The locals of `FillTriangle` after the set-up that precedes `if (y1 == y2)`,
for vertices that are already sorted.  Locals that are still unset get `0`. -/
def triSetup (x1 y1 x2 y2 x3 y3 : Int) : TriLocals :=
  let dx1 := x2 - x1
  let signx1 : Int := if dx1 < 0 then -1 else 1
  let dx1 := if dx1 < 0 then -dx1 else dx1
  let dy1 := y2 - y1
  let dx2 := x3 - x1
  let signx2 : Int := if dx2 < 0 then -1 else 1
  let dx2 := if dx2 < 0 then -dx2 else dx2
  let dy2 := y3 - y1
  let changed1 := decide (dy1 > dx1)
  let (dx1, dy1) := if dy1 > dx1 then (dy1, dx1) else (dx1, dy1)
  let changed2 := decide (dy2 > dx2)
  let (dx2, dy2) := if dy2 > dx2 then (dy2, dx2) else (dx2, dy2)
  { t1x := x1, t2x := x1, y := y1, minx := 0, maxx := 0, t1xp := 0, t2xp := 0,
    changed1 := changed1, changed2 := changed2, signx1 := signx1, signx2 := signx2,
    dx1 := dx1, dy1 := dy1, dx2 := dx2, dy2 := dy2, e1 := 0, e2 := dx2 / 2, i := 0 }

/-- The assignments after the label `next`, before the second `for` loop. -/
def triSecondSetup (x2 y2 x3 y3 : Int) (v : TriLocals) : TriLocals :=
  let dx1 := x3 - x2
  let signx1 : Int := if dx1 < 0 then -1 else 1
  let dx1 := if dx1 < 0 then -dx1 else dx1
  let dy1 := y3 - y2
  let changed1 := decide (dy1 > dx1)
  let (dx1, dy1) := if dy1 > dx1 then (dy1, dx1) else (dx1, dy1)
  { v with dx1 := dx1, signx1 := signx1, dy1 := dy1, t1x := x2, changed1 := changed1,
           e1 := dx1 / 2, i := 0 }

/-- The `drawline` calls `(minx, maxx, y)` of `FillTriangle(x1, y1, x2, y2, x3, y3)`,
in order.  The first argument bounds the iterations of every loop; `none` means a
loop reached the bound with its condition still true. -/
def FillTriangleSpans (fuel : Nat) (x1 y1 x2 y2 x3 y3 : Int) :
    Option (List (Int × Int × Int)) :=
  match sortVertices x1 y1 x2 y2 x3 y3 with
  | ((x1, y1), (x2, y2), (x3, y3)) =>
    let v := triSetup x1 y1 x2 y2 x3 y3
    if y1 = y2 then
      secondHalf x3 y3 fuel (triSecondSetup x2 y2 x3 y3 v)
    else
      match firstHalf y2 fuel { v with e1 := v.dx1 / 2, i := 0 } with
      | none => none
      | some (v, spans) =>
        (secondHalf x3 y3 fuel (triSecondSetup x2 y2 x3 y3 v)).map (fun r => spans ++ r)

/-- The cells `FillTriangle(x1, y1, x2, y2, x3, y3)` passes to `PaintPixel`, in
order, on unbounded integers (`FillTriangle32` is the method on 32-bit `int`s). -/
def FillTriangle (fuel : Nat) (x1 y1 x2 y2 x3 y3 : Int) : Option (List (Int × Int)) :=
  (FillTriangleSpans fuel x1 y1 x2 y2 x3 y3).map
    (fun spans => (spans.map (fun sp => drawline sp.1 sp.2.1 sp.2.2)).flatten)

/-- The `drawline` calls in the list are one per row, for consecutive rows starting
at `y`, each with `minx <= maxx`. -/
def SpanRows : Int → List (Int × Int × Int) → Prop
  | _, [] => True
  | y, sp :: rest => sp.1 ≤ sp.2.1 ∧ sp.2.2 = y ∧ SpanRows (y + 1) rest

/-- What the walks along the second edge rely on and keep: the error term `e2` is in
`0 .. dx2 - 1`, `dy2` is in `0 .. dx2`, and the walk makes progress. -/
def Edge2Inv (v : TriLocals) : Prop :=
  0 ≤ v.e2 ∧ v.e2 < v.dx2 ∧ 0 ≤ v.dy2 ∧ v.dy2 ≤ v.dx2 ∧ (v.changed2 = true ∨ 0 < v.dy2)

/-- The state of the walk along the first edge at the top of the first `for` loop,
with `r` rows still to draw before `y` reaches `y2`. -/
def FirstInv (v : TriLocals) (r : Int) : Prop :=
  0 ≤ v.i ∧ 0 ≤ v.e1 ∧ v.e1 < v.dx1 ∧ 0 ≤ v.dy1 ∧ v.dy1 ≤ v.dx1
    ∧ (if v.changed1 then v.i + r ≤ v.dx1
       else v.dx1 * r ≤ v.e1 + (v.dx1 - v.i) * v.dy1)

/-- The state of the walk along the first edge at the top of the second `for` loop,
with `r` rows still to draw after the current one before `y` passes `y3`. -/
def SecondInv (v : TriLocals) (r : Int) : Prop :=
  0 ≤ v.i ∧ v.i ≤ v.dx1 ∧ 0 ≤ v.e1 ∧ (v.e1 < v.dx1 ∨ (r = 0 ∧ v.dx1 ≤ v.i))
    ∧ 0 ≤ v.dy1 ∧ v.dy1 ≤ v.dx1
    ∧ (if v.changed1 then v.i + r ≤ v.dx1
       else v.dx1 * r ≤ v.e1 + (v.dx1 - v.i) * v.dy1)

/-! ### Polygon and text -/

/-- The loop `for (int i = 0; i <= nSides; i++)` of `DrawPolygon`, as the `DrawLine`
calls `((x1, y1), (x2, y2))` it makes, in order.  The floating-point part is a
parameter: `next` is the update `angle += 2 * PI / nSides` and `point angle` the
pair of `int`s that `cos(angle) * radius + x_pos` and `sin(angle) * radius + y_pos`
convert to. -/
def DrawPolygonLoop {F : Type} (next : F → F) (point : F → Int × Int) (nSides : Int) :
    Nat → Int → F → Int × Int → List ((Int × Int) × (Int × Int))
  | 0, _, _, _ => []
  | n + 1, i, angle, p2 =>
    if i ≤ nSides then
      let angle := next angle
      let p1 := p2
      let p2 := point angle
      (p1, p2) :: DrawPolygonLoop next point nSides n (i + 1) angle p2
    else []

/-- The `DrawLine` calls of `DrawPolygon(x_pos, y_pos, nSides, radius, offsetAngle)`,
in order; `angle0` is the value of `offsetAngle * PI / 180`. -/
def DrawPolygonLines {F : Type} (angle0 : F) (next : F → F) (point : F → Int × Int)
    (nSides : Int) : List ((Int × Int) × (Int × Int)) :=
  DrawPolygonLoop next point nSides (nSides + 1).toNat 0 angle0 (point angle0)

/-- The cells `DrawPolygon` passes to `PaintPixel`, in order. -/
def DrawPolygon {F : Type} (angle0 : F) (next : F → F) (point : F → Int × Int)
    (nSides : Int) : List (Int × Int) :=
  ((DrawPolygonLines angle0 next point nSides).map
    (fun seg => DrawLine seg.1.1 seg.1.2 seg.2.1 seg.2.2)).flatten

/-- The loop of `PrintString(x_pos, y_pos, statement)`: one `PaintPixel` call per
character, with the default colour. -/
def PrintString (s : ConsoleGraphicsEngine) (x_pos y_pos : Int) :
    List Int → ConsoleGraphicsEngine
  | [] => s
  | ch :: rest => PrintString (PaintPixel s x_pos y_pos ch) (x_pos + 1) y_pos rest

/-- The loop `for (size_t i = 0; i < c.size(); i++)` of `PrintStringW`, on the
memory behind `screen`; the string is the list of its character codes and `i` the
index of its head. -/
def PrintStringWLoop (screenWidth x y col : Int) :
    List Int → Int → (Int → CHAR_INFO) → (Int → CHAR_INFO)
  | [], _, m => m
  | ch :: rest, i, m =>
    PrintStringWLoop screenWidth x y col rest (i + 1)
      (if ch ≠ 32 then
        setAttributes (setUnicodeChar m (y * screenWidth + x + i) ch)
          (y * screenWidth + x + i) col
       else m)

/-- Method `PrintStringW(x, y, c, col)`. -/
def PrintStringW (s : ConsoleGraphicsEngine) (x y : Int) (c : List Int)
    (col : Int := 0x000F) : ConsoleGraphicsEngine :=
  { s with screen := PrintStringWLoop s.screenWidth x y col c 0 s.screen }

/-! ### Reference notions for the input state and the vertex order -/

/-- The button mask of the most recent button-state event (a mouse event with
`dwEventFlags = 0`) among the records of one tick, if there is one. -/
def lastButtonState : List INPUT_RECORD → Option Nat
  | [] => none
  | ev :: rest =>
    match lastButtonState rest with
    | some mask => some mask
    | none =>
      match ev with
      | .MOUSE_EVENT e => if e.dwEventFlags = 0 then some e.dwButtonState else none
      | .other => none

/-- Whether button `m` counts as down after a tick with the records `input`, when it
counted as `prev` before: bit `m` of the most recent button-state mask, or `prev`
when the tick brought no button-state event. -/
def buttonDownAfter (prev : Bool) (input : List INPUT_RECORD) (m : Nat) : Bool :=
  match lastButtonState input with
  | some mask => mask.testBit m
  | none => prev

/-- Whether button `m` counts as down after a sequence of ticks that starts with no
button down. -/
def buttonDownSeq (m : Nat) (ticks : List ((Nat → Nat) × List INPUT_RECORD)) : Bool :=
  ticks.foldl (fun prev tk => buttonDownAfter prev tk.2 m) false

/-- The initial state of the input tracker: every raw sample zero, no button down,
every derived state idle. -/
def Idle (s : ConsoleGraphicsEngine) : Prop :=
  (∀ k : Nat, s.keys k = ⟨false, false, false⟩ ∧ s.keyOldState k = 0 ∧ s.keyNewState k = 0)
  ∧ (∀ j : Nat, s.mouse j = ⟨false, false, false⟩ ∧ s.mouseOldState j = false
      ∧ s.mouseNewState j = false)

/-- The three vertices in ascending order of `y`, ties in input order: insertion
sort, which is stable. -/
def stableSortByY (l : List (Int × Int)) : List (Int × Int) :=
  l.insertionSort (fun a b => a.2 ≤ b.2)

/-- A tick with all keys up whose only record is a button-state event with the given
mask. -/
def tickButtons (mask : Nat) : (Nat → Nat) × List INPUT_RECORD :=
  (fun _ => 0, [INPUT_RECORD.MOUSE_EVENT ⟨0, 0, mask, 0⟩])

/-- A tick with all keys up whose only record is a movement event that reports the
given mask. -/
def tickMoved (X Y : Int) (mask : Nat) : (Nat → Nat) × List INPUT_RECORD :=
  (fun _ => 0, [INPUT_RECORD.MOUSE_EVENT ⟨X, Y, mask, MOUSE_MOVED⟩])

/-- A tick with all keys up and no input record. -/
def tickQuiet : (Nat → Nat) × List INPUT_RECORD := (fun _ => 0, [])

/-- The three vertices after the ordering step of `FillTriangle`, as a list. -/
def sortVerticesList (x1 y1 x2 y2 x3 y3 : Int) : List (Int × Int) :=
  [ (sortVertices x1 y1 x2 y2 x3 y3).1,
    (sortVertices x1 y1 x2 y2 x3 y3).2.1,
    (sortVertices x1 y1 x2 y2 x3 y3).2.2 ]

/-- A derived state is consistent: `pressed` and `released` are not both set,
`pressed` comes with `held`, and `released` comes without `held`. -/
def KeyStateOK (ks : keyState) : Prop :=
  ¬ (ks.pressed = true ∧ ks.released = true)
  ∧ (ks.pressed = true → ks.held = true)
  ∧ (ks.released = true → ks.held = false)

/-! ### The routines with `int` of 32 bits

The routines above take C++ `int` as unbounded.  Those below, whose names end in
`32`, are the same routines with `int` as the 32-bit two's complement type: every
sum, difference, product and negation is reduced with `wrapInt`, so that overflow
wraps around. -/

/-- The `int` that holds an arithmetic result of mathematical value `v`: `int` is
32 bits wide, two's complement, and overflow wraps around. -/
def wrapInt (v : Int) : Int := (v + 2147483648) % 4294967296 - 2147483648

/-- The C function `abs` on a 32-bit `int`; `abs(INT_MIN)` is `INT_MIN`. -/
def absInt32 (v : Int) : Int := if v < 0 then wrapInt (-v) else v

/-- The loop `for (int x = x1; x <= x2; x++)` of `DrawLineLow` on 32-bit `int`s,
with the loop variable `x` and the locals `y` and `D`.  The first argument bounds
the number of iterations; `none` means the bound was reached with the loop
condition still true. -/
def DrawLineLowLoop32 (x2 yi dy dx : Int) :
    Nat → Int → Int → Int → Option (List (Int × Int))
  | 0, x, _, _ => if x ≤ x2 then none else some []
  | n + 1, x, y, D =>
    if x ≤ x2 then
      (if D > 0 then
        DrawLineLowLoop32 x2 yi dy dx n (wrapInt (x + 1)) (wrapInt (y + yi))
          (wrapInt (D + wrapInt (2 * wrapInt (dy - dx))))
       else
        DrawLineLowLoop32 x2 yi dy dx n (wrapInt (x + 1)) y (wrapInt (D + wrapInt (2 * dy)))).map
        (fun rest => (x, y) :: rest)
    else some []

/-- Method `DrawLineLow(x1, y1, x2, y2)` on 32-bit `int`s. -/
def DrawLineLow32 (fuel : Nat) (x1 y1 x2 y2 : Int) : Option (List (Int × Int)) :=
  let dy := wrapInt (y2 - y1)
  let dx := wrapInt (x2 - x1)
  let yi : Int := if dy < 0 then -1 else 1
  let dy := if dy < 0 then wrapInt (dy * -1) else dy
  let D := wrapInt (wrapInt (2 * dy) - dx)
  DrawLineLowLoop32 x2 yi dy dx fuel x1 y1 D

/-- The loop `for (int y = y1; y <= y2; y++)` of `DrawLineHigh` on 32-bit `int`s,
with the loop variable `y` and the locals `x` and `D`. -/
def DrawLineHighLoop32 (y2 xi dx dy : Int) :
    Nat → Int → Int → Int → Option (List (Int × Int))
  | 0, y, _, _ => if y ≤ y2 then none else some []
  | n + 1, y, x, D =>
    if y ≤ y2 then
      (if D > 0 then
        DrawLineHighLoop32 y2 xi dx dy n (wrapInt (y + 1)) (wrapInt (x + xi))
          (wrapInt (D + wrapInt (2 * wrapInt (dx - dy))))
       else
        DrawLineHighLoop32 y2 xi dx dy n (wrapInt (y + 1)) x (wrapInt (D + wrapInt (2 * dx)))).map
        (fun rest => (x, y) :: rest)
    else some []

/-- Method `DrawLineHigh(x1, y1, x2, y2)` on 32-bit `int`s. -/
def DrawLineHigh32 (fuel : Nat) (x1 y1 x2 y2 : Int) : Option (List (Int × Int)) :=
  let dy := wrapInt (y2 - y1)
  let dx := wrapInt (x2 - x1)
  let xi : Int := if dx < 0 then -1 else 1
  let dx := if dx < 0 then wrapInt (dx * -1) else dx
  let D := wrapInt (wrapInt (2 * dx) - dy)
  DrawLineHighLoop32 y2 xi dx dy fuel y1 x1 D

/-- Method `DrawLine(x1, y1, x2, y2)` on 32-bit `int`s: the cells it passes to
`PaintPixel`, in call order, when every loop ends within `fuel` iterations. -/
def DrawLine32 (fuel : Nat) (x1 y1 x2 y2 : Int) : Option (List (Int × Int)) :=
  let dy := wrapInt (y2 - y1)
  let dx := wrapInt (x2 - x1)
  if absInt32 dy < absInt32 dx then
    if x1 > x2 then DrawLineLow32 fuel x2 y2 x1 y1
    else DrawLineLow32 fuel x1 y1 x2 y2
  else if y1 > y2 then DrawLineHigh32 fuel x2 y2 x1 y1
  else DrawLineHigh32 fuel x1 y1 x2 y2

/-- The inner loop `while (y1 <= y2)` of `Fill` on 32-bit `int`s, for the column
`x1`; `none` means the iteration bound was reached with the condition still true. -/
def FillInner32 (x1 y2 inputChar color : Int) :
    Nat → Int → ConsoleGraphicsEngine → Option ConsoleGraphicsEngine
  | 0, y1, s => if y1 ≤ y2 then none else some s
  | n + 1, y1, s =>
    if y1 ≤ y2 then
      FillInner32 x1 y2 inputChar color n (wrapInt (y1 + 1))
        (PaintPixel s x1 y1 inputChar color)
    else some s

/-- The outer loop `while (x1 <= x2)` of `Fill` on 32-bit `int`s; `fuel` bounds the
iterations of the inner loop in each column. -/
def FillOuter32 (fuel : Nat) (ystart x2 y2 inputChar color : Int) :
    Nat → Int → ConsoleGraphicsEngine → Option ConsoleGraphicsEngine
  | 0, x1, s => if x1 ≤ x2 then none else some s
  | n + 1, x1, s =>
    if x1 ≤ x2 then
      match FillInner32 x1 y2 inputChar color fuel ystart s with
      | none => none
      | some s => FillOuter32 fuel ystart x2 y2 inputChar color n (wrapInt (x1 + 1)) s
    else some s

/-- Method `Fill(x1, y1, x2, y2, inputChar, color)` on 32-bit `int`s: the engine
after the call, when every loop ends within `fuel` iterations. -/
def Fill32 (fuel : Nat) (s : ConsoleGraphicsEngine) (x1 y1 x2 y2 : Int)
    (inputChar : Int := 0x2588) (color : Int := 0x000F) : Option ConsoleGraphicsEngine :=
  FillOuter32 fuel y1 x2 y2 inputChar color fuel x1 s

/-- The loop of the lambda `drawline(sx, ex, ny)` on 32-bit `int`s,
`for (int i = sx; i <= ex; i++)`; `none` means the iteration bound was reached with
the condition still true. -/
def drawlineLoop32 (ex ny : Int) : Nat → Int → Option (List (Int × Int))
  | 0, i => if i ≤ ex then none else some []
  | n + 1, i =>
    if i ≤ ex then
      (drawlineLoop32 ex ny n (wrapInt (i + 1))).map (fun rest => (i, ny) :: rest)
    else some []

/-- The cells `drawline(sx, ex, ny)` passes to `PaintPixel` on 32-bit `int`s. -/
def drawline32 (fuel : Nat) (sx ex ny : Int) : Option (List (Int × Int)) :=
  drawlineLoop32 ex ny fuel sx

/-- First half on 32-bit `int`s,
`while (e1 >= dx1) { e1 -= dx1; if (changed1) t1xp = signx1; else goto next1; }`. -/
def firstSub1_32 : Nat → TriLocals → Option (TriLocals × Bool)
  | 0, v => if v.e1 ≥ v.dx1 then none else some (v, false)
  | n + 1, v =>
    if v.e1 ≥ v.dx1 then
      let v := { v with e1 := wrapInt (v.e1 - v.dx1) }
      if v.changed1 then firstSub1_32 n { v with t1xp := v.signx1 }
      else some (v, true)
    else some (v, false)

/-- First half on 32-bit `int`s, the loop `while (i < dx1)` that walks the first
edge, up to the label `next1`. -/
def firstEdge1_32 : Nat → TriLocals → Option TriLocals
  | 0, v => if v.i < v.dx1 then none else some v
  | n + 1, v =>
    if v.i < v.dx1 then
      let v := { v with i := wrapInt (v.i + 1) }
      let v := { v with e1 := wrapInt (v.e1 + v.dy1) }
      match firstSub1_32 (n + 1) v with
      | none => none
      | some (v, true) => some v
      | some (v, false) =>
        if v.changed1 then some v
        else firstEdge1_32 n { v with t1x := wrapInt (v.t1x + v.signx1) }
    else some v

/-- Both halves on 32-bit `int`s,
`while (e2 >= dx2) { e2 -= dx2; if (changed2) t2xp = signx2; else goto ..; }`. -/
def sub2_32 : Nat → TriLocals → Option (TriLocals × Bool)
  | 0, v => if v.e2 ≥ v.dx2 then none else some (v, false)
  | n + 1, v =>
    if v.e2 ≥ v.dx2 then
      let v := { v with e2 := wrapInt (v.e2 - v.dx2) }
      if v.changed2 then sub2_32 n { v with t2xp := v.signx2 }
      else some (v, true)
    else some (v, false)

/-- First half on 32-bit `int`s, the loop `while (1)` that walks the second edge, up
to the label `next2`. -/
def firstEdge2_32 : Nat → TriLocals → Option TriLocals
  | 0, _ => none
  | n + 1, v =>
    let v := { v with e2 := wrapInt (v.e2 + v.dy2) }
    match sub2_32 (n + 1) v with
    | none => none
    | some (v, true) => some v
    | some (v, false) =>
      if v.changed2 then some v
      else firstEdge2_32 n { v with t2x := wrapInt (v.t2x + v.signx2) }

/-- The updates after `drawline` on 32-bit `int`s: both edges step in `x`, then
`y += 1`. -/
def rowAdvance32 (v : TriLocals) : TriLocals :=
  let v := if !v.changed1 then { v with t1x := wrapInt (v.t1x + v.signx1) } else v
  let v := { v with t1x := wrapInt (v.t1x + v.t1xp) }
  let v := if !v.changed2 then { v with t2x := wrapInt (v.t2x + v.signx2) } else v
  let v := { v with t2x := wrapInt (v.t2x + v.t2xp) }
  { v with y := wrapInt (v.y + 1) }

/-- First half on 32-bit `int`s, the loop `for (int i = 0; i < dx1;)`: the locals at
its end and the cells its `drawline` calls pass to `PaintPixel`.  `fuel` bounds the
iterations of each `drawline` call. -/
def firstHalf32 (fuel : Nat) (y2 : Int) :
    Nat → TriLocals → Option (TriLocals × List (Int × Int))
  | 0, v => if v.i < v.dx1 then none else some (v, [])
  | n + 1, v =>
    if v.i < v.dx1 then
      match firstEdge1_32 (n + 1) (rowStart v) with
      | none => none
      | some v =>
        match firstEdge2_32 (n + 1) v with
        | none => none
        | some v =>
          let v := rowMinMax v
          match drawline32 fuel v.minx v.maxx v.y with
          | none => none
          | some cells =>
            let v := rowAdvance32 v
            if v.y = y2 then some (v, cells)
            else (firstHalf32 fuel y2 n v).map (fun r => (r.1, cells ++ r.2))
    else some (v, [])

/-- Second half on 32-bit `int`s,
`while (e1 >= dx1) { e1 -= dx1; if (changed1) { t1xp = signx1; break; } else goto next3; }`. -/
def secondSub1_32 (v : TriLocals) : TriLocals × Bool :=
  if v.e1 ≥ v.dx1 then
    let v := { v with e1 := wrapInt (v.e1 - v.dx1) }
    if v.changed1 then ({ v with t1xp := v.signx1 }, false)
    else (v, true)
  else (v, false)

/-- Second half on 32-bit `int`s, the loop `while (i < dx1)` that walks the first
edge, up to the label `next3`. -/
def secondEdge1_32 : Nat → TriLocals → Option TriLocals
  | 0, v => if v.i < v.dx1 then none else some v
  | n + 1, v =>
    if v.i < v.dx1 then
      let v := { v with e1 := wrapInt (v.e1 + v.dy1) }
      match secondSub1_32 v with
      | (v, true) => some v
      | (v, false) =>
        if v.changed1 then some v
        else
          let v := { v with t1x := wrapInt (v.t1x + v.signx1) }
          let v := if v.i < v.dx1 then { v with i := wrapInt (v.i + 1) } else v
          secondEdge1_32 n v
    else some v

/-- Second half on 32-bit `int`s, the loop `while (t2x != x3)` that walks the second
edge, up to the label `next4`. -/
def secondEdge2_32 (x3 : Int) : Nat → TriLocals → Option TriLocals
  | 0, v => if v.t2x ≠ x3 then none else some v
  | n + 1, v =>
    if v.t2x ≠ x3 then
      let v := { v with e2 := wrapInt (v.e2 + v.dy2) }
      match sub2_32 (n + 1) v with
      | none => none
      | some (v, true) => some v
      | some (v, false) =>
        if v.changed2 then some v
        else secondEdge2_32 x3 n { v with t2x := wrapInt (v.t2x + v.signx2) }
    else some v

/-- Second half on 32-bit `int`s, the loop `for (int i = 0; i <= dx1; i++)`: the
cells its `drawline` calls pass to `PaintPixel`.  `fuel` bounds the iterations of
each `drawline` call. -/
def secondHalf32 (fuel : Nat) (x3 y3 : Int) : Nat → TriLocals → Option (List (Int × Int))
  | 0, v => if v.i ≤ v.dx1 then none else some []
  | n + 1, v =>
    if v.i ≤ v.dx1 then
      match secondEdge1_32 (n + 1) (rowStart v) with
      | none => none
      | some v =>
        match secondEdge2_32 x3 (n + 1) v with
        | none => none
        | some v =>
          let v := rowMinMax v
          match drawline32 fuel v.minx v.maxx v.y with
          | none => none
          | some cells =>
            let v := rowAdvance32 v
            if v.y > y3 then some cells
            else
              (secondHalf32 fuel x3 y3 n { v with i := wrapInt (v.i + 1) }).map
                (fun r => cells ++ r)
    else some []

/-- The locals of `FillTriangle` on 32-bit `int`s after the set-up that precedes
`if (y1 == y2)`, for vertices that are already sorted.  Locals that are still unset
get `0`. -/
def triSetup32 (x1 y1 x2 y2 x3 y3 : Int) : TriLocals :=
  let dx1 := wrapInt (x2 - x1)
  let signx1 : Int := if dx1 < 0 then -1 else 1
  let dx1 := if dx1 < 0 then wrapInt (-dx1) else dx1
  let dy1 := wrapInt (y2 - y1)
  let dx2 := wrapInt (x3 - x1)
  let signx2 : Int := if dx2 < 0 then -1 else 1
  let dx2 := if dx2 < 0 then wrapInt (-dx2) else dx2
  let dy2 := wrapInt (y3 - y1)
  let changed1 := decide (dy1 > dx1)
  let (dx1, dy1) := if dy1 > dx1 then (dy1, dx1) else (dx1, dy1)
  let changed2 := decide (dy2 > dx2)
  let (dx2, dy2) := if dy2 > dx2 then (dy2, dx2) else (dx2, dy2)
  { t1x := x1, t2x := x1, y := y1, minx := 0, maxx := 0, t1xp := 0, t2xp := 0,
    changed1 := changed1, changed2 := changed2, signx1 := signx1, signx2 := signx2,
    dx1 := dx1, dy1 := dy1, dx2 := dx2, dy2 := dy2, e1 := 0, e2 := dx2 / 2, i := 0 }

/-- The assignments after the label `next` on 32-bit `int`s, before the second `for`
loop. -/
def triSecondSetup32 (x2 y2 x3 y3 : Int) (v : TriLocals) : TriLocals :=
  let dx1 := wrapInt (x3 - x2)
  let signx1 : Int := if dx1 < 0 then -1 else 1
  let dx1 := if dx1 < 0 then wrapInt (-dx1) else dx1
  let dy1 := wrapInt (y3 - y2)
  let changed1 := decide (dy1 > dx1)
  let (dx1, dy1) := if dy1 > dx1 then (dy1, dx1) else (dx1, dy1)
  { v with dx1 := dx1, signx1 := signx1, dy1 := dy1, t1x := x2, changed1 := changed1,
           e1 := dx1 / 2, i := 0 }

/-- The cells `FillTriangle(x1, y1, x2, y2, x3, y3)` passes to `PaintPixel` on 32-bit
`int`s, in order.  The first argument bounds the iterations of every loop; `none`
means a loop reached the bound with its condition still true. -/
def FillTriangle32 (fuel : Nat) (x1 y1 x2 y2 x3 y3 : Int) : Option (List (Int × Int)) :=
  match sortVertices x1 y1 x2 y2 x3 y3 with
  | ((x1, y1), (x2, y2), (x3, y3)) =>
    let v := triSetup32 x1 y1 x2 y2 x3 y3
    if y1 = y2 then
      secondHalf32 fuel x3 y3 fuel (triSecondSetup32 x2 y2 x3 y3 v)
    else
      match firstHalf32 fuel y2 fuel { v with e1 := v.dx1 / 2, i := 0 } with
      | none => none
      | some (v, cells) =>
        (secondHalf32 fuel x3 y3 fuel (triSecondSetup32 x2 y2 x3 y3 v)).map
          (fun r => cells ++ r)

/-- The cells of a list of `drawline` calls `(minx, maxx, y)`, in call order. -/
def spanCells (spans : List (Int × Int × Int)) : List (Int × Int) :=
  (spans.map (fun sp => drawline sp.1 sp.2.1 sp.2.2)).flatten

/-- What keeps the walk along the first edge clear of overflow on 32-bit `int`s,
for an edge that starts at column `X` in row `Y`: the error term `e1` is in
`0 .. dx1`, the counter `i` in `0 .. dx1 + 1`, and `t1x` is at most `i` steps plus
one step per row away from `X`; the extents are at most `2^29` and `X`, `Y` and `y`
at most `2^28` in absolute value. -/
def Edge1Ok (X Y : Int) (v : TriLocals) : Prop :=
  (v.signx1 = 1 ∨ v.signx1 = -1) ∧ 0 ≤ v.dy1 ∧ v.dy1 ≤ v.dx1 ∧ v.dx1 ≤ 536870912
  ∧ 0 ≤ v.e1 ∧ v.e1 ≤ v.dx1 ∧ 0 ≤ v.i ∧ v.i ≤ v.dx1 + 1
  ∧ -268435456 ≤ X ∧ X ≤ 268435456 ∧ -268435456 ≤ Y ∧ Y ≤ v.y ∧ v.y ≤ 268435456
  ∧ X - (v.i + (v.y - Y)) ≤ v.t1x ∧ v.t1x ≤ X + (v.i + (v.y - Y))

/-- What keeps the walk along the second edge clear of overflow on 32-bit `int`s,
for an edge from column `X` in row `Y` down to row `y3`: the error term `e2` is in
`0 .. dx2`; when the edge is steep (`changed2`), `t2x` is at most one step per row
away from `X`; otherwise the distance of `t2x` from `X`, times `dy2`, is bounded by
the error term and the rows done.  `k` is `0` at the top of a row and `1` after the
walk, before `t2x` takes the step that belongs to the row. -/
def Edge2Ok (X Y y3 k : Int) (v : TriLocals) : Prop :=
  (v.signx2 = 1 ∨ v.signx2 = -1) ∧ 0 ≤ v.dy2 ∧ v.dy2 ≤ v.dx2 ∧ v.dx2 ≤ 536870912
  ∧ 0 ≤ v.e2 ∧ v.e2 ≤ v.dx2
  ∧ -268435456 ≤ X ∧ X ≤ 268435456 ∧ -268435456 ≤ Y ∧ Y ≤ v.y ∧ v.y ≤ y3
  ∧ y3 ≤ 268435456
  ∧ (v.changed2 = true → X - (v.y - Y) ≤ v.t2x ∧ v.t2x ≤ X + (v.y - Y))
  ∧ (v.changed2 = false → 0 < v.dy2 ∧ v.dy2 = y3 - Y
      ∧ (v.t2x - X) * v.dy2 + k * v.dy2 ≤ v.e2 + (v.y - Y + k) * v.dx2
      ∧ (X - v.t2x) * v.dy2 + k * v.dy2 ≤ v.e2 + (v.y - Y + k) * v.dx2)

/-- The cell found at column `x`, row `y` of the grid. -/
def cellAt (s : ConsoleGraphicsEngine) (x y : Int) : CHAR_INFO :=
  s.screen (y * s.screenWidth + x)

/-! ## Theorems -/

/-- C1: a `PaintPixel` call whose coordinates lie outside the grid leaves every
cell unchanged. -/
theorem PaintPixel_outside (s : ConsoleGraphicsEngine) (x y pixelChar color : Int)
    (_hw : 0 < s.screenWidth) (_hh : 0 < s.screenHeight)
    (hout : x < 0 ∨ x ≥ s.screenWidth ∨ y < 0 ∨ y ≥ s.screenHeight) :
    ∀ i : Int, (PaintPixel s x y pixelChar color).screen i = s.screen i := by
  intro i
  have hc : x ≥ s.screenWidth ∨ y ≥ s.screenHeight ∨ x < 0 ∨ y < 0 := by
    rcases hout with h | h | h | h
    · exact Or.inr (Or.inr (Or.inl h))
    · exact Or.inl h
    · exact Or.inr (Or.inr (Or.inr h))
    · exact Or.inr (Or.inl h)
  simp only [PaintPixel, if_pos hc]

theorem PaintPixel_outside_witness :
    (0 < (ConstructConsole mk0 4 3).screenWidth ∧ 0 < (ConstructConsole mk0 4 3).screenHeight
        ∧ (4 : Int) ≥ (ConstructConsole mk0 4 3).screenWidth)
      ∧ ∀ i : Int, (PaintPixel (ConstructConsole mk0 4 3) 4 1 0x2588 0x000F).screen i
          = (ConstructConsole mk0 4 3).screen i :=
  ⟨by decide, PaintPixel_outside (ConstructConsole mk0 4 3) 4 1 0x2588 0x000F
    (by decide) (by decide) (by decide)⟩

/-! ### Single stores -/

theorem setUnicodeChar_same (m : Int → CHAR_INFO) (i v : Int) :
    setUnicodeChar m i v i = ⟨toWord v, (m i).Attributes⟩ := by
  simp [setUnicodeChar]

theorem setUnicodeChar_other (m : Int → CHAR_INFO) (i v j : Int) (h : j ≠ i) :
    setUnicodeChar m i v j = m j := by
  simp [setUnicodeChar, h]

theorem setAttributes_same (m : Int → CHAR_INFO) (i v : Int) :
    setAttributes m i v i = ⟨(m i).UnicodeChar, toWord v⟩ := by
  simp [setAttributes]

theorem setAttributes_other (m : Int → CHAR_INFO) (i v j : Int) (h : j ≠ i) :
    setAttributes m i v j = m j := by
  simp [setAttributes, h]

/-- Both stores of one `PaintPixel` call, read back at any offset. -/
theorem paint_stores (m : Int → CHAR_INFO) (i c col j : Int) :
    setAttributes (setUnicodeChar m i c) i col j
      = if j = i then ⟨toWord c, toWord col⟩ else m j := by
  by_cases h : j = i
  · subst h
    simp [setAttributes, setUnicodeChar]
  · simp [setAttributes, setUnicodeChar, h]

/-- The memory after `PaintPixel`, offset by offset. -/
theorem PaintPixel_screen (s : ConsoleGraphicsEngine) (x y c col j : Int) :
    (PaintPixel s x y c col).screen j
      = if (0 ≤ x ∧ x < s.screenWidth ∧ 0 ≤ y ∧ y < s.screenHeight)
            ∧ j = s.screenWidth * y + x
        then ⟨toWord c, toWord col⟩ else s.screen j := by
  unfold PaintPixel
  by_cases hc : x ≥ s.screenWidth ∨ y ≥ s.screenHeight ∨ x < 0 ∨ y < 0
  · rw [if_pos hc, if_neg]
    rintro ⟨⟨h1, h2, h3, h4⟩, -⟩
    omega
  · rw [if_neg hc]
    have hin : 0 ≤ x ∧ x < s.screenWidth ∧ 0 ≤ y ∧ y < s.screenHeight := by omega
    simp only [paint_stores, hin, true_and]

theorem PaintPixel_screenWidth (s : ConsoleGraphicsEngine) (x y c col : Int) :
    (PaintPixel s x y c col).screenWidth = s.screenWidth := by
  unfold PaintPixel
  split <;> rfl

theorem PaintPixel_screenHeight (s : ConsoleGraphicsEngine) (x y c col : Int) :
    (PaintPixel s x y c col).screenHeight = s.screenHeight := by
  unfold PaintPixel
  split <;> rfl

/-- C7: an in-range `PaintPixel(x, y, char, colour)` stores the 16-bit patterns of
`char` and `colour` in the cell at offset `y * width + x` and changes no other
cell. -/
theorem PaintPixel_inside (s : ConsoleGraphicsEngine) (x y pixelChar color : Int)
    (hx : 0 ≤ x ∧ x < s.screenWidth) (hy : 0 ≤ y ∧ y < s.screenHeight) :
    (PaintPixel s x y pixelChar color).screen (y * s.screenWidth + x)
        = ⟨toWord pixelChar, toWord color⟩
      ∧ ∀ i : Int, i ≠ y * s.screenWidth + x →
          (PaintPixel s x y pixelChar color).screen i = s.screen i := by
  have hidx : y * s.screenWidth + x = s.screenWidth * y + x := by rw [Int.mul_comm]
  refine ⟨?_, ?_⟩
  · rw [PaintPixel_screen, hidx, if_pos ⟨⟨hx.1, hx.2, hy.1, hy.2⟩, rfl⟩]
  · intro i hi
    rw [PaintPixel_screen, if_neg]
    rintro ⟨-, h⟩
    exact hi (h.trans hidx.symm)

theorem PaintPixel_inside_witness :
    (PaintPixel (ConstructConsole mk0 4 3) 2 1 0x2588 0x000F).screen (1 * 4 + 2)
        = ⟨0x2588, 0x000F⟩
      ∧ ∀ i : Int, i ≠ 1 * 4 + 2 →
          (PaintPixel (ConstructConsole mk0 4 3) 2 1 0x2588 0x000F).screen i
            = (ConstructConsole mk0 4 3).screen i :=
  PaintPixel_inside (ConstructConsole mk0 4 3) 2 1 0x2588 0x000F
    (by decide) (by decide)

/-- What `GetPixel` returns right after an in-range `PaintPixel` at the same
place: the low byte of the character, read as a signed `char`. -/
theorem GetPixel_PaintPixel (s : ConsoleGraphicsEngine) (x y pixelChar color : Int)
    (hx : 0 ≤ x ∧ x < s.screenWidth) (hy : 0 ≤ y ∧ y < s.screenHeight) :
    GetPixel (PaintPixel s x y pixelChar color) x y = toChar (toWord pixelChar) := by
  unfold GetPixel
  rw [PaintPixel_screenWidth, PaintPixel_screen,
    if_pos ⟨⟨hx.1, hx.2, hy.1, hy.2⟩, rfl⟩]

/-- C8 (the code at the failing input): on a 4 x 3 console, `GetPixel(1, 1)` right
after `PaintPixel(1, 1, 0x2588, 0x000F)` returns `-120`, the low byte `0x88` as a
signed `char`, and not the character `0x2588` that was stored. -/
theorem GetPixel_after_PaintPixel_block :
    GetPixel (PaintPixel (ConstructConsole mk0 4 3) 1 1 0x2588 0x000F) 1 1 = -120
      ∧ (PaintPixel (ConstructConsole mk0 4 3) 1 1 0x2588 0x000F).screen (4 * 1 + 1)
          = ⟨0x2588, 0x000F⟩ := by
  decide

/-! ### ClearScreen -/

/-- The loop of `ClearScreen`, started at `i` with exactly the iterations left that
take it to `screenSize`, blanks the offsets `i .. screenSize - 1` and nothing else. -/
theorem ClearScreenLoop_spec (size bc bcol : Int) :
    ∀ (n : Nat) (i : Int) (m : Int → CHAR_INFO), i + n = size → ∀ j : Int,
      ClearScreenLoop size bc bcol n i m j
        = if i ≤ j ∧ j < size then ⟨toWord bc, toWord bcol⟩ else m j := by
  intro n
  induction n with
  | zero =>
    intro i m h j
    have : ¬ (i ≤ j ∧ j < size) := by omega
    simp [ClearScreenLoop, this]
  | succ n ih =>
    intro i m h j
    have hlt : i < size := by omega
    rw [ClearScreenLoop, if_pos hlt, ih (i + 1) _ (by omega) j, paint_stores]
    by_cases hji : j = i
    · subst hji
      have h1 : ¬ (j + 1 ≤ j ∧ j < size) := by omega
      have h2 : j ≤ j ∧ j < size := by omega
      simp [h1, h2]
    · by_cases hr : i + 1 ≤ j ∧ j < size
      · have h2 : i ≤ j ∧ j < size := by omega
        simp [hr, h2]
      · have h2 : ¬ (i ≤ j ∧ j < size) := by omega
        simp [hr, h2, hji]

/-- The memory after `ClearScreen`, offset by offset. -/
theorem ClearScreen_screen (s : ConsoleGraphicsEngine) (hs : 0 ≤ s.screenSize) (j : Int) :
    (ClearScreen s).screen j
      = if j = s.screenSize - 1 then
          ⟨0, if 0 ≤ j then toWord s.blankColor else (s.screen j).Attributes⟩
        else if 0 ≤ j ∧ j < s.screenSize then ⟨toWord s.blankChar, toWord s.blankColor⟩
        else s.screen j := by
  have hn : (0 : Int) + (s.screenSize.toNat : Nat) = s.screenSize := by
    rw [Int.toNat_of_nonneg hs]; omega
  unfold ClearScreen
  simp only
  by_cases hj : j = s.screenSize - 1
  · rw [if_pos hj, hj, setUnicodeChar_same, ClearScreenLoop_spec _ _ _ _ _ _ hn]
    by_cases h0 : 0 ≤ s.screenSize - 1
    · have : 0 ≤ s.screenSize - 1 ∧ s.screenSize - 1 < s.screenSize := by omega
      simp [this, h0, toWord]
    · have : ¬ (0 ≤ s.screenSize - 1 ∧ s.screenSize - 1 < s.screenSize) := by omega
      simp [this, h0, toWord]
  · rw [if_neg hj, setUnicodeChar_other _ _ _ _ hj, ClearScreenLoop_spec _ _ _ _ _ _ hn]

/-- C6 (the code at the failing input): on a 2 x 2 console with the default blank
cell `(' ', FG_BLACK)`, not every cell of the grid holds the blank cell after
`ClearScreen`: the character of the cell `(1, 1)` is `0`. -/
theorem ClearScreen_not_all_blank :
    ¬ (∀ x y : Int, 0 ≤ x → x < 2 → 0 ≤ y → y < 2 →
        cellAt (ClearScreen (ConstructConsole mk0 2 2)) x y
          = ⟨toWord (ConstructConsole mk0 2 2).blankChar,
             toWord (ConstructConsole mk0 2 2).blankColor⟩) := by
  intro h
  have h11 := h 1 1 (by decide) (by decide) (by decide) (by decide)
  revert h11
  decide

/-- What `ClearScreen` leaves in the grid, for a buffer with `width, height > 0`
and `screenSize = width * height`: every cell `(x, y)` other than the last one,
`(width - 1, height - 1)`, holds the blank cell `(blankChar, blankColor)`, and the
store of line 316 leaves the character `0` in the last cell. -/
theorem ClearScreen_cells (s : ConsoleGraphicsEngine)
    (hw : 0 < s.screenWidth) (hh : 0 < s.screenHeight)
    (hsize : s.screenSize = s.screenWidth * s.screenHeight) :
    (∀ x y : Int, 0 ≤ x → x < s.screenWidth → 0 ≤ y → y < s.screenHeight →
        ¬ (x = s.screenWidth - 1 ∧ y = s.screenHeight - 1) →
        cellAt (ClearScreen s) x y = ⟨toWord s.blankChar, toWord s.blankColor⟩)
      ∧ cellAt (ClearScreen s) (s.screenWidth - 1) (s.screenHeight - 1)
          = ⟨0, toWord s.blankColor⟩ := by
  have hs : 0 ≤ s.screenSize := by
    rw [hsize]; exact Int.mul_nonneg (le_of_lt hw) (le_of_lt hh)
  have hwid : (ClearScreen s).screenWidth = s.screenWidth := rfl
  refine ⟨?_, ?_⟩
  · intro x y hx0 hx1 hy0 hy1 hne
    have hlast : y * s.screenWidth + x ≠ s.screenSize - 1 := by
      rw [hsize]
      intro heq
      apply hne
      have hyle : y ≤ s.screenHeight - 1 := by omega
      rcases lt_or_eq_of_le hyle with hlt | heq2
      · have h1 : (y + 1) * s.screenWidth ≤ (s.screenHeight - 1) * s.screenWidth :=
          Int.mul_le_mul_of_nonneg_right (by omega) (le_of_lt hw)
        nlinarith
      · subst heq2
        constructor
        · nlinarith
        · rfl
    have hin : 0 ≤ y * s.screenWidth + x ∧ y * s.screenWidth + x < s.screenSize := by
      rw [hsize]
      constructor
      · have := Int.mul_nonneg hy0 (le_of_lt hw)
        omega
      · have h1 : (y + 1) * s.screenWidth ≤ s.screenHeight * s.screenWidth :=
          Int.mul_le_mul_of_nonneg_right (by omega) (le_of_lt hw)
        nlinarith
    unfold cellAt
    rw [hwid, ClearScreen_screen s hs, if_neg hlast, if_pos hin]
  · have hidx : (s.screenHeight - 1) * s.screenWidth + (s.screenWidth - 1)
        = s.screenSize - 1 := by
      rw [hsize]; ring
    have h0 : (0 : Int) ≤ s.screenSize - 1 := by
      have : 1 ≤ s.screenWidth * s.screenHeight := by nlinarith
      omega
    unfold cellAt
    rw [hwid, hidx, ClearScreen_screen s hs, if_pos rfl, if_pos h0]

theorem ClearScreen_cells_witness :
    (∀ x y : Int, 0 ≤ x → x < (ConstructConsole mk0 4 3).screenWidth →
        0 ≤ y → y < (ConstructConsole mk0 4 3).screenHeight →
        ¬ (x = (ConstructConsole mk0 4 3).screenWidth - 1
            ∧ y = (ConstructConsole mk0 4 3).screenHeight - 1) →
        cellAt (ClearScreen (ConstructConsole mk0 4 3)) x y = ⟨32, 0⟩)
      ∧ cellAt (ClearScreen (ConstructConsole mk0 4 3)) 3 2 = ⟨0, 0⟩ :=
  ClearScreen_cells (ConstructConsole mk0 4 3) (by decide) (by decide) (by decide)

/-- The sibling `ClearScreenPixel` on the same cell: on a 2 x 2 console whose blank
character is `0x2588`, the cell `(1, 1)` holds `0x2588` after `ClearScreenPixel(1, 1)`
and `0` after `ClearScreen`. -/
theorem ClearScreenPixel_last_cell :
    cellAt (ClearScreenPixel (ConstructConsole (mk2 0x2588 0x000F) 2 2) 1 1) 1 1
        = ⟨0x2588, 0x000F⟩
    ∧ cellAt (ClearScreen (ConstructConsole (mk2 0x2588 0x000F) 2 2)) 1 1
        = ⟨0, 0x000F⟩ := by
  decide

/-! ### DrawBorder -/

/-- C10 (the code at the failing input): on a 3 x 6 console filled with blanks,
`DrawBorder(0x2588, 0x000F)` leaves the ring cells `(0, 4)` and `(2, 4)` as they
were, although it does write the ring cells `(0, 3)` and `(2, 3)` of the row above
and the ring cell `(0, 5)` of the row below. -/
theorem DrawBorder_tall_misses_ring :
    cellAt (DrawBorder (ConstructConsole mk0 3 6) 0x2588 0x000F) 0 4 = ⟨32, 0⟩
      ∧ cellAt (DrawBorder (ConstructConsole mk0 3 6) 0x2588 0x000F) 2 4 = ⟨32, 0⟩
      ∧ cellAt (DrawBorder (ConstructConsole mk0 3 6) 0x2588 0x000F) 0 3 = ⟨0x2588, 0x000F⟩
      ∧ cellAt (DrawBorder (ConstructConsole mk0 3 6) 0x2588 0x000F) 2 3 = ⟨0x2588, 0x000F⟩
      ∧ cellAt (DrawBorder (ConstructConsole mk0 3 6) 0x2588 0x000F) 0 5 = ⟨0x2588, 0x000F⟩ := by
  decide

/-! ### Fill -/

/-- Two cells of the grid that share an offset are the same cell. -/
theorem offset_inj (w x y x' y' : Int) (hx : 0 ≤ x ∧ x < w) (hx' : 0 ≤ x' ∧ x' < w)
    (h : w * y + x = w * y' + x') : x = x' ∧ y = y' := by
  have hy : y = y' := by
    rcases lt_trichotomy y y' with hlt | heq | hgt
    · exfalso
      have h1 : w * (y + 1) ≤ w * y' := Int.mul_le_mul_of_nonneg_left (by omega) (by omega)
      nlinarith
    · exact heq
    · exfalso
      have h1 : w * (y' + 1) ≤ w * y := Int.mul_le_mul_of_nonneg_left (by omega) (by omega)
      nlinarith
  subst hy
  exact ⟨by omega, rfl⟩

/-- The inner loop of `Fill`, started at row `y` of column `x1` with the iterations
left that take it past `y2`: it keeps the dimensions, paints the cells of the
column in rows `y .. y2` that lie in the grid, and changes no other offset. -/
theorem FillInner_spec (x1 y2 c col : Int) :
    ∀ (n : Nat) (y : Int) (s : ConsoleGraphicsEngine), y + n = y2 + 1 →
      (FillInner x1 y2 c col n y s).screenWidth = s.screenWidth
      ∧ (FillInner x1 y2 c col n y s).screenHeight = s.screenHeight
      ∧ (∀ b : Int, y ≤ b → b ≤ y2 → 0 ≤ x1 → x1 < s.screenWidth → 0 ≤ b →
            b < s.screenHeight →
            (FillInner x1 y2 c col n y s).screen (s.screenWidth * b + x1)
              = ⟨toWord c, toWord col⟩)
      ∧ (∀ j : Int,
            (∀ b : Int, y ≤ b → b ≤ y2 → 0 ≤ x1 → x1 < s.screenWidth → 0 ≤ b →
              b < s.screenHeight → j ≠ s.screenWidth * b + x1) →
            (FillInner x1 y2 c col n y s).screen j = s.screen j) := by
  intro n
  induction n with
  | zero =>
    intro y s h
    refine ⟨rfl, rfl, ?_, ?_⟩
    · intro b hb1 hb2
      omega
    · intro j _
      rfl
  | succ n ih =>
    intro y s h
    have hle : y ≤ y2 := by omega
    rw [FillInner, if_pos hle]
    obtain ⟨hw, hh, hA, hB⟩ := ih (y + 1) (PaintPixel s x1 y c col) (by omega)
    rw [PaintPixel_screenWidth] at hw hA hB
    rw [PaintPixel_screenHeight] at hh hA hB
    refine ⟨hw, hh, ?_, ?_⟩
    · intro b hb1 hb2 hx0 hx1 hb0 hbh
      rcases eq_or_lt_of_le hb1 with heq | hlt
      · subst heq
        rw [hB, PaintPixel_screen, if_pos ⟨⟨hx0, hx1, hb0, hbh⟩, rfl⟩]
        intro b' hb' _ _ _ _ _ heq
        have := (offset_inj _ _ _ _ _ ⟨hx0, hx1⟩ ⟨hx0, hx1⟩ heq).2
        omega
      · exact hA b (by omega) hb2 hx0 hx1 hb0 hbh
    · intro j hj
      rw [hB, PaintPixel_screen, if_neg]
      · rintro ⟨⟨hx0, hx1, hy0, hyh⟩, heq⟩
        exact hj y (le_refl y) hle hx0 hx1 hy0 hyh heq
      · intro b hb1 hb2 hx0 hx1 hb0 hbh
        exact hj b (by omega) hb2 hx0 hx1 hb0 hbh

/-- The outer loop of `Fill`, started at column `x` with the iterations left that
take it past `x2`: it paints the cells of the columns `x .. x2`, rows
`ystart .. y2`, that lie in the grid, and changes no other offset. -/
theorem FillOuter_spec (ystart x2 y2 c col : Int) (hy : ystart ≤ y2 + 1) :
    ∀ (n : Nat) (x : Int) (s : ConsoleGraphicsEngine), x + n = x2 + 1 →
      (FillOuter ystart x2 y2 c col n x s).screenWidth = s.screenWidth
      ∧ (FillOuter ystart x2 y2 c col n x s).screenHeight = s.screenHeight
      ∧ (∀ a b : Int, x ≤ a → a ≤ x2 → ystart ≤ b → b ≤ y2 → 0 ≤ a →
            a < s.screenWidth → 0 ≤ b → b < s.screenHeight →
            (FillOuter ystart x2 y2 c col n x s).screen (s.screenWidth * b + a)
              = ⟨toWord c, toWord col⟩)
      ∧ (∀ j : Int,
            (∀ a b : Int, x ≤ a → a ≤ x2 → ystart ≤ b → b ≤ y2 → 0 ≤ a →
              a < s.screenWidth → 0 ≤ b → b < s.screenHeight →
              j ≠ s.screenWidth * b + a) →
            (FillOuter ystart x2 y2 c col n x s).screen j = s.screen j) := by
  intro n
  induction n with
  | zero =>
    intro x s h
    refine ⟨rfl, rfl, ?_, ?_⟩
    · intro a b ha1 ha2
      omega
    · intro j _
      rfl
  | succ n ih =>
    intro x s h
    have hle : x ≤ x2 := by omega
    have hfuel : ystart + ((y2 + 1 - ystart).toNat : Nat) = y2 + 1 := by
      rw [Int.toNat_of_nonneg (by omega)]; omega
    rw [FillOuter, if_pos hle]
    obtain ⟨hw1, hh1, hA1, hB1⟩ := FillInner_spec x y2 c col _ ystart s hfuel
    obtain ⟨hw, hh, hA, hB⟩ :=
      ih (x + 1) (FillInner x y2 c col (y2 + 1 - ystart).toNat ystart s) (by omega)
    rw [hw1] at hw hA hB
    rw [hh1] at hh hA hB
    refine ⟨hw, hh, ?_, ?_⟩
    · intro a b ha1 ha2 hb1 hb2 ha0 haw hb0 hbh
      rcases eq_or_lt_of_le ha1 with heq | hlt
      · subst heq
        rw [hB, hA1 b hb1 hb2 ha0 haw hb0 hbh]
        intro a' b' ha' _ _ _ ha'0 ha'w _ _ heq
        have := (offset_inj _ _ _ _ _ ⟨ha0, haw⟩ ⟨ha'0, ha'w⟩ heq).1
        omega
      · exact hA a b (by omega) ha2 hb1 hb2 ha0 haw hb0 hbh
    · intro j hj
      rw [hB, hB1]
      · intro b hb1 hb2 hx0 hxw hb0 hbh
        exact hj x b (le_refl x) hle hb1 hb2 hx0 hxw hb0 hbh
      · intro a b ha1 ha2 hb1 hb2 ha0 haw hb0 hbh
        exact hj a b (by omega) ha2 hb1 hb2 ha0 haw hb0 hbh

/-- `Fill` over unbounded integers: for `x1 <= x2` and `y1 <= y2`, after
`Fill(x1, y1, x2, y2, char, colour)` every cell `(x, y)` of the grid inside the closed rectangle holds `(char, colour)`,
every cell of the grid outside the rectangle is unchanged, and so is every offset
that is not a grid cell of the rectangle. -/
theorem Fill_spec (s : ConsoleGraphicsEngine) (x1 y1 x2 y2 inputChar color : Int)
    (hx : x1 ≤ x2) (hy : y1 ≤ y2) :
    (∀ x y : Int, 0 ≤ x → x < s.screenWidth → 0 ≤ y → y < s.screenHeight →
        x1 ≤ x → x ≤ x2 → y1 ≤ y → y ≤ y2 →
        cellAt (Fill s x1 y1 x2 y2 inputChar color) x y
          = ⟨toWord inputChar, toWord color⟩)
      ∧ (∀ x y : Int, 0 ≤ x → x < s.screenWidth → 0 ≤ y → y < s.screenHeight →
          ¬ (x1 ≤ x ∧ x ≤ x2 ∧ y1 ≤ y ∧ y ≤ y2) →
          cellAt (Fill s x1 y1 x2 y2 inputChar color) x y = cellAt s x y)
      ∧ (∀ j : Int,
          (∀ x y : Int, 0 ≤ x → x < s.screenWidth → 0 ≤ y → y < s.screenHeight →
            x1 ≤ x → x ≤ x2 → y1 ≤ y → y ≤ y2 → j ≠ y * s.screenWidth + x) →
          (Fill s x1 y1 x2 y2 inputChar color).screen j = s.screen j) := by
  have hfuel : x1 + ((x2 + 1 - x1).toNat : Nat) = x2 + 1 := by
    rw [Int.toNat_of_nonneg (by omega)]; omega
  obtain ⟨hw, _, hA, hB⟩ :=
    FillOuter_spec y1 x2 y2 inputChar color (by omega) _ x1 s hfuel
  have hcomm : ∀ x y : Int, y * s.screenWidth + x = s.screenWidth * y + x := by
    intro x y; rw [Int.mul_comm]
  refine ⟨?_, ?_, ?_⟩
  · intro x y hx0 hxw hy0 hyh h1 h2 h3 h4
    unfold cellAt Fill
    rw [hw, hcomm]
    exact hA x y h1 h2 h3 h4 hx0 hxw hy0 hyh
  · intro x y hx0 hxw hy0 hyh hout
    unfold cellAt Fill
    rw [hw, hcomm]
    apply hB
    intro a b ha1 ha2 hb1 hb2 ha0 haw _ _ heq
    obtain ⟨hxa, hyb⟩ := offset_inj _ _ _ _ _ ⟨hx0, hxw⟩ ⟨ha0, haw⟩ heq
    subst hxa hyb
    exact hout ⟨ha1, ha2, hb1, hb2⟩
  · intro j hj
    unfold Fill
    apply hB
    intro a b ha1 ha2 hb1 hb2 ha0 haw hb0 hbh heq
    exact hj a b ha0 haw hb0 hbh ha1 ha2 hb1 hb2 (heq.trans (hcomm a b).symm)

theorem Fill_spec_witness :
    (∀ x y : Int, 0 ≤ x → x < (ConstructConsole mk0 6 4).screenWidth →
        0 ≤ y → y < (ConstructConsole mk0 6 4).screenHeight →
        1 ≤ x → x ≤ 8 → 1 ≤ y → y ≤ 2 →
        cellAt (Fill (ConstructConsole mk0 6 4) 1 1 8 2 65 0x000F) x y
          = ⟨toWord 65, toWord 0x000F⟩)
      ∧ (∀ x y : Int, 0 ≤ x → x < (ConstructConsole mk0 6 4).screenWidth →
          0 ≤ y → y < (ConstructConsole mk0 6 4).screenHeight →
          ¬ (1 ≤ x ∧ x ≤ 8 ∧ 1 ≤ y ∧ y ≤ 2) →
          cellAt (Fill (ConstructConsole mk0 6 4) 1 1 8 2 65 0x000F) x y
            = cellAt (ConstructConsole mk0 6 4) x y)
      ∧ (∀ j : Int,
          (∀ x y : Int, 0 ≤ x → x < (ConstructConsole mk0 6 4).screenWidth →
            0 ≤ y → y < (ConstructConsole mk0 6 4).screenHeight →
            1 ≤ x → x ≤ 8 → 1 ≤ y → y ≤ 2 →
            j ≠ y * (ConstructConsole mk0 6 4).screenWidth + x) →
          (Fill (ConstructConsole mk0 6 4) 1 1 8 2 65 0x000F).screen j
            = (ConstructConsole mk0 6 4).screen j) :=
  Fill_spec (ConstructConsole mk0 6 4) 1 1 8 2 65 0x000F (by decide) (by decide)

/-! ### ProcessKeys: the keyboard loop -/

/-- What the keyboard loop body for code `k` leaves in `keys[k]`, in terms of the
previous derived state, the previous raw sample and the new raw sample. -/
theorem keyboardBody_keys_same (G : Nat → Nat) (s : ConsoleGraphicsEngine) (k : Nat) :
    (keyboardBody G s k).keys k
      = if G k % 65536 ≠ s.keyOldState k then
          (if G k % 65536 &&& 0x8000 ≠ 0 then ⟨!(s.keys k).held, false, true⟩
           else ⟨false, true, false⟩)
        else ⟨false, false, (s.keys k).held⟩ := by
  simp only [keyboardBody, Function.update_same]

theorem keyboardBody_keyOldState_same (G : Nat → Nat) (s : ConsoleGraphicsEngine) (k : Nat) :
    (keyboardBody G s k).keyOldState k = G k % 65536 := by
  simp [keyboardBody]

theorem keyboardBody_keys_other (G : Nat → Nat) (s : ConsoleGraphicsEngine) (i k : Nat)
    (h : k ≠ i) : (keyboardBody G s i).keys k = s.keys k := by
  simp [keyboardBody, Function.update_noteq h]

theorem keyboardBody_keyOldState_other (G : Nat → Nat) (s : ConsoleGraphicsEngine)
    (i k : Nat) (h : k ≠ i) : (keyboardBody G s i).keyOldState k = s.keyOldState k := by
  simp [keyboardBody, Function.update_noteq h]

/-- The keyboard loop, started at code `i` with the iterations left that take it to
`256`: the codes `i .. 255` get the result of their own loop body, computed from
the state before the loop; the other entries are unchanged. -/
theorem keyboardLoop_spec (G : Nat → Nat) :
    ∀ (n i : Nat) (s : ConsoleGraphicsEngine), i + n = 256 → ∀ k : Nat,
      ((keyboardLoop G n i s).keys k
          = if i ≤ k ∧ k < 256 then (keyboardBody G s k).keys k else s.keys k)
      ∧ ((keyboardLoop G n i s).keyOldState k
          = if i ≤ k ∧ k < 256 then G k % 65536 else s.keyOldState k) := by
  intro n
  induction n with
  | zero =>
    intro i s h k
    have : ¬ (i ≤ k ∧ k < 256) := by omega
    simp [keyboardLoop, this]
  | succ n ih =>
    intro i s h k
    have hlt : i < 256 := by omega
    rw [keyboardLoop, if_pos hlt]
    obtain ⟨h1, h2⟩ := ih (i + 1) (keyboardBody G s i) (by omega) k
    rw [h1, h2]
    by_cases hki : k = i
    · subst hki
      have ha : ¬ (k + 1 ≤ k ∧ k < 256) := by omega
      have hb : k ≤ k ∧ k < 256 := by omega
      simp [ha, hb, keyboardBody_keyOldState_same]
    · by_cases hr : i + 1 ≤ k ∧ k < 256
      · have hb : i ≤ k ∧ k < 256 := by omega
        simp only [hr, hb, and_self, if_true, and_true]
        rw [keyboardBody_keys_same, keyboardBody_keys_same,
          keyboardBody_keys_other G s i k hki, keyboardBody_keyOldState_other G s i k hki]
      · have hb : ¬ (i ≤ k ∧ k < 256) := by omega
        simp only [hr, hb, if_false]
        exact ⟨keyboardBody_keys_other G s i k hki,
          keyboardBody_keyOldState_other G s i k hki⟩

theorem eventBody_keys (s : ConsoleGraphicsEngine) (ev : INPUT_RECORD) :
    (eventBody s ev).keys = s.keys ∧ (eventBody s ev).keyOldState = s.keyOldState := by
  cases ev with
  | MOUSE_EVENT e =>
    simp only [eventBody]
    split
    · exact ⟨rfl, rfl⟩
    · split <;> exact ⟨rfl, rfl⟩
  | other => exact ⟨rfl, rfl⟩

theorem events_keys (input : List INPUT_RECORD) :
    ∀ s : ConsoleGraphicsEngine,
      (input.foldl eventBody s).keys = s.keys
      ∧ (input.foldl eventBody s).keyOldState = s.keyOldState := by
  induction input with
  | nil => intro s; exact ⟨rfl, rfl⟩
  | cons ev rest ih =>
    intro s
    rw [List.foldl_cons]
    obtain ⟨h1, h2⟩ := ih (eventBody s ev)
    rw [h1, h2]
    exact eventBody_keys s ev

theorem mouseLoop_keys :
    ∀ (n j : Nat) (s : ConsoleGraphicsEngine),
      (mouseLoop n j s).keys = s.keys ∧ (mouseLoop n j s).keyOldState = s.keyOldState := by
  intro n
  induction n with
  | zero => intro j s; exact ⟨rfl, rfl⟩
  | succ n ih =>
    intro j s
    rw [mouseLoop]
    split
    · obtain ⟨h1, h2⟩ := ih (j + 1) (mouseBody s j)
      rw [h1, h2]
      exact ⟨rfl, rfl⟩
    · exact ⟨rfl, rfl⟩

/-- One tick of `ProcessKeys`, seen from the key code `k < 256`: the derived state
and the stored raw sample after the tick. -/
theorem ProcessKeys_keys (s : ConsoleGraphicsEngine) (G : Nat → Nat)
    (input : List INPUT_RECORD) (k : Nat) (hk : k < 256) :
    (ProcessKeys s G input).keys k
        = (if G k % 65536 ≠ s.keyOldState k then
            (if G k % 65536 &&& 0x8000 ≠ 0 then ⟨!(s.keys k).held, false, true⟩
             else ⟨false, true, false⟩)
          else ⟨false, false, (s.keys k).held⟩)
      ∧ (ProcessKeys s G input).keyOldState k = G k % 65536 := by
  unfold ProcessKeys
  obtain ⟨h1, h2⟩ := mouseLoop_keys 5 0 (input.foldl eventBody (keyboardLoop G 256 0 s))
  obtain ⟨h3, h4⟩ := events_keys input (keyboardLoop G 256 0 s)
  obtain ⟨h5, h6⟩ := keyboardLoop_spec G 256 0 s (by omega) k
  have hb : 0 ≤ k ∧ k < 256 := by omega
  rw [h1, h2, h3, h4, h5, h6, if_pos hb, if_pos hb, keyboardBody_keys_same]
  exact ⟨rfl, rfl⟩

/-- C5 (the code at the failing input): from the initial state, one tick in which
the raw sample of key code 65 is `0x0001` (bit `0x8000` clear, as in the initial
sample `0`) makes `ProcessKeys` report `released` for that key, while the row
`(F, F)` of the transition table is `(F, F, F)`. -/
theorem ProcessKeys_low_bit_released :
    GetKeyState (ProcessKeys mk0 (fun i => if i = 65 then 0x0001 else 0) []) 65
        = ⟨false, true, false⟩
      ∧ isDown (mk0.keyOldState 65) = false
      ∧ isDown 0x0001 = false
      ∧ transitionRow (isDown (mk0.keyOldState 65)) (isDown 0x0001)
          = ⟨false, false, false⟩ := by
  refine ⟨?_, by decide, by decide, by decide⟩
  unfold GetKeyState
  rw [(ProcessKeys_keys mk0 _ [] 65 (by decide)).1]
  decide

/-! ### DrawCircle -/

/-- The rounded offset is the one integer `j` with `-b < 2*k*a - 2*j*b <= b`. -/
theorem lineMinor_eq (a b k j : Int) (hb : 0 < b)
    (h1 : -b < 2 * k * a - 2 * j * b) (h2 : 2 * k * a - 2 * j * b ≤ b) :
    lineMinor a b k = j := by
  unfold lineMinor
  have hb2 : 0 < 2 * b := by omega
  apply le_antisymm
  · have : (2 * k * a + b - 1) / (2 * b) < j + 1 := by
      rw [Int.ediv_lt_iff_lt_mul hb2]
      linarith
    omega
  · rw [Int.le_ediv_iff_mul_le hb2]
    linarith

/-- The defining bounds of the rounded offset. -/
theorem lineMinor_bounds (a b k : Int) (hb : 0 < b) :
    -b < 2 * k * a - 2 * lineMinor a b k * b ∧ 2 * k * a - 2 * lineMinor a b k * b ≤ b := by
  unfold lineMinor
  have hb2 : 0 < 2 * b := by omega
  have h1 := Int.emod_add_ediv (2 * k * a + b - 1) (2 * b)
  have h2 := Int.emod_nonneg (2 * k * a + b - 1) (ne_of_gt hb2)
  have h3 := Int.emod_lt_of_pos (2 * k * a + b - 1) hb2
  constructor <;> nlinarith

/-- Closed form of the loop of `DrawLineLow` for a line with `0 <= dy <= dx`,
`0 < dx`, entered at major offset `k` and minor offset `j` with the error term
`D` that belongs to them. -/
theorem DrawLineLowLoop_closed (x1 y1 x2 yi dy dx : Int) (hdx : 0 < dx) (hdy0 : 0 ≤ dy)
    (hdy : dy ≤ dx) (hx2 : x2 = x1 + dx) :
    ∀ (n : Nat) (k j : Int), k + n = dx + 1 →
      -dx < 2 * k * dy - 2 * j * dx → 2 * k * dy - 2 * j * dx ≤ dx →
      DrawLineLowLoop x2 yi dy dx n (x1 + k) (y1 + yi * j)
          (2 * (k + 1) * dy - (2 * j + 1) * dx)
        = (List.range n).map
            (fun t : Nat => (x1 + k + (t : Int), y1 + yi * lineMinor dy dx (k + (t : Int)))) := by
  intro n
  induction n with
  | zero =>
    intro k j _ _ _
    rfl
  | succ n ih =>
    intro k j hk h1 h2
    have hguard : x1 + k ≤ x2 := by omega
    have hj : lineMinor dy dx k = j := lineMinor_eq dy dx k j hdx h1 h2
    rw [DrawLineLowLoop, if_pos hguard, List.range_succ_eq_map, List.map_cons, List.map_map]
    congr 1
    · simp [hj]
    · by_cases hD : 2 * (k + 1) * dy - (2 * j + 1) * dx > 0
      · rw [if_pos hD]
        have e1 : x1 + k + 1 = x1 + (k + 1) := by ring
        have e2 : y1 + yi * j + yi = y1 + yi * (j + 1) := by ring
        have e3 : 2 * (k + 1) * dy - (2 * j + 1) * dx + 2 * (dy - dx)
            = 2 * (k + 1 + 1) * dy - (2 * (j + 1) + 1) * dx := by ring
        rw [e1, e2, e3, ih (k + 1) (j + 1) (by push_cast at hk; omega)
          (by linarith) (by linarith)]
        apply List.map_congr_left
        intro t _
        simp only [Function.comp, Nat.succ_eq_add_one, Nat.cast_add, Nat.cast_one]
        rw [show x1 + (k + 1) + (t : Int) = x1 + k + ((t : Int) + 1) by ring,
          show k + 1 + (t : Int) = k + ((t : Int) + 1) by ring]
      · rw [if_neg hD]
        have e1 : x1 + k + 1 = x1 + (k + 1) := by ring
        have e3 : 2 * (k + 1) * dy - (2 * j + 1) * dx + 2 * dy
            = 2 * (k + 1 + 1) * dy - (2 * j + 1) * dx := by ring
        rw [e1, e3, ih (k + 1) j (by push_cast at hk; omega) (by linarith) (by linarith)]
        apply List.map_congr_left
        intro t _
        simp only [Function.comp, Nat.succ_eq_add_one, Nat.cast_add, Nat.cast_one]
        rw [show x1 + (k + 1) + (t : Int) = x1 + k + ((t : Int) + 1) by ring,
          show k + 1 + (t : Int) = k + ((t : Int) + 1) by ring]

/-- Closed form of `DrawLineLow` for `x1 < x2` and `|y2 - y1| <= x2 - x1`: one cell
per column `x1 .. x2`, the row being `y1` plus the rounded share of `y2 - y1`. -/
theorem DrawLineLow_closed (x1 y1 x2 y2 : Int) (hx : x1 < x2)
    (hy : absInt (y2 - y1) ≤ x2 - x1) :
    DrawLineLow x1 y1 x2 y2
      = (List.range (x2 + 1 - x1).toNat).map
          (fun t : Nat => (x1 + (t : Int),
            y1 + (if y2 - y1 < 0 then -1 else 1)
              * lineMinor (absInt (y2 - y1)) (x2 - x1) (t : Int))) := by
  have hdx : 0 < x2 - x1 := by omega
  have habs0 : 0 ≤ absInt (y2 - y1) := by unfold absInt; split <;> omega
  have habs : (if y2 - y1 < 0 then (y2 - y1) * -1 else y2 - y1) = absInt (y2 - y1) := by
    unfold absInt; split <;> ring
  have hn : (0 : Int) + ((x2 + 1 - x1).toNat : Nat) = x2 - x1 + 1 := by
    rw [Int.toNat_of_nonneg (by omega)]; ring
  have h := DrawLineLowLoop_closed x1 y1 x2 (if y2 - y1 < 0 then -1 else 1)
    (absInt (y2 - y1)) (x2 - x1) hdx habs0 hy (by ring) (x2 + 1 - x1).toNat 0 0 hn
    (by linarith) (by linarith)
  simp only [DrawLineLow, habs]
  have ea : x1 = x1 + 0 := by ring
  have eb : y1 = y1 + (if y2 - y1 < 0 then -1 else 1) * 0 := by ring
  have ec : 2 * absInt (y2 - y1) - (x2 - x1)
      = 2 * (0 + 1) * absInt (y2 - y1) - (2 * 0 + 1) * (x2 - x1) := by ring
  conv_lhs => rw [ec]
  conv_lhs => arg 6; rw [ea]
  conv_lhs => arg 7; rw [eb]
  rw [h]
  apply List.map_congr_left
  intro t _
  simp

/-- The loop of `DrawLineHigh` is the loop of `DrawLineLow` with the two
coordinates of every cell exchanged. -/
theorem DrawLineHighLoop_eq (y2 xi dx dy : Int) :
    ∀ (n : Nat) (y x D : Int),
      DrawLineHighLoop y2 xi dx dy n y x D
        = (DrawLineLowLoop y2 xi dx dy n y x D).map Prod.swap := by
  intro n
  induction n with
  | zero => intro y x D; rfl
  | succ n ih =>
    intro y x D
    rw [DrawLineHighLoop, DrawLineLowLoop]
    by_cases hg : y ≤ y2
    · rw [if_pos hg, if_pos hg, List.map_cons]
      by_cases hD : D > 0
      · rw [if_pos hD, if_pos hD, ih]; rfl
      · rw [if_neg hD, if_neg hD, ih]; rfl
    · rw [if_neg hg, if_neg hg]; rfl

theorem DrawLineHigh_eq (x1 y1 x2 y2 : Int) :
    DrawLineHigh x1 y1 x2 y2 = (DrawLineLow y1 x1 y2 x2).map Prod.swap := by
  simp only [DrawLineHigh, DrawLineLow, DrawLineHighLoop_eq]

/-- A line from a point to itself, drawn by `DrawLineLow`, is that one cell. -/
theorem DrawLineLow_point (x y : Int) : DrawLineLow x y x y = [(x, y)] := by
  have hn : (x + 1 - x).toNat = 1 := by
    have : x + 1 - x = 1 := by ring
    rw [this]; rfl
  simp [DrawLineLow, hn, DrawLineLowLoop]

/-- Both end points are among the cells of `DrawLineLow` when `x1 < x2` and
`|y2 - y1| <= x2 - x1`. -/
theorem DrawLineLow_endpoints (x1 y1 x2 y2 : Int) (hx : x1 < x2)
    (hy : absInt (y2 - y1) ≤ x2 - x1) :
    (x1, y1) ∈ DrawLineLow x1 y1 x2 y2 ∧ (x2, y2) ∈ DrawLineLow x1 y1 x2 y2 := by
  have hdx : 0 < x2 - x1 := by omega
  have hcast : (((x2 - x1).toNat : Nat) : Int) = x2 - x1 := Int.toNat_of_nonneg (by omega)
  have hlen : (x2 + 1 - x1).toNat = (x2 - x1).toNat + 1 := by omega
  rw [DrawLineLow_closed x1 y1 x2 y2 hx hy]
  constructor
  · refine List.mem_map.mpr ⟨0, List.mem_range.mpr (by omega), ?_⟩
    have h0 : lineMinor (absInt (y2 - y1)) (x2 - x1) ((0 : Nat) : Int) = 0 :=
      lineMinor_eq _ _ _ 0 hdx (by simp; omega) (by simp; omega)
    rw [h0]
    simp
  · refine List.mem_map.mpr ⟨(x2 - x1).toNat, List.mem_range.mpr (by omega), ?_⟩
    have h1 : lineMinor (absInt (y2 - y1)) (x2 - x1) (((x2 - x1).toNat : Nat) : Int)
        = absInt (y2 - y1) := by
      rw [hcast]
      exact lineMinor_eq _ _ _ _ hdx (by nlinarith) (by nlinarith)
    rw [h1, hcast]
    have hy2 : y1 + (if y2 - y1 < 0 then -1 else 1) * absInt (y2 - y1) = y2 := by
      unfold absInt
      split <;> ring
    rw [hy2]
    congr 1
    ring

/-- `DrawLine` over unbounded integers: for every pair of points, the cells it
passes to `PaintPixel` include both `(x1, y1)` and `(x2, y2)`. -/
theorem DrawLine_endpoints (x1 y1 x2 y2 : Int) :
    (x1, y1) ∈ DrawLine x1 y1 x2 y2 ∧ (x2, y2) ∈ DrawLine x1 y1 x2 y2 := by
  unfold DrawLine
  simp only
  by_cases hlow : absInt (y2 - y1) < absInt (x2 - x1)
  · rw [if_pos hlow]
    by_cases hgt : x1 > x2
    · rw [if_pos hgt]
      have hy : absInt (y1 - y2) ≤ x1 - x2 := by
        unfold absInt at hlow ⊢
        split_ifs at hlow ⊢ <;> omega
      exact (DrawLineLow_endpoints x2 y2 x1 y1 hgt hy).symm
    · rw [if_neg hgt]
      have hx : x1 < x2 := by
        unfold absInt at hlow
        split_ifs at hlow <;> omega
      have hy : absInt (y2 - y1) ≤ x2 - x1 := by
        unfold absInt at hlow ⊢
        split_ifs at hlow ⊢ <;> omega
      exact DrawLineLow_endpoints x1 y1 x2 y2 hx hy
  · rw [if_neg hlow]
    by_cases hgt : y1 > y2
    · rw [if_pos hgt, DrawLineHigh_eq]
      have hx : absInt (x1 - x2) ≤ y1 - y2 := by
        unfold absInt at hlow ⊢
        split_ifs at hlow ⊢ <;> omega
      obtain ⟨ha, hb⟩ := DrawLineLow_endpoints y2 x2 y1 x1 hgt hx
      exact ⟨List.mem_map.mpr ⟨(y1, x1), hb, rfl⟩, List.mem_map.mpr ⟨(y2, x2), ha, rfl⟩⟩
    · rw [if_neg hgt, DrawLineHigh_eq]
      rcases lt_or_eq_of_le (not_lt.mp hgt) with hlt | heq
      · have hx : absInt (x2 - x1) ≤ y2 - y1 := by
          unfold absInt at hlow ⊢
          split_ifs at hlow ⊢ <;> omega
        obtain ⟨ha, hb⟩ := DrawLineLow_endpoints y1 x1 y2 x2 hlt hx
        exact ⟨List.mem_map.mpr ⟨(y1, x1), ha, rfl⟩, List.mem_map.mpr ⟨(y2, x2), hb, rfl⟩⟩
      · have hxe : x2 = x1 := by
          unfold absInt at hlow
          split_ifs at hlow <;> omega
        subst hxe
        rw [← heq, DrawLineLow_point]
        simp

/-! ### FillTriangle: the walk along the second edge -/

/-- The inner loop on `e2` with at most one subtraction to make. -/
theorem sub2_spec (v : TriLocals) (he : v.e2 < 2 * v.dx2) :
    ∀ n : Nat, 1 ≤ n →
      sub2 n v
        = if v.e2 ≥ v.dx2 then
            (if v.changed2 then
              some ({ v with e2 := v.e2 - v.dx2, t2xp := v.signx2 }, false)
             else some ({ v with e2 := v.e2 - v.dx2 }, true))
          else some (v, false) := by
  intro n hn
  obtain ⟨m, rfl⟩ : ∃ m, n = m + 1 := ⟨n - 1, by omega⟩
  rw [sub2]
  by_cases hge : v.e2 ≥ v.dx2
  · simp only [if_pos hge]
    by_cases hc : v.changed2 = true
    · simp only [hc, if_true]
      have hlt : ¬ (v.e2 - v.dx2 ≥ v.dx2) := by omega
      cases m with
      | zero => rw [sub2]; simp only [if_neg hlt]
      | succ k => rw [sub2]; simp only [if_neg hlt]
    · simp only [hc]
      rfl
  · simp only [if_neg hge]

/-- What the walks along the second edge rely on and keep: the error term stays in
`0 .. dx2 - 1`, and the walk makes progress. -/
theorem firstEdge2_spec :
    ∀ (m : Nat) (v : TriLocals), v.dx2 - v.e2 ≤ m → 0 ≤ v.e2 → v.e2 < v.dx2 →
      0 ≤ v.dy2 → v.dy2 ≤ v.dx2 → (v.changed2 = true ∨ 0 < v.dy2) →
      ∃ e2' t2x' t2xp' : Int, 0 ≤ e2' ∧ e2' < v.dx2 ∧
        ∀ n : Nat, (v.dx2 - v.e2).toNat ≤ n →
          firstEdge2 n v = some { v with e2 := e2', t2x := t2x', t2xp := t2xp' } := by
  intro m
  induction m with
  | zero =>
    intro v hm h0 h1
    omega
  | succ m ih =>
    intro v hm h0 h1 hdy0 hdy hprog
    have hsub := sub2_spec { v with e2 := v.e2 + v.dy2 } (by dsimp only; omega)
    dsimp only at hsub
    by_cases hge : v.e2 + v.dy2 ≥ v.dx2
    · by_cases hc : v.changed2 = true
      · refine ⟨v.e2 + v.dy2 - v.dx2, v.t2x, v.signx2, by omega, by omega, ?_⟩
        intro n hn
        obtain ⟨k, rfl⟩ : ∃ k, n = k + 1 := ⟨n - 1, by omega⟩
        rw [firstEdge2]
        rw [hsub (k + 1) (by omega), if_pos hge, if_pos hc]
        dsimp only
        rw [if_pos hc]
      · refine ⟨v.e2 + v.dy2 - v.dx2, v.t2x, v.t2xp, by omega, by omega, ?_⟩
        intro n hn
        obtain ⟨k, rfl⟩ : ∃ k, n = k + 1 := ⟨n - 1, by omega⟩
        rw [firstEdge2]
        rw [hsub (k + 1) (by omega), if_pos hge, if_neg hc]
    · by_cases hc : v.changed2 = true
      · refine ⟨v.e2 + v.dy2, v.t2x, v.t2xp, by omega, by omega, ?_⟩
        intro n hn
        obtain ⟨k, rfl⟩ : ∃ k, n = k + 1 := ⟨n - 1, by omega⟩
        rw [firstEdge2]
        rw [hsub (k + 1) (by omega), if_neg hge]
        dsimp only
        rw [if_pos hc]
      · have hpos : 0 < v.dy2 := by
          rcases hprog with h | h
          · exact absurd h hc
          · exact h
        obtain ⟨e2', t2x', t2xp', hb0, hb1, hrun⟩ :=
          ih { v with e2 := v.e2 + v.dy2, t2x := v.t2x + v.signx2 }
            (by dsimp only; omega) (by dsimp only; omega) (by dsimp only; omega)
            hdy0 hdy hprog
        dsimp only at hb1 hrun
        refine ⟨e2', t2x', t2xp', hb0, hb1, ?_⟩
        intro n hn
        obtain ⟨k, rfl⟩ : ∃ k, n = k + 1 := ⟨n - 1, by omega⟩
        rw [firstEdge2]
        rw [hsub (k + 1) (by omega), if_neg hge]
        dsimp only
        rw [if_neg hc, hrun k (by omega)]

theorem secondEdge2_spec (x3 : Int) :
    ∀ (m : Nat) (v : TriLocals), v.dx2 - v.e2 ≤ m → 0 ≤ v.e2 → v.e2 < v.dx2 →
      0 ≤ v.dy2 → v.dy2 ≤ v.dx2 → (v.changed2 = true ∨ 0 < v.dy2) →
      ∃ e2' t2x' t2xp' : Int, 0 ≤ e2' ∧ e2' < v.dx2 ∧
        ∀ n : Nat, (v.dx2 - v.e2).toNat ≤ n →
          secondEdge2 x3 n v = some { v with e2 := e2', t2x := t2x', t2xp := t2xp' } := by
  intro m
  induction m with
  | zero =>
    intro v hm h0 h1
    omega
  | succ m ih =>
    intro v hm h0 h1 hdy0 hdy hprog
    have hsub := sub2_spec { v with e2 := v.e2 + v.dy2 } (by dsimp only; omega)
    dsimp only at hsub
    by_cases hx : v.t2x ≠ x3
    · by_cases hge : v.e2 + v.dy2 ≥ v.dx2
      · by_cases hc : v.changed2 = true
        · refine ⟨v.e2 + v.dy2 - v.dx2, v.t2x, v.signx2, by omega, by omega, ?_⟩
          intro n hn
          obtain ⟨k, rfl⟩ : ∃ k, n = k + 1 := ⟨n - 1, by omega⟩
          rw [secondEdge2, if_pos hx]
          dsimp only
          rw [hsub (k + 1) (by omega), if_pos hge, if_pos hc]
          dsimp only
          rw [if_pos hc]
        · refine ⟨v.e2 + v.dy2 - v.dx2, v.t2x, v.t2xp, by omega, by omega, ?_⟩
          intro n hn
          obtain ⟨k, rfl⟩ : ∃ k, n = k + 1 := ⟨n - 1, by omega⟩
          rw [secondEdge2, if_pos hx]
          dsimp only
          rw [hsub (k + 1) (by omega), if_pos hge, if_neg hc]
      · by_cases hc : v.changed2 = true
        · refine ⟨v.e2 + v.dy2, v.t2x, v.t2xp, by omega, by omega, ?_⟩
          intro n hn
          obtain ⟨k, rfl⟩ : ∃ k, n = k + 1 := ⟨n - 1, by omega⟩
          rw [secondEdge2, if_pos hx]
          dsimp only
          rw [hsub (k + 1) (by omega), if_neg hge]
          dsimp only
          rw [if_pos hc]
        · have hpos : 0 < v.dy2 := by
            rcases hprog with h | h
            · exact absurd h hc
            · exact h
          obtain ⟨e2', t2x', t2xp', hb0, hb1, hrun⟩ :=
            ih { v with e2 := v.e2 + v.dy2, t2x := v.t2x + v.signx2 }
              (by dsimp only; omega) (by dsimp only; omega) (by dsimp only; omega)
              hdy0 hdy hprog
          dsimp only at hb1 hrun
          refine ⟨e2', t2x', t2xp', hb0, hb1, ?_⟩
          intro n hn
          obtain ⟨k, rfl⟩ : ∃ k, n = k + 1 := ⟨n - 1, by omega⟩
          rw [secondEdge2, if_pos hx]
          dsimp only
          rw [hsub (k + 1) (by omega), if_neg hge]
          dsimp only
          rw [if_neg hc, hrun k (by omega)]
    · refine ⟨v.e2, v.t2x, v.t2xp, h0, h1, ?_⟩
      intro n _
      cases n with
      | zero => rw [secondEdge2, if_neg hx]
      | succ k => rw [secondEdge2, if_neg hx]

/-! ### FillTriangle: the walk along the first edge -/

/-- The inner loop on `e1` of the first half with at most one subtraction to make. -/
theorem firstSub1_spec (v : TriLocals) (he : v.e1 < 2 * v.dx1) :
    ∀ n : Nat, 1 ≤ n →
      firstSub1 n v
        = if v.e1 ≥ v.dx1 then
            (if v.changed1 then
              some ({ v with e1 := v.e1 - v.dx1, t1xp := v.signx1 }, false)
             else some ({ v with e1 := v.e1 - v.dx1 }, true))
          else some (v, false) := by
  intro n hn
  obtain ⟨m, rfl⟩ : ∃ m, n = m + 1 := ⟨n - 1, by omega⟩
  rw [firstSub1]
  by_cases hge : v.e1 ≥ v.dx1
  · simp only [if_pos hge]
    by_cases hc : v.changed1 = true
    · simp only [hc, if_true]
      have hlt : ¬ (v.e1 - v.dx1 ≥ v.dx1) := by omega
      cases m with
      | zero => rw [firstSub1]; simp only [if_neg hlt]
      | succ k => rw [firstSub1]; simp only [if_neg hlt]
    · simp only [hc]
      rfl
  · simp only [if_neg hge]

/-- First half, steep first edge (`changed1`): one pass of the walk takes exactly
one step of `i`. -/
theorem firstEdge1_steep (v : TriLocals) (hc : v.changed1 = true) (h0 : 0 ≤ v.e1)
    (h1 : v.e1 < v.dx1) (hdy0 : 0 ≤ v.dy1) (hdy : v.dy1 ≤ v.dx1) (hi : v.i < v.dx1) :
    ∃ e1' t1xp' : Int, 0 ≤ e1' ∧ e1' < v.dx1 ∧
      ∀ n : Nat, 1 ≤ n →
        firstEdge1 n v = some { v with i := v.i + 1, e1 := e1', t1xp := t1xp' } := by
  have hsub := firstSub1_spec { v with i := v.i + 1, e1 := v.e1 + v.dy1 }
    (by dsimp only; omega)
  dsimp only at hsub
  by_cases hge : v.e1 + v.dy1 ≥ v.dx1
  · refine ⟨v.e1 + v.dy1 - v.dx1, v.signx1, by omega, by omega, ?_⟩
    intro n hn
    obtain ⟨k, rfl⟩ : ∃ k, n = k + 1 := ⟨n - 1, by omega⟩
    rw [firstEdge1, if_pos hi]
    dsimp only
    rw [hsub (k + 1) (by omega), if_pos hge, if_pos hc]
    dsimp only
    rw [if_pos hc]
  · refine ⟨v.e1 + v.dy1, v.t1xp, by omega, by omega, ?_⟩
    intro n hn
    obtain ⟨k, rfl⟩ : ∃ k, n = k + 1 := ⟨n - 1, by omega⟩
    rw [firstEdge1, if_pos hi]
    dsimp only
    rw [hsub (k + 1) (by omega), if_neg hge]
    dsimp only
    rw [if_pos hc]

/-- First half, shallow first edge: when the error term still has to overflow
before `i` reaches `dx1`, the walk stops at that overflow. -/
theorem firstEdge1_shallow :
    ∀ (m : Nat) (v : TriLocals), v.dx1 - v.i ≤ m → v.changed1 = false → 0 ≤ v.e1 →
      v.e1 < v.dx1 → 0 ≤ v.dy1 → v.dy1 ≤ v.dx1 →
      v.dx1 ≤ v.e1 + (v.dx1 - v.i) * v.dy1 →
      ∃ i' e1' t1x' : Int, v.i < i' ∧ i' ≤ v.dx1 ∧ 0 ≤ e1' ∧ e1' < v.dx1
        ∧ e1' + (v.dx1 - i') * v.dy1 = v.e1 + (v.dx1 - v.i) * v.dy1 - v.dx1
        ∧ ∀ n : Nat, (v.dx1 - v.i).toNat ≤ n →
            firstEdge1 n v = some { v with i := i', e1 := e1', t1x := t1x' } := by
  intro m
  induction m with
  | zero =>
    intro v hm hc h0 h1 hdy0 hdy hphi
    exfalso
    have : (v.dx1 - v.i) * v.dy1 ≤ 0 :=
      mul_nonpos_of_nonpos_of_nonneg (by push_cast at hm; omega) hdy0
    omega
  | succ m ih =>
    intro v hm hc h0 h1 hdy0 hdy hphi
    have hi : v.i < v.dx1 := by
      by_contra hcon
      have : (v.dx1 - v.i) * v.dy1 ≤ 0 :=
        mul_nonpos_of_nonpos_of_nonneg (by omega) hdy0
      omega
    have hcf : ¬ v.changed1 = true := by simp [hc]
    have hsub := firstSub1_spec { v with i := v.i + 1, e1 := v.e1 + v.dy1 }
      (by dsimp only; omega)
    dsimp only at hsub
    by_cases hge : v.e1 + v.dy1 ≥ v.dx1
    · refine ⟨v.i + 1, v.e1 + v.dy1 - v.dx1, v.t1x, by omega, by omega, by omega, by omega,
        by ring, ?_⟩
      intro n hn
      obtain ⟨k, rfl⟩ : ∃ k, n = k + 1 := ⟨n - 1, by omega⟩
      rw [firstEdge1, if_pos hi]
      dsimp only
      rw [hsub (k + 1) (by omega), if_pos hge, if_neg hcf]
    · have hphi' : v.dx1 ≤ v.e1 + v.dy1 + (v.dx1 - (v.i + 1)) * v.dy1 := by
        have : v.e1 + v.dy1 + (v.dx1 - (v.i + 1)) * v.dy1
            = v.e1 + (v.dx1 - v.i) * v.dy1 := by ring
        omega
      obtain ⟨i', e1', t1x', hi1, hi2, hb0, hb1, heq, hrun⟩ :=
        ih { v with i := v.i + 1, e1 := v.e1 + v.dy1, t1x := v.t1x + v.signx1 }
          (by dsimp only; push_cast at hm; omega) hc (by dsimp only; omega)
          (by dsimp only; omega) hdy0 hdy hphi'
      dsimp only at hi1 hi2 hb1 heq hrun
      refine ⟨i', e1', t1x', by omega, hi2, hb0, hb1, ?_, ?_⟩
      · rw [heq]; ring
      · intro n hn
        obtain ⟨k, rfl⟩ : ∃ k, n = k + 1 := ⟨n - 1, by omega⟩
        rw [firstEdge1, if_pos hi]
        dsimp only
        rw [hsub (k + 1) (by omega), if_neg hge]
        dsimp only
        rw [if_neg hcf, hrun k (by omega)]

/-- Second half, steep first edge (`changed1`): one pass of the walk leaves `i`
alone and keeps the error term in range. -/
theorem secondEdge1_steep (v : TriLocals) (hc : v.changed1 = true) (h0 : 0 ≤ v.e1)
    (h1 : v.e1 < v.dx1) (hdy0 : 0 ≤ v.dy1) (hdy : v.dy1 ≤ v.dx1) :
    ∃ e1' t1xp' : Int, 0 ≤ e1' ∧ e1' < v.dx1 ∧
      ∀ n : Nat, 1 ≤ n →
        secondEdge1 n v = some { v with e1 := e1', t1xp := t1xp' } := by
  by_cases hi : v.i < v.dx1
  · by_cases hge : v.e1 + v.dy1 ≥ v.dx1
    · refine ⟨v.e1 + v.dy1 - v.dx1, v.signx1, by omega, by omega, ?_⟩
      intro n hn
      obtain ⟨k, rfl⟩ : ∃ k, n = k + 1 := ⟨n - 1, by omega⟩
      rw [secondEdge1, if_pos hi]
      simp only [secondSub1, if_pos hge, hc, if_true]
    · refine ⟨v.e1 + v.dy1, v.t1xp, by omega, by omega, ?_⟩
      intro n hn
      obtain ⟨k, rfl⟩ : ∃ k, n = k + 1 := ⟨n - 1, by omega⟩
      rw [secondEdge1, if_pos hi]
      simp only [secondSub1, if_neg hge, hc, if_true]
  · refine ⟨v.e1, v.t1xp, h0, h1, ?_⟩
    intro n hn
    obtain ⟨k, rfl⟩ : ∃ k, n = k + 1 := ⟨n - 1, by omega⟩
    rw [secondEdge1, if_neg hi]

/-- Second half: with `i` at `dx1` the walk along the first edge does nothing. -/
theorem secondEdge1_done (v : TriLocals) (hi : ¬ v.i < v.dx1) :
    ∀ n : Nat, secondEdge1 n v = some v := by
  intro n
  cases n with
  | zero => rw [secondEdge1, if_neg hi]
  | succ k => rw [secondEdge1, if_neg hi]

/-- Second half, shallow first edge: the walk ends; when the error term still has
to overflow before `i` reaches `dx1`, it stops at that overflow with `i < dx1`. -/
theorem secondEdge1_shallow :
    ∀ (m : Nat) (v : TriLocals), v.dx1 - v.i ≤ m → v.changed1 = false → 0 ≤ v.e1 →
      v.e1 < v.dx1 → 0 ≤ v.dy1 → v.dy1 ≤ v.dx1 →
      ∃ i' e1' t1x' : Int,
        (v.dx1 ≤ v.e1 + (v.dx1 - v.i) * v.dy1 →
          v.i ≤ i' ∧ i' < v.dx1 ∧ 0 ≤ e1' ∧ e1' < v.dx1
          ∧ e1' + (v.dx1 - (i' + 1)) * v.dy1 = v.e1 + (v.dx1 - v.i) * v.dy1 - v.dx1)
        ∧ ∀ n : Nat, (v.dx1 - v.i).toNat ≤ n →
            secondEdge1 n v = some { v with i := i', e1 := e1', t1x := t1x' } := by
  intro m
  induction m with
  | zero =>
    intro v hm hc h0 h1 hdy0 hdy
    have hi : ¬ v.i < v.dx1 := by push_cast at hm; omega
    refine ⟨v.i, v.e1, v.t1x, ?_, ?_⟩
    · intro hphi
      exfalso
      have : (v.dx1 - v.i) * v.dy1 ≤ 0 :=
        mul_nonpos_of_nonpos_of_nonneg (by omega) hdy0
      omega
    · intro n _
      exact secondEdge1_done v hi n
  | succ m ih =>
    intro v hm hc h0 h1 hdy0 hdy
    have hcf : ¬ v.changed1 = true := by simp [hc]
    by_cases hi : v.i < v.dx1
    · by_cases hge : v.e1 + v.dy1 ≥ v.dx1
      · refine ⟨v.i, v.e1 + v.dy1 - v.dx1, v.t1x, ?_, ?_⟩
        · intro _
          refine ⟨le_refl _, hi, by omega, by omega, by ring⟩
        · intro n hn
          obtain ⟨k, rfl⟩ : ∃ k, n = k + 1 := ⟨n - 1, by omega⟩
          rw [secondEdge1, if_pos hi]
          simp only [secondSub1, if_pos hge, hc]
          rfl
      · obtain ⟨i', e1', t1x', hpost, hrun⟩ :=
          ih { v with i := v.i + 1, e1 := v.e1 + v.dy1, t1x := v.t1x + v.signx1 }
            (by dsimp only; push_cast at hm; omega) hc (by dsimp only; omega)
            (by dsimp only; omega) hdy0 hdy
        dsimp only at hpost hrun
        refine ⟨i', e1', t1x', ?_, ?_⟩
        · intro hphi
          have e : v.e1 + v.dy1 + (v.dx1 - (v.i + 1)) * v.dy1
              = v.e1 + (v.dx1 - v.i) * v.dy1 := by ring
          obtain ⟨p1, p2, p3, p4, p5⟩ := hpost (by rw [e]; exact hphi)
          refine ⟨by omega, p2, p3, p4, ?_⟩
          rw [p5, e]
        · intro n hn
          obtain ⟨k, rfl⟩ : ∃ k, n = k + 1 := ⟨n - 1, by omega⟩
          rw [secondEdge1, if_pos hi]
          simp only [secondSub1, if_neg hge, hc, hi, if_true, Bool.false_eq_true, if_false]
          simp only [hc] at hrun
          exact hrun k (by omega)
    · refine ⟨v.i, v.e1, v.t1x, ?_, ?_⟩
      · intro hphi
        exfalso
        have : (v.dx1 - v.i) * v.dy1 ≤ 0 :=
          mul_nonpos_of_nonpos_of_nonneg (by omega) hdy0
        omega
      · intro n _
        exact secondEdge1_done v hi n

/-! ### FillTriangle: one row -/

theorem rowStart_frame (v : TriLocals) :
    ∃ a b : Int, a ≤ b ∧ rowStart v = { v with t1xp := 0, t2xp := 0, minx := a, maxx := b } := by
  unfold rowStart
  dsimp only
  by_cases h : v.t1x < v.t2x
  · exact ⟨v.t1x, v.t2x, le_of_lt h, by rw [if_pos h]⟩
  · exact ⟨v.t2x, v.t1x, not_lt.mp h, by rw [if_neg h]⟩

theorem rowMinMax_frame (v : TriLocals) (h : v.minx ≤ v.maxx) :
    ∃ a b : Int, a ≤ b ∧ rowMinMax v = { v with minx := a, maxx := b } := by
  rcases v with ⟨t1x, t2x, y, minx, maxx, t1xp, t2xp, c1, c2, s1, s2, dx1, dy1, dx2, dy2,
    e1, e2, i⟩
  dsimp only at h
  unfold rowMinMax
  dsimp only
  by_cases h1 : minx > t1x
  · simp only [if_pos h1]
    by_cases h2 : t1x > t2x
    · simp only [if_pos h2]
      by_cases h3 : maxx < t1x
      · simp only [if_pos h3]
        by_cases h4 : t1x < t2x
        · simp only [if_pos h4]; exact ⟨_, _, by omega, rfl⟩
        · simp only [if_neg h4]; exact ⟨_, _, by omega, rfl⟩
      · simp only [if_neg h3]
        by_cases h4 : maxx < t2x
        · simp only [if_pos h4]; exact ⟨_, _, by omega, rfl⟩
        · simp only [if_neg h4]; exact ⟨_, _, by omega, rfl⟩
    · simp only [if_neg h2]
      by_cases h3 : maxx < t1x
      · simp only [if_pos h3]
        by_cases h4 : t1x < t2x
        · simp only [if_pos h4]; exact ⟨_, _, by omega, rfl⟩
        · simp only [if_neg h4]; exact ⟨_, _, by omega, rfl⟩
      · simp only [if_neg h3]
        by_cases h4 : maxx < t2x
        · simp only [if_pos h4]; exact ⟨_, _, by omega, rfl⟩
        · simp only [if_neg h4]; exact ⟨_, _, by omega, rfl⟩
  · simp only [if_neg h1]
    by_cases h2 : minx > t2x
    · simp only [if_pos h2]
      by_cases h3 : maxx < t1x
      · simp only [if_pos h3]
        by_cases h4 : t1x < t2x
        · simp only [if_pos h4]; exact ⟨_, _, by omega, rfl⟩
        · simp only [if_neg h4]; exact ⟨_, _, by omega, rfl⟩
      · simp only [if_neg h3]
        by_cases h4 : maxx < t2x
        · simp only [if_pos h4]; exact ⟨_, _, by omega, rfl⟩
        · simp only [if_neg h4]; exact ⟨_, _, by omega, rfl⟩
    · simp only [if_neg h2]
      by_cases h3 : maxx < t1x
      · simp only [if_pos h3]
        by_cases h4 : t1x < t2x
        · simp only [if_pos h4]; exact ⟨_, _, by omega, rfl⟩
        · simp only [if_neg h4]; exact ⟨_, _, by omega, rfl⟩
      · simp only [if_neg h3]
        by_cases h4 : maxx < t2x
        · simp only [if_pos h4]; exact ⟨_, _, by omega, rfl⟩
        · simp only [if_neg h4]; exact ⟨_, _, by omega, rfl⟩

theorem rowAdvance_frame (v : TriLocals) :
    ∃ a b : Int, rowAdvance v = { v with t1x := a, t2x := b, y := v.y + 1 } := by
  rcases v with ⟨t1x, t2x, y, minx, maxx, t1xp, t2xp, c1, c2, s1, s2, dx1, dy1, dx2, dy2,
    e1, e2, i⟩
  unfold rowAdvance
  dsimp only
  cases c1 <;> cases c2 <;> exact ⟨_, _, rfl⟩

/-- First half: from the top of a row with `r + 1` rows to go, the walk along the
first edge ends and leaves the state for `r` rows to go. -/
theorem firstEdge1_row (v : TriLocals) (r : Int) (hr : 0 ≤ r) (h : FirstInv v (r + 1)) :
    v.i < v.dx1 ∧
    ∃ i' e1' t1x' t1xp' : Int,
      FirstInv { v with i := i', e1 := e1', t1x := t1x', t1xp := t1xp' } r
      ∧ ∀ n : Nat, v.dx1.toNat ≤ n →
          firstEdge1 n v = some { v with i := i', e1 := e1', t1x := t1x', t1xp := t1xp' } := by
  obtain ⟨hi0, he0, he1, hdy0, hdy, hcase⟩ := h
  by_cases hc : v.changed1 = true
  · rw [if_pos hc] at hcase
    have hi : v.i < v.dx1 := by omega
    obtain ⟨e1', t1xp', hb0, hb1, hrun⟩ := firstEdge1_steep v hc he0 he1 hdy0 hdy hi
    refine ⟨hi, v.i + 1, e1', v.t1x, t1xp', ?_, ?_⟩
    · refine ⟨by dsimp only; omega, hb0, hb1, hdy0, hdy, ?_⟩
      dsimp only
      rw [if_pos hc]
      omega
    · intro n hn
      exact hrun n (by omega)
  · rw [if_neg hc] at hcase
    have hcf : v.changed1 = false := by simpa using hc
    have hdx0 : 0 ≤ v.dx1 := by omega
    have hphi : v.dx1 ≤ v.e1 + (v.dx1 - v.i) * v.dy1 := by nlinarith
    obtain ⟨i', e1', t1x', hi1, hi2, hb0, hb1, heq, hrun⟩ :=
      firstEdge1_shallow (v.dx1 - v.i).toNat v (by omega) hcf he0 he1 hdy0 hdy hphi
    refine ⟨by omega, i', e1', t1x', v.t1xp, ?_, ?_⟩
    · refine ⟨by dsimp only; omega, hb0, hb1, hdy0, hdy, ?_⟩
      dsimp only
      rw [if_neg hc, heq]
      nlinarith
    · intro n hn
      exact hrun n (by omega)

/-- Second half: from the top of a row the walk along the first edge ends; when
`r >= 1` rows follow the current one, it leaves the state, after the `i++` of the
`for` loop, for `r - 1` rows to follow. -/
theorem secondEdge1_row (v : TriLocals) (r : Int) (_hr : 0 ≤ r) (h : SecondInv v r) :
    ∃ i' e1' t1x' t1xp' : Int,
      (1 ≤ r → SecondInv { v with i := i' + 1, e1 := e1', t1x := t1x', t1xp := t1xp' } (r - 1))
      ∧ ∀ n : Nat, v.dx1.toNat + 1 ≤ n →
          secondEdge1 n v = some { v with i := i', e1 := e1', t1x := t1x', t1xp := t1xp' } := by
  obtain ⟨hi0, hi1, he0, he1, hdy0, hdy, hcase⟩ := h
  rcases he1 with he1 | ⟨hr0, hdone⟩
  · by_cases hc : v.changed1 = true
    · rw [if_pos hc] at hcase
      obtain ⟨e1', t1xp', hb0, hb1, hrun⟩ := secondEdge1_steep v hc he0 he1 hdy0 hdy
      refine ⟨v.i, e1', v.t1x, t1xp', ?_, ?_⟩
      · intro hr1
        refine ⟨by dsimp only; omega, by dsimp only; omega, hb0, Or.inl hb1, hdy0, hdy, ?_⟩
        dsimp only
        rw [if_pos hc]
        omega
      · intro n hn
        exact hrun n (by omega)
    · rw [if_neg hc] at hcase
      have hcf : v.changed1 = false := by simpa using hc
      obtain ⟨i', e1', t1x', hpost, hrun⟩ :=
        secondEdge1_shallow (v.dx1 - v.i).toNat v (by omega) hcf he0 he1 hdy0 hdy
      refine ⟨i', e1', t1x', v.t1xp, ?_, ?_⟩
      · intro hr1
        have hdx0 : 0 ≤ v.dx1 := by omega
        have hphi : v.dx1 ≤ v.e1 + (v.dx1 - v.i) * v.dy1 := by nlinarith
        obtain ⟨p1, p2, p3, p4, p5⟩ := hpost hphi
        refine ⟨by dsimp only; omega, by dsimp only; omega, p3, Or.inl p4, hdy0, hdy, ?_⟩
        dsimp only
        rw [if_neg hc, p5]
        nlinarith
      · intro n hn
        exact hrun n (by omega)
  · refine ⟨v.i, v.e1, v.t1x, v.t1xp, ?_, ?_⟩
    · intro hr1
      omega
    · intro n _
      exact secondEdge1_done v (by omega) n

/-! ### FillTriangle: the two `for` loops -/

/-- One pass of the body of the first `for` loop, entered with `r + 1` rows to go:
one `drawline` call for the row `y`, then `y + 1` with `r` rows to go. -/
theorem firstHalf_row (y2 : Int) (v : TriLocals) (r : Int) (hr : 0 ≤ r)
    (hF : FirstInv v (r + 1)) (hE : Edge2Inv v) :
    ∃ (v4 : TriLocals) (sp : Int × Int × Int),
      sp.1 ≤ sp.2.1 ∧ sp.2.2 = v.y ∧ v4.y = v.y + 1 ∧ FirstInv v4 r ∧ Edge2Inv v4
      ∧ v4.dx1 = v.dx1 ∧ v4.dx2 = v.dx2
      ∧ ∀ n : Nat, v.dx1.toNat + v.dx2.toNat ≤ n + 1 →
          firstHalf y2 (n + 1) v
            = if v4.y = y2 then some (v4, [sp])
              else (firstHalf y2 n v4).map (fun res => (res.1, sp :: res.2)) := by
  -- the state after `rowStart`
  obtain ⟨a, b, hab, hs0⟩ := rowStart_frame v
  obtain ⟨v0, hv0⟩ : ∃ v0, v0 = rowStart v := ⟨_, rfl⟩
  rw [← hv0] at hs0
  have hF0 : FirstInv v0 (r + 1) := by rw [hs0]; exact hF
  have hE0 : Edge2Inv v0 := by rw [hs0]; exact hE
  have hy0 : v0.y = v.y := by rw [hs0]
  have hm0 : v0.minx ≤ v0.maxx := by rw [hs0]; exact hab
  have hdx10 : v0.dx1 = v.dx1 := by rw [hs0]
  have hdx20 : v0.dx2 = v.dx2 := by rw [hs0]
  have hi0 : v0.i = v.i := by rw [hs0]
  -- the walk along the first edge
  obtain ⟨hi, i', e1', t1x', t1xp', hF1, hrun1⟩ := firstEdge1_row v0 r hr hF0
  obtain ⟨v1, hv1⟩ : ∃ v1, v1 = { v0 with i := i', e1 := e1', t1x := t1x', t1xp := t1xp' } :=
    ⟨_, rfl⟩
  rw [← hv1] at hF1 hrun1
  have hE1 : Edge2Inv v1 := by rw [hv1]; exact hE0
  have hy1 : v1.y = v.y := by rw [hv1]; exact hy0
  have hm1 : v1.minx ≤ v1.maxx := by rw [hv1]; exact hm0
  have hdx11 : v1.dx1 = v.dx1 := by rw [hv1]; exact hdx10
  have hdx21 : v1.dx2 = v.dx2 := by rw [hv1]; exact hdx20
  have he21 : 0 ≤ v1.e2 := hE1.1
  -- the walk along the second edge
  obtain ⟨e2', t2x', t2xp', hb0, hb1, hrun2⟩ :=
    firstEdge2_spec (v1.dx2 - v1.e2).toNat v1 (by omega) hE1.1 hE1.2.1 hE1.2.2.1
      hE1.2.2.2.1 hE1.2.2.2.2
  obtain ⟨v2, hv2⟩ : ∃ v2, v2 = { v1 with e2 := e2', t2x := t2x', t2xp := t2xp' } :=
    ⟨_, rfl⟩
  rw [← hv2] at hrun2
  have hF2 : FirstInv v2 r := by rw [hv2]; exact hF1
  have hE2 : Edge2Inv v2 := by
    rw [hv2]; exact ⟨hb0, hb1, hE1.2.2.1, hE1.2.2.2.1, hE1.2.2.2.2⟩
  have hy2 : v2.y = v.y := by rw [hv2]; exact hy1
  have hm2 : v2.minx ≤ v2.maxx := by rw [hv2]; exact hm1
  have hdx12 : v2.dx1 = v.dx1 := by rw [hv2]; exact hdx11
  have hdx22 : v2.dx2 = v.dx2 := by rw [hv2]; exact hdx21
  -- `minx`, `maxx` and the step to the next row
  obtain ⟨a', b', hab', hs3⟩ := rowMinMax_frame v2 hm2
  obtain ⟨v3, hv3⟩ : ∃ v3, v3 = rowMinMax v2 := ⟨_, rfl⟩
  rw [← hv3] at hs3
  have hy3 : v3.y = v.y := by rw [hs3]; exact hy2
  have hm3 : v3.minx ≤ v3.maxx := by rw [hs3]; exact hab'
  obtain ⟨p, q, hs4⟩ := rowAdvance_frame v3
  obtain ⟨v4, hv4⟩ : ∃ v4, v4 = rowAdvance v3 := ⟨_, rfl⟩
  rw [← hv4] at hs4
  have hF4 : FirstInv v4 r := by rw [hs4, hs3]; exact hF2
  have hE4 : Edge2Inv v4 := by rw [hs4, hs3]; exact hE2
  have hy4 : v4.y = v.y + 1 := by rw [hs4]; show v3.y + 1 = v.y + 1; rw [hy3]
  have hdx14 : v4.dx1 = v.dx1 := by rw [hs4, hs3]; exact hdx12
  have hdx24 : v4.dx2 = v.dx2 := by rw [hs4, hs3]; exact hdx22
  refine ⟨v4, (v3.minx, v3.maxx, v3.y), hm3, hy3, hy4, hF4, hE4, hdx14, hdx24, ?_⟩
  intro n hn
  rw [firstHalf, if_pos (by rw [← hi0, ← hdx10]; exact hi), ← hv0,
    hrun1 (n + 1) (by omega)]
  dsimp only
  rw [hrun2 (n + 1) (by omega)]
  dsimp only
  rw [← hv3, ← hv4]

/-- The first `for` loop, entered with `k + 1` rows to go before `y` reaches `y2`:
it ends, makes exactly one `drawline` call for each of these rows, in order, and
leaves `y = y2`. -/
theorem firstHalf_spec (y2 : Int) :
    ∀ (k : Nat) (v : TriLocals), v.y + ((k : Int) + 1) = y2 → FirstInv v ((k : Int) + 1) →
      Edge2Inv v →
      ∃ (v' : TriLocals) (spans : List (Int × Int × Int)),
        SpanRows v.y spans ∧ spans.length = k + 1 ∧ v'.y = y2 ∧ Edge2Inv v'
        ∧ ∀ n : Nat, (k + 1) + v.dx1.toNat + v.dx2.toNat ≤ n →
            firstHalf y2 n v = some (v', spans) := by
  intro k
  induction k with
  | zero =>
    intro v hy hF hE
    obtain ⟨v4, sp, hsp1, hsp2, hy4, _, hE4, _, _, hrun⟩ :=
      firstHalf_row y2 v 0 (le_refl 0) (by simpa using hF) hE
    refine ⟨v4, [sp], ⟨hsp1, hsp2, trivial⟩, rfl, by rw [hy4]; simpa using hy, hE4, ?_⟩
    intro n hn
    obtain ⟨j, rfl⟩ : ∃ j, n = j + 1 := ⟨n - 1, by omega⟩
    rw [hrun j (by omega), if_pos (by rw [hy4]; simpa using hy)]
  | succ k ih =>
    intro v hy hF hE
    obtain ⟨v4, sp, hsp1, hsp2, hy4, hF4, hE4, hdx14, hdx24, hrun⟩ :=
      firstHalf_row y2 v ((k : Int) + 1) (by omega) (by push_cast at hF; exact hF) hE
    obtain ⟨v', spans, hrows, hlen, hy', hE', hrun'⟩ :=
      ih v4 (by rw [hy4]; push_cast at hy; omega) hF4 hE4
    refine ⟨v', sp :: spans, ⟨hsp1, hsp2, ?_⟩, by simp [hlen], hy', hE', ?_⟩
    · rw [← hy4]; exact hrows
    · intro n hn
      obtain ⟨j, rfl⟩ : ∃ j, n = j + 1 := ⟨n - 1, by omega⟩
      have hne : ¬ v4.y = y2 := by rw [hy4]; push_cast at hy; omega
      rw [hrun j (by omega), if_neg hne, hrun' j (by omega)]
      rfl

/-- One pass of the body of the second `for` loop, entered with `r` rows to follow
the current one: one `drawline` call for the row `y`, then the return when `r = 0`,
the next pass with `r - 1` rows to follow otherwise. -/
theorem secondHalf_row (x3 y3 : Int) (v : TriLocals) (r : Int) (hr : 0 ≤ r)
    (hy : v.y + r = y3) (hS : SecondInv v r) (hE : Edge2Inv v) :
    ∃ (v5 : TriLocals) (sp : Int × Int × Int),
      sp.1 ≤ sp.2.1 ∧ sp.2.2 = v.y ∧ v5.y = v.y + 1 ∧ (1 ≤ r → SecondInv v5 (r - 1))
      ∧ Edge2Inv v5 ∧ v5.dx1 = v.dx1 ∧ v5.dx2 = v.dx2
      ∧ ∀ n : Nat, v.dx1.toNat + v.dx2.toNat + 1 ≤ n + 1 →
          secondHalf x3 y3 (n + 1) v
            = if r = 0 then some [sp]
              else (secondHalf x3 y3 n v5).map (fun res => sp :: res) := by
  -- the state after `rowStart`
  obtain ⟨a, b, hab, hs0⟩ := rowStart_frame v
  obtain ⟨v0, hv0⟩ : ∃ v0, v0 = rowStart v := ⟨_, rfl⟩
  rw [← hv0] at hs0
  have hS0 : SecondInv v0 r := by rw [hs0]; exact hS
  have hE0 : Edge2Inv v0 := by rw [hs0]; exact hE
  have hy0 : v0.y = v.y := by rw [hs0]
  have hm0 : v0.minx ≤ v0.maxx := by rw [hs0]; exact hab
  have hdx10 : v0.dx1 = v.dx1 := by rw [hs0]
  have hdx20 : v0.dx2 = v.dx2 := by rw [hs0]
  -- the walk along the first edge
  obtain ⟨i', e1', t1x', t1xp', hS1, hrun1⟩ := secondEdge1_row v0 r hr hS0
  obtain ⟨v1, hv1⟩ : ∃ v1, v1 = { v0 with i := i', e1 := e1', t1x := t1x', t1xp := t1xp' } :=
    ⟨_, rfl⟩
  rw [← hv1] at hrun1
  have hi1 : v1.i = i' := by rw [hv1]
  have hE1 : Edge2Inv v1 := by rw [hv1]; exact hE0
  have hy1 : v1.y = v.y := by rw [hv1]; exact hy0
  have hm1 : v1.minx ≤ v1.maxx := by rw [hv1]; exact hm0
  have hdx11 : v1.dx1 = v.dx1 := by rw [hv1]; exact hdx10
  have hdx21 : v1.dx2 = v.dx2 := by rw [hv1]; exact hdx20
  have he21 : 0 ≤ v1.e2 := hE1.1
  -- the walk along the second edge
  obtain ⟨e2', t2x', t2xp', hb0, hb1, hrun2⟩ :=
    secondEdge2_spec x3 (v1.dx2 - v1.e2).toNat v1 (by omega) hE1.1 hE1.2.1 hE1.2.2.1
      hE1.2.2.2.1 hE1.2.2.2.2
  obtain ⟨v2, hv2⟩ : ∃ v2, v2 = { v1 with e2 := e2', t2x := t2x', t2xp := t2xp' } :=
    ⟨_, rfl⟩
  rw [← hv2] at hrun2
  have hE2 : Edge2Inv v2 := by
    rw [hv2]; exact ⟨hb0, hb1, hE1.2.2.1, hE1.2.2.2.1, hE1.2.2.2.2⟩
  have hy2 : v2.y = v.y := by rw [hv2]; exact hy1
  have hm2 : v2.minx ≤ v2.maxx := by rw [hv2]; exact hm1
  have hdx12 : v2.dx1 = v.dx1 := by rw [hv2]; exact hdx11
  have hdx22 : v2.dx2 = v.dx2 := by rw [hv2]; exact hdx21
  -- `minx`, `maxx` and the step to the next row
  obtain ⟨a', b', hab', hs3⟩ := rowMinMax_frame v2 hm2
  obtain ⟨v3, hv3⟩ : ∃ v3, v3 = rowMinMax v2 := ⟨_, rfl⟩
  rw [← hv3] at hs3
  have hy3 : v3.y = v.y := by rw [hs3]; exact hy2
  have hm3 : v3.minx ≤ v3.maxx := by rw [hs3]; exact hab'
  obtain ⟨p, q, hs4⟩ := rowAdvance_frame v3
  obtain ⟨v4, hv4⟩ : ∃ v4, v4 = rowAdvance v3 := ⟨_, rfl⟩
  rw [← hv4] at hs4
  have hy4 : v4.y = v.y + 1 := by rw [hs4]; show v3.y + 1 = v.y + 1; rw [hy3]
  have hS5 : 1 ≤ r → SecondInv { v4 with i := v4.i + 1 } (r - 1) := by
    intro hr1
    rw [hs4, hs3, hv2, hv1]
    exact hS1 hr1
  have hE5 : Edge2Inv { v4 with i := v4.i + 1 } := by rw [hs4, hs3]; exact hE2
  have hdx15 : ({ v4 with i := v4.i + 1 } : TriLocals).dx1 = v.dx1 := by
    rw [hs4, hs3]; exact hdx12
  have hdx25 : ({ v4 with i := v4.i + 1 } : TriLocals).dx2 = v.dx2 := by
    rw [hs4, hs3]; exact hdx22
  refine ⟨{ v4 with i := v4.i + 1 }, (v3.minx, v3.maxx, v3.y), hm3, hy3, hy4, hS5, hE5,
    hdx15, hdx25, ?_⟩
  intro n hn
  have hguard : v.i ≤ v.dx1 := hS.2.1
  rw [secondHalf, if_pos hguard, ← hv0, hrun1 (n + 1) (by omega)]
  dsimp only
  rw [hrun2 (n + 1) (by omega)]
  dsimp only
  rw [← hv3, ← hv4]
  by_cases hr0 : r = 0
  · rw [if_pos hr0, if_pos (by rw [hy4]; omega)]
  · rw [if_neg hr0, if_neg (by rw [hy4]; omega)]

/-- The second `for` loop, entered with `k` rows to follow the current one before
`y` passes `y3`: it ends and makes exactly one `drawline` call for each of the rows
`y .. y3`, in order. -/
theorem secondHalf_spec (x3 y3 : Int) :
    ∀ (k : Nat) (v : TriLocals), v.y + (k : Int) = y3 → SecondInv v (k : Int) →
      Edge2Inv v →
      ∃ spans : List (Int × Int × Int),
        SpanRows v.y spans ∧ spans.length = k + 1
        ∧ ∀ n : Nat, (k + 1) + v.dx1.toNat + v.dx2.toNat + 1 ≤ n →
            secondHalf x3 y3 n v = some spans := by
  intro k
  induction k with
  | zero =>
    intro v hy hS hE
    obtain ⟨v5, sp, hsp1, hsp2, _, _, _, _, _, hrun⟩ :=
      secondHalf_row x3 y3 v 0 (le_refl 0) (by simpa using hy) (by simpa using hS) hE
    refine ⟨[sp], ⟨hsp1, hsp2, trivial⟩, rfl, ?_⟩
    intro n hn
    obtain ⟨j, rfl⟩ : ∃ j, n = j + 1 := ⟨n - 1, by omega⟩
    rw [hrun j (by omega), if_pos rfl]
  | succ k ih =>
    intro v hy hS hE
    obtain ⟨v5, sp, hsp1, hsp2, hy5, hS5, hE5, hdx15, hdx25, hrun⟩ :=
      secondHalf_row x3 y3 v ((k : Int) + 1) (by omega) (by push_cast at hy; exact hy)
        (by push_cast at hS; exact hS) hE
    have hS5' : SecondInv v5 (k : Int) := by
      have := hS5 (by omega)
      simpa using this
    obtain ⟨spans, hrows, hlen, hrun'⟩ :=
      ih v5 (by rw [hy5]; push_cast at hy; omega) hS5' hE5
    refine ⟨sp :: spans, ⟨hsp1, hsp2, ?_⟩, by simp [hlen], ?_⟩
    · rw [← hy5]; exact hrows
    · intro n hn
      obtain ⟨j, rfl⟩ : ∃ j, n = j + 1 := ⟨n - 1, by omega⟩
      have hne : ¬ ((k : Int) + 1 = 0) := by omega
      rw [hrun j (by omega), if_neg hne, hrun' j (by omega)]
      rfl

/-! ### FillTriangle: set-up and result -/

/-- The vertex ordering step leaves the rows in ascending order, the first being
the least and the last the greatest of the three. -/
theorem sortVertices_y (x1 y1 x2 y2 x3 y3 : Int) :
    (sortVertices x1 y1 x2 y2 x3 y3).1.2 ≤ (sortVertices x1 y1 x2 y2 x3 y3).2.1.2
    ∧ (sortVertices x1 y1 x2 y2 x3 y3).2.1.2 ≤ (sortVertices x1 y1 x2 y2 x3 y3).2.2.2
    ∧ (sortVertices x1 y1 x2 y2 x3 y3).1.2 = min y1 (min y2 y3)
    ∧ (sortVertices x1 y1 x2 y2 x3 y3).2.2.2 = max y1 (max y2 y3) := by
  unfold sortVertices
  by_cases h1 : y1 > y2 <;> by_cases h2 : y1 > y3 <;> by_cases h3 : y2 > y3
    <;> by_cases h4 : y2 > y1 <;> by_cases h5 : y3 > y1 <;> by_cases h6 : y3 > y2
    <;> simp only [h1, h2, h3, h4, h5, h6, if_true, if_false]
    <;> omega

theorem triSetup_y (x1 y1 x2 y2 x3 y3 : Int) : (triSetup x1 y1 x2 y2 x3 y3).y = y1 := by
  unfold triSetup
  dsimp only

/-- After the set-up the second edge is ready to be walked, provided the triangle
spans more than one row. -/
theorem triSetup_edge2 (x1 y1 x2 y2 x3 y3 : Int) (h13 : y1 < y3) :
    Edge2Inv (triSetup x1 y1 x2 y2 x3 y3) := by
  unfold Edge2Inv triSetup
  dsimp only
  have hd : 0 ≤ (if x3 - x1 < 0 then -(x3 - x1) else x3 - x1) := by split <;> omega
  generalize (if x3 - x1 < 0 then -(x3 - x1) else x3 - x1) = d at hd ⊢
  by_cases hsw : y3 - y1 > d
  · simp only [hsw, if_true, decide_True, true_or, and_true]
    omega
  · simp only [hsw, if_false, decide_False, Bool.false_eq_true, false_or]
    omega

/-- After the set-up and `e1 = dx1 >> 1` the first edge is ready to be walked down
to `y2`, when `y1 < y2`. -/
theorem triSetup_first (x1 y1 x2 y2 x3 y3 : Int) (h12 : y1 < y2) :
    FirstInv { triSetup x1 y1 x2 y2 x3 y3 with
      e1 := (triSetup x1 y1 x2 y2 x3 y3).dx1 / 2, i := 0 } (y2 - y1) := by
  unfold FirstInv triSetup
  dsimp only
  have hd : 0 ≤ (if x2 - x1 < 0 then -(x2 - x1) else x2 - x1) := by split <;> omega
  generalize (if x2 - x1 < 0 then -(x2 - x1) else x2 - x1) = d at hd ⊢
  by_cases hsw : y2 - y1 > d
  · simp only [hsw, if_true, decide_True]
    omega
  · simp only [hsw, if_false, decide_False, Bool.false_eq_true]
    refine ⟨le_refl 0, by omega, by omega, by omega, by omega, ?_⟩
    have : 0 ≤ d / 2 := by omega
    nlinarith

/-- After the label `next` the first edge is ready to be walked down to `y3`; the
second edge and `y` are as before. -/
theorem triSecondSetup_spec (x2 y2 x3 y3 : Int) (v : TriLocals) (h23 : y2 ≤ y3) :
    SecondInv (triSecondSetup x2 y2 x3 y3 v) (y3 - y2)
    ∧ (Edge2Inv v → Edge2Inv (triSecondSetup x2 y2 x3 y3 v))
    ∧ (triSecondSetup x2 y2 x3 y3 v).y = v.y
    ∧ (triSecondSetup x2 y2 x3 y3 v).dx2 = v.dx2 := by
  refine ⟨?_, ?_, ?_, ?_⟩
  · unfold SecondInv triSecondSetup
    dsimp only
    have hd : 0 ≤ (if x3 - x2 < 0 then -(x3 - x2) else x3 - x2) := by split <;> omega
    generalize (if x3 - x2 < 0 then -(x3 - x2) else x3 - x2) = d at hd ⊢
    by_cases hsw : y3 - y2 > d
    · simp only [hsw, if_true, decide_True]
      omega
    · simp only [hsw, if_false, decide_False, Bool.false_eq_true]
      refine ⟨le_refl 0, hd, by omega, by omega, by omega, by omega, ?_⟩
      have : 0 ≤ d / 2 := by omega
      nlinarith
  · intro h
    exact h
  · rfl
  · rfl

theorem SpanRows_append :
    ∀ (l1 l2 : List (Int × Int × Int)) (y : Int),
      SpanRows y l1 → SpanRows (y + l1.length) l2 → SpanRows y (l1 ++ l2) := by
  intro l1
  induction l1 with
  | nil =>
    intro l2 y _ h2
    simpa using h2
  | cons sp rest ih =>
    intro l2 y h1 h2
    obtain ⟨ha, hb, hc⟩ := h1
    refine ⟨ha, hb, ih l2 (y + 1) hc ?_⟩
    have e : y + 1 + (rest.length : Int) = y + ((sp :: rest).length : Int) := by
      simp only [List.length_cons]; push_cast; ring
    rw [e]; exact h2

/-- For a triangle that spans more than one row, `FillTriangle` makes its `drawline`
calls in finitely many steps: exactly one call for each row from the least to the
greatest `y` of the vertices, in ascending order, each with `minx <= maxx`. -/
theorem FillTriangleSpans_rows (x1 y1 x2 y2 x3 y3 : Int)
    (h : min y1 (min y2 y3) < max y1 (max y2 y3)) :
    ∃ (N : Nat) (spans : List (Int × Int × Int)),
      (∀ fuel : Nat, N ≤ fuel → FillTriangleSpans fuel x1 y1 x2 y2 x3 y3 = some spans)
      ∧ SpanRows (min y1 (min y2 y3)) spans
      ∧ (spans.length : Int) = max y1 (max y2 y3) - min y1 (min y2 y3) + 1 := by
  obtain ⟨hs12, hs23, hsmin, hsmax⟩ := sortVertices_y x1 y1 x2 y2 x3 y3
  rcases hsv : sortVertices x1 y1 x2 y2 x3 y3 with ⟨⟨a1, b1⟩, ⟨a2, b2⟩, ⟨a3, b3⟩⟩
  rw [hsv] at hs12 hs23 hsmin hsmax
  dsimp only at hs12 hs23 hsmin hsmax
  rw [← hsmin, ← hsmax] at h ⊢
  have hE := triSetup_edge2 a1 b1 a2 b2 a3 b3 h
  have hy := triSetup_y a1 b1 a2 b2 a3 b3
  by_cases h12 : b1 = b2
  · obtain ⟨hS, hE2, hy2, _⟩ :=
      triSecondSetup_spec a2 b2 a3 b3 (triSetup a1 b1 a2 b2 a3 b3) hs23
    have hk : ((b3 - b2).toNat : Int) = b3 - b2 := Int.toNat_of_nonneg (by omega)
    obtain ⟨spans, hrows, hlen, hrun⟩ :=
      secondHalf_spec a3 b3 (b3 - b2).toNat (triSecondSetup a2 b2 a3 b3 (triSetup a1 b1 a2 b2 a3 b3))
        (by rw [hy2, hy, hk]; omega) (by rw [hk]; exact hS) (hE2 hE)
    obtain ⟨N, hN⟩ : ∃ N : Nat, N = (b3 - b2).toNat + 1
        + (triSecondSetup a2 b2 a3 b3 (triSetup a1 b1 a2 b2 a3 b3)).dx1.toNat
        + (triSecondSetup a2 b2 a3 b3 (triSetup a1 b1 a2 b2 a3 b3)).dx2.toNat + 1 := ⟨_, rfl⟩
    rw [← hN] at hrun
    refine ⟨N, spans, ?_, ?_, ?_⟩
    · intro fuel hfuel
      simp only [FillTriangleSpans, hsv, if_pos h12]
      exact hrun fuel hfuel
    · rw [hy2, hy] at hrows
      exact hrows
    · rw [hlen]; push_cast; omega
  · have hlt : b1 < b2 := by omega
    have hk : (((b2 - b1 - 1).toNat : Nat) : Int) + 1 = b2 - b1 := by
      rw [Int.toNat_of_nonneg (by omega)]; ring
    have hF := triSetup_first a1 b1 a2 b2 a3 b3 hlt
    obtain ⟨v', spans1, hrows1, hlen1, hy', hE', hrun1⟩ :=
      firstHalf_spec b2 (b2 - b1 - 1).toNat
        { triSetup a1 b1 a2 b2 a3 b3 with
          e1 := (triSetup a1 b1 a2 b2 a3 b3).dx1 / 2, i := 0 }
        (by show (triSetup a1 b1 a2 b2 a3 b3).y + _ = b2; rw [hy, hk]; ring)
        (by rw [hk]; exact hF) hE
    obtain ⟨hS, hE2, hy2, _⟩ := triSecondSetup_spec a2 b2 a3 b3 v' hs23
    have hk2 : ((b3 - b2).toNat : Int) = b3 - b2 := Int.toNat_of_nonneg (by omega)
    obtain ⟨spans2, hrows2, hlen2, hrun2⟩ :=
      secondHalf_spec a3 b3 (b3 - b2).toNat (triSecondSetup a2 b2 a3 b3 v')
        (by rw [hy2, hy', hk2]; omega) (by rw [hk2]; exact hS) (hE2 hE')
    obtain ⟨N1, hN1⟩ : ∃ N1 : Nat, N1 = (b2 - b1 - 1).toNat + 1
        + ({ triSetup a1 b1 a2 b2 a3 b3 with
              e1 := (triSetup a1 b1 a2 b2 a3 b3).dx1 / 2, i := 0 } : TriLocals).dx1.toNat
        + ({ triSetup a1 b1 a2 b2 a3 b3 with
              e1 := (triSetup a1 b1 a2 b2 a3 b3).dx1 / 2, i := 0 } : TriLocals).dx2.toNat :=
      ⟨_, rfl⟩
    obtain ⟨N2, hN2⟩ : ∃ N2 : Nat, N2 = (b3 - b2).toNat + 1
        + (triSecondSetup a2 b2 a3 b3 v').dx1.toNat
        + (triSecondSetup a2 b2 a3 b3 v').dx2.toNat + 1 := ⟨_, rfl⟩
    rw [← hN1] at hrun1
    rw [← hN2] at hrun2
    refine ⟨max N1 N2, spans1 ++ spans2, ?_, ?_, ?_⟩
    · intro fuel hfuel
      simp only [FillTriangleSpans, hsv, if_neg h12]
      rw [hrun1 fuel (le_trans (le_max_left _ _) hfuel)]
      dsimp only
      rw [hrun2 fuel (le_trans (le_max_right _ _) hfuel)]
      rfl
    · have hrows1' : SpanRows b1 spans1 := by
        have := hrows1
        dsimp only at this
        rw [hy] at this
        exact this
      apply SpanRows_append _ _ _ hrows1'
      rw [hy2, hy'] at hrows2
      have e : b1 + (spans1.length : Int) = b2 := by rw [hlen1]; push_cast; omega
      rw [e]; exact hrows2
    · rw [List.length_append, hlen1, hlen2]; push_cast; omega

/-! ### FillTriangle: the cells -/

theorem mem_drawlineLoop (ex ny : Int) :
    ∀ (n : Nat) (i : Int), i + n = ex + 1 → ∀ x y : Int,
      ((x, y) ∈ drawlineLoop ex ny n i ↔ y = ny ∧ i ≤ x ∧ x ≤ ex) := by
  intro n
  induction n with
  | zero =>
    intro i hi x y
    simp only [drawlineLoop, List.not_mem_nil, false_iff]
    omega
  | succ n ih =>
    intro i hi x y
    have hg : i ≤ ex := by omega
    rw [drawlineLoop, if_pos hg, List.mem_cons, ih (i + 1) (by omega) x y, Prod.mk.injEq]
    constructor
    · rintro (⟨h1, h2⟩ | ⟨h1, h2, h3⟩)
      · exact ⟨h2, by omega, by omega⟩
      · exact ⟨h1, by omega, h3⟩
    · rintro ⟨h1, h2, h3⟩
      rcases eq_or_lt_of_le h2 with h | h
      · exact Or.inl ⟨h.symm, h1⟩
      · exact Or.inr ⟨h1, by omega, h3⟩

/-- The cells of one `drawline(sx, ex, ny)` call with `sx <= ex`. -/
theorem mem_drawline (sx ex ny : Int) (h : sx ≤ ex) (x y : Int) :
    (x, y) ∈ drawline sx ex ny ↔ y = ny ∧ sx ≤ x ∧ x ≤ ex := by
  unfold drawline
  exact mem_drawlineLoop ex ny _ sx (by rw [Int.toNat_of_nonneg (by omega)]; ring) x y

/-- The cells of one `drawline` call per row, for rows starting at `y0`: every
cell lies in one of these rows, and the cells of each row are one interval. -/
theorem SpanRows_cells :
    ∀ (spans : List (Int × Int × Int)) (y0 : Int), SpanRows y0 spans →
      (∀ x y : Int,
          (x, y) ∈ (spans.map (fun sp => drawline sp.1 sp.2.1 sp.2.2)).flatten →
          y0 ≤ y ∧ y < y0 + spans.length)
      ∧ ∀ y : Int, y0 ≤ y → y < y0 + spans.length →
          ∃ a b : Int, a ≤ b ∧ ∀ x : Int,
            ((x, y) ∈ (spans.map (fun sp => drawline sp.1 sp.2.1 sp.2.2)).flatten
              ↔ a ≤ x ∧ x ≤ b) := by
  intro spans
  induction spans with
  | nil =>
    intro y0 _
    refine ⟨?_, ?_⟩
    · intro x y hmem
      simp at hmem
    · intro y h1 h2
      simp at h2
      omega
  | cons sp rest ih =>
    intro y0 h
    obtain ⟨hab, hy, hrest⟩ := h
    obtain ⟨ih1, ih2⟩ := ih (y0 + 1) hrest
    have hlen : ((sp :: rest).length : Int) = (rest.length : Int) + 1 := by
      simp only [List.length_cons]; push_cast; ring
    simp only [List.map_cons, List.flatten_cons, List.mem_append]
    rw [hlen]
    refine ⟨?_, ?_⟩
    · intro x y hmem
      rcases hmem with hmem | hmem
      · have := (mem_drawline _ _ _ hab x y).mp hmem
        omega
      · have := ih1 x y hmem
        omega
    · intro y h1 h2
      rcases eq_or_lt_of_le h1 with heq | hlt
      · refine ⟨sp.1, sp.2.1, hab, ?_⟩
        intro x
        constructor
        · rintro (hmem | hmem)
          · exact ((mem_drawline _ _ _ hab x y).mp hmem).2
          · have := ih1 x y hmem
            omega
        · intro hx
          exact Or.inl ((mem_drawline _ _ _ hab x y).mpr ⟨by omega, hx.1, hx.2⟩)
      · obtain ⟨a, b, hab', hiff⟩ := ih2 y (by omega) (by omega)
        refine ⟨a, b, hab', ?_⟩
        intro x
        constructor
        · rintro (hmem | hmem)
          · have := (mem_drawline _ _ _ hab x y).mp hmem
            omega
          · exact (hiff x).mp hmem
        · intro hx
          exact Or.inr ((hiff x).mpr hx)

/-- `FillTriangle` over unbounded integers: for a triangle whose vertices are not
collinear, it returns (for every iteration bound from some `N` on, with one and the
same result), every
row `y` from the least to the greatest `y` of the vertices receives cells, and the
cells emitted in such a row are exactly those of one interval `a <= x <= b`. -/
theorem FillTriangle_rows (x1 y1 x2 y2 x3 y3 : Int)
    (hnc : (x2 - x1) * (y3 - y1) ≠ (x3 - x1) * (y2 - y1)) :
    ∃ (N : Nat) (pts : List (Int × Int)),
      (∀ fuel : Nat, N ≤ fuel → FillTriangle fuel x1 y1 x2 y2 x3 y3 = some pts)
      ∧ ∀ y : Int, min y1 (min y2 y3) ≤ y → y ≤ max y1 (max y2 y3) →
          ∃ a b : Int, a ≤ b ∧ ∀ x : Int, ((x, y) ∈ pts ↔ a ≤ x ∧ x ≤ b) := by
  have hrows : min y1 (min y2 y3) < max y1 (max y2 y3) := by
    by_contra hcon
    have h12 : y2 = y1 := by omega
    have h13 : y3 = y1 := by omega
    apply hnc
    rw [h12, h13]
    ring
  obtain ⟨N, spans, hrun, hsp, hlen⟩ := FillTriangleSpans_rows x1 y1 x2 y2 x3 y3 hrows
  obtain ⟨_, hcells⟩ := SpanRows_cells spans _ hsp
  refine ⟨N, (spans.map (fun sp => drawline sp.1 sp.2.1 sp.2.2)).flatten, ?_, ?_⟩
  · intro fuel hfuel
    unfold FillTriangle
    rw [hrun fuel hfuel]
    rfl
  · intro y h1 h2
    exact hcells y h1 (by omega)

/-- The triangle `(0,0), (10,0), (0,10)` over unbounded integers. -/
theorem FillTriangle_rows_witness :
    ((10 - 0) * (10 - 0) ≠ (0 - 0) * ((0 : Int) - 0))
    ∧ ∃ (N : Nat) (pts : List (Int × Int)),
      (∀ fuel : Nat, N ≤ fuel → FillTriangle fuel 0 0 10 0 0 10 = some pts)
      ∧ ∀ y : Int, min 0 (min 0 10) ≤ y → y ≤ max 0 (max 0 10) →
          ∃ a b : Int, a ≤ b ∧ ∀ x : Int, ((x, y) ∈ pts ↔ a ≤ x ∧ x ≤ b) :=
  ⟨by decide, FillTriangle_rows 0 0 10 0 0 10 (by decide)⟩

/-! ### DrawLine: direction, length and distance to the ideal line -/

theorem absInt_sub_comm (a b : Int) : absInt (a - b) = absInt (b - a) := by
  unfold absInt
  split_ifs <;> omega

theorem absInt_nonneg (a : Int) : 0 ≤ absInt a := by
  unfold absInt
  split_ifs <;> omega

/-- `DrawLine` over unbounded integers: `DrawLine(x2, y2, x1, y1)` makes the same
`PaintPixel` calls, in the same order, as `DrawLine(x1, y1, x2, y2)`. -/
theorem DrawLine_reverse (x1 y1 x2 y2 : Int) :
    DrawLine x2 y2 x1 y1 = DrawLine x1 y1 x2 y2 := by
  unfold DrawLine
  simp only
  rw [absInt_sub_comm y1 y2, absInt_sub_comm x1 x2]
  by_cases hlow : absInt (y2 - y1) < absInt (x2 - x1)
  · rw [if_pos hlow, if_pos hlow]
    have hne : x1 ≠ x2 := by
      intro h
      subst h
      have := absInt_nonneg (y2 - y1)
      simp [absInt] at hlow
      omega
    by_cases hgt : x1 > x2
    · rw [if_pos hgt, if_neg (by omega)]
    · rw [if_neg hgt, if_pos (by omega)]
  · rw [if_neg hlow, if_neg hlow]
    by_cases hgt : y1 > y2
    · rw [if_pos hgt, if_neg (by omega)]
    · rw [if_neg hgt]
      by_cases hlt : y2 > y1
      · rw [if_pos hlt]
      · rw [if_neg hlt]
        have hy : y2 = y1 := by omega
        have hx : x2 = x1 := by
          subst hy
          unfold absInt at hlow
          split_ifs at hlow <;> omega
        rw [hx, hy]

/-- The rounded offset grows by `0` or `1` per step along the major axis. -/
theorem lineMinor_step (a b t : Int) (hb : 0 < b) (ha0 : 0 ≤ a) (hab : a ≤ b) :
    lineMinor a b t ≤ lineMinor a b (t + 1) ∧ lineMinor a b (t + 1) ≤ lineMinor a b t + 1 := by
  obtain ⟨h1, h2⟩ := lineMinor_bounds a b t hb
  obtain ⟨h3, h4⟩ := lineMinor_bounds a b (t + 1) hb
  constructor
  · by_contra hcon
    have : lineMinor a b (t + 1) + 1 ≤ lineMinor a b t := by omega
    nlinarith
  · by_contra hcon
    have : lineMinor a b t + 2 ≤ lineMinor a b (t + 1) := by omega
    nlinarith

/-- `DrawLineLow` for `x1 < x2` and `|y2 - y1| <= x2 - x1`: the number of cells, the
step between consecutive cells, and the distance of every cell to the ideal
line. -/
theorem DrawLineLow_path (x1 y1 x2 y2 : Int) (hx : x1 < x2)
    (hy : absInt (y2 - y1) ≤ x2 - x1) :
    ((DrawLineLow x1 y1 x2 y2).length : Int) = x2 - x1 + 1
    ∧ List.Chain' (fun p q : Int × Int => q.1 = p.1 + 1 ∧ absInt (q.2 - p.2) ≤ 1)
        (DrawLineLow x1 y1 x2 y2)
    ∧ ∀ p ∈ DrawLineLow x1 y1 x2 y2,
        2 * absInt ((x2 - x1) * (p.2 - y1) - (y2 - y1) * (p.1 - x1)) ≤ x2 - x1 := by
  have hdx : 0 < x2 - x1 := by omega
  have ha0 : 0 ≤ absInt (y2 - y1) := absInt_nonneg _
  have hlen : (x2 + 1 - x1).toNat = (x2 - x1).toNat + 1 := by omega
  rw [DrawLineLow_closed x1 y1 x2 y2 hx hy, hlen]
  refine ⟨?_, ?_, ?_⟩
  · rw [List.length_map, List.length_range]
    push_cast
    rw [Int.toNat_of_nonneg (by omega)]
  · rw [List.chain'_map, List.chain'_range_succ]
    intro m _
    obtain ⟨s1, s2⟩ := lineMinor_step (absInt (y2 - y1)) (x2 - x1) (m : Int) hdx ha0 hy
    dsimp only
    refine ⟨by push_cast; ring, ?_⟩
    rw [Nat.succ_eq_add_one]
    push_cast
    unfold absInt at hy ha0 s1 s2 ⊢
    split_ifs at hy ha0 s1 s2 ⊢ <;> nlinarith
  · intro p hp
    obtain ⟨t, _, rfl⟩ := List.mem_map.mp hp
    obtain ⟨b1, b2⟩ := lineMinor_bounds (absInt (y2 - y1)) (x2 - x1) (t : Int) hdx
    dsimp only
    generalize lineMinor (absInt (y2 - y1)) (x2 - x1) (t : Int) = j at b1 b2
    by_cases hneg : y2 - y1 < 0
    · have habs : absInt (y2 - y1) = -(y2 - y1) := by unfold absInt; rw [if_pos hneg]
      rw [habs] at b1 b2
      rw [if_pos hneg]
      unfold absInt
      split_ifs <;> nlinarith
    · have habs : absInt (y2 - y1) = y2 - y1 := by unfold absInt; rw [if_neg hneg]
      rw [habs] at b1 b2
      rw [if_neg hneg]
      unfold absInt
      split_ifs <;> nlinarith

/-- The branch `DrawLine` takes, with what makes the closed form of `DrawLineLow`
applicable in it. -/
theorem DrawLine_cases (x1 y1 x2 y2 : Int) :
    (absInt (y2 - y1) < absInt (x2 - x1) ∧
      ((x1 < x2 ∧ absInt (y2 - y1) ≤ x2 - x1 ∧ absInt (x2 - x1) = x2 - x1
          ∧ DrawLine x1 y1 x2 y2 = DrawLineLow x1 y1 x2 y2)
        ∨ (x2 < x1 ∧ absInt (y1 - y2) ≤ x1 - x2 ∧ absInt (x2 - x1) = x1 - x2
          ∧ DrawLine x1 y1 x2 y2 = DrawLineLow x2 y2 x1 y1)))
    ∨ (¬ absInt (y2 - y1) < absInt (x2 - x1) ∧
      ((y1 < y2 ∧ absInt (x2 - x1) ≤ y2 - y1 ∧ absInt (y2 - y1) = y2 - y1
          ∧ DrawLine x1 y1 x2 y2 = (DrawLineLow y1 x1 y2 x2).map Prod.swap)
        ∨ (y2 < y1 ∧ absInt (x1 - x2) ≤ y1 - y2 ∧ absInt (y2 - y1) = y1 - y2
          ∧ DrawLine x1 y1 x2 y2 = (DrawLineLow y2 x2 y1 x1).map Prod.swap)
        ∨ (x2 = x1 ∧ y2 = y1 ∧ DrawLine x1 y1 x2 y2 = [(x1, y1)]))) := by
  unfold DrawLine
  simp only
  by_cases hlow : absInt (y2 - y1) < absInt (x2 - x1)
  · left
    refine ⟨hlow, ?_⟩
    rw [if_pos hlow]
    by_cases hgt : x1 > x2
    · right
      rw [if_pos hgt]
      refine ⟨hgt, ?_, ?_, rfl⟩
      · unfold absInt at hlow ⊢
        split_ifs at hlow ⊢ <;> omega
      · unfold absInt
        split_ifs <;> omega
    · left
      rw [if_neg hgt]
      have h1 : x1 < x2 := by
        unfold absInt at hlow
        split_ifs at hlow <;> omega
      refine ⟨h1, ?_, ?_, rfl⟩
      · unfold absInt at hlow ⊢
        split_ifs at hlow ⊢ <;> omega
      · unfold absInt
        split_ifs <;> omega
  · right
    refine ⟨hlow, ?_⟩
    rw [if_neg hlow]
    by_cases hgt : y1 > y2
    · right; left
      rw [if_pos hgt, DrawLineHigh_eq]
      refine ⟨hgt, ?_, ?_, rfl⟩
      · unfold absInt at hlow ⊢
        split_ifs at hlow ⊢ <;> omega
      · unfold absInt
        split_ifs <;> omega
    · rw [if_neg hgt, DrawLineHigh_eq]
      rcases lt_or_eq_of_le (not_lt.mp hgt) with hlt | heq
      · left
        refine ⟨hlt, ?_, ?_, rfl⟩
        · unfold absInt at hlow ⊢
          split_ifs at hlow ⊢ <;> omega
        · unfold absInt
          split_ifs <;> omega
      · right; right
        have hxe : x2 = x1 := by
          unfold absInt at hlow
          split_ifs at hlow <;> omega
        subst hxe
        refine ⟨rfl, heq.symm, ?_⟩
        rw [← heq, DrawLineLow_point]
        rfl

theorem absInt_neg_eq (a b : Int) (h : b = -a) : absInt b = absInt a := by
  unfold absInt
  split_ifs <;> omega

/-- `DrawLine` over unbounded integers makes exactly `max(|x2-x1|, |y2-y1|) + 1`
`PaintPixel` calls; consecutive cells differ by exactly `1` (upwards) along the dominant axis, which is
`x` when `|y2-y1| < |x2-x1|` and `y` otherwise, and by at most `1` along the other
axis; and `DrawLine(p, p)` emits the single cell `p`. -/
theorem DrawLine_path (x1 y1 x2 y2 : Int) :
    ((DrawLine x1 y1 x2 y2).length : Int)
        = max (absInt (x2 - x1)) (absInt (y2 - y1)) + 1
    ∧ (absInt (y2 - y1) < absInt (x2 - x1) →
        List.Chain' (fun p q : Int × Int => q.1 = p.1 + 1 ∧ absInt (q.2 - p.2) ≤ 1)
          (DrawLine x1 y1 x2 y2))
    ∧ (¬ absInt (y2 - y1) < absInt (x2 - x1) →
        List.Chain' (fun p q : Int × Int => q.2 = p.2 + 1 ∧ absInt (q.1 - p.1) ≤ 1)
          (DrawLine x1 y1 x2 y2))
    ∧ DrawLine x1 y1 x1 y1 = [(x1, y1)] := by
  have hpoint : DrawLine x1 y1 x1 y1 = [(x1, y1)] := by
    rcases DrawLine_cases x1 y1 x1 y1 with ⟨hl, _⟩ | ⟨_, h | h | h⟩
    · simp [absInt] at hl
    · omega
    · omega
    · exact h.2.2
  rcases DrawLine_cases x1 y1 x2 y2 with ⟨hl, h | h⟩ | ⟨hl, h | h | h⟩
  · obtain ⟨hx, hy, habs, heq⟩ := h
    obtain ⟨p1, p2, _⟩ := DrawLineLow_path x1 y1 x2 y2 hx hy
    rw [heq]
    refine ⟨?_, fun _ => p2, fun hn => absurd hl hn, hpoint⟩
    rw [p1, max_eq_left (by omega), habs]
  · obtain ⟨hx, hy, habs, heq⟩ := h
    obtain ⟨p1, p2, _⟩ := DrawLineLow_path x2 y2 x1 y1 hx hy
    rw [heq]
    refine ⟨?_, fun _ => p2, fun hn => absurd hl hn, hpoint⟩
    rw [p1, max_eq_left (by omega), habs]
  · obtain ⟨hy, hx, habs, heq⟩ := h
    obtain ⟨p1, p2, _⟩ := DrawLineLow_path y1 x1 y2 x2 hy hx
    rw [heq]
    refine ⟨?_, fun hp => absurd hp hl, fun _ => ?_, hpoint⟩
    · rw [List.length_map, p1, max_eq_right (by omega), habs]
    · rw [List.chain'_map]
      exact p2
  · obtain ⟨hy, hx, habs, heq⟩ := h
    obtain ⟨p1, p2, _⟩ := DrawLineLow_path y2 x2 y1 x1 hy hx
    rw [heq]
    refine ⟨?_, fun hp => absurd hp hl, fun _ => ?_, hpoint⟩
    · rw [List.length_map, p1, max_eq_right (by omega), habs]
    · rw [List.chain'_map]
      exact p2
  · obtain ⟨hx, hy, heq⟩ := h
    rw [heq, hx, hy]
    refine ⟨?_, fun hp => absurd hp (by simp [absInt]), fun _ => List.chain'_singleton _,
      hpoint⟩
    simp [absInt]

/-- Over unbounded integers, every cell `(x, y)` that `DrawLine` emits satisfies
`2 * |dx * (y - y1) - dy * (x - x1)| <= max(|dx|, |dy|)` with `dx = x2 - x1` and
`dy = y2 - y1`: it lies within half a cell of the ideal line, measured along the
minor axis. -/
theorem DrawLine_near_ideal (x1 y1 x2 y2 : Int) :
    ∀ p ∈ DrawLine x1 y1 x2 y2,
      2 * absInt ((x2 - x1) * (p.2 - y1) - (y2 - y1) * (p.1 - x1))
        ≤ max (absInt (x2 - x1)) (absInt (y2 - y1)) := by
  intro p hp
  rcases DrawLine_cases x1 y1 x2 y2 with ⟨hl, h | h⟩ | ⟨hl, h | h | h⟩
  · obtain ⟨hx, hy, habs, heq⟩ := h
    rw [heq] at hp
    have := (DrawLineLow_path x1 y1 x2 y2 hx hy).2.2 p hp
    rw [max_eq_left (by omega), habs]
    exact this
  · obtain ⟨hx, hy, habs, heq⟩ := h
    rw [heq] at hp
    have := (DrawLineLow_path x2 y2 x1 y1 hx hy).2.2 p hp
    rw [max_eq_left (by omega), habs,
      absInt_neg_eq ((x1 - x2) * (p.2 - y2) - (y1 - y2) * (p.1 - x2)) _ (by ring)]
    exact this
  · obtain ⟨hy, hx, habs, heq⟩ := h
    rw [heq] at hp
    obtain ⟨q, hq, rfl⟩ := List.mem_map.mp hp
    have := (DrawLineLow_path y1 x1 y2 x2 hy hx).2.2 q hq
    rw [max_eq_right (by omega), habs,
      absInt_neg_eq ((y2 - y1) * (q.2 - x1) - (x2 - x1) * (q.1 - y1)) _
        (by simp only [Prod.fst_swap, Prod.snd_swap]; ring)]
    exact this
  · obtain ⟨hy, hx, habs, heq⟩ := h
    rw [heq] at hp
    obtain ⟨q, hq, rfl⟩ := List.mem_map.mp hp
    have := (DrawLineLow_path y2 x2 y1 x1 hy hx).2.2 q hq
    have e : (x2 - x1) * (q.swap.2 - y1) - (y2 - y1) * (q.swap.1 - x1)
        = (y1 - y2) * (q.2 - x2) - (x1 - x2) * (q.1 - y2) := by
      simp only [Prod.fst_swap, Prod.snd_swap]; ring
    rw [max_eq_right (by omega), habs, e]
    exact this
  · obtain ⟨hx, hy, heq⟩ := h
    rw [heq] at hp
    simp only [List.mem_singleton] at hp
    subst hp
    rw [hx, hy]
    simp [absInt]

/-- The line from `(0, 0)` to `(5, 2)` over unbounded integers, at its cell
`(2, 1)`. -/
theorem DrawLine_near_ideal_witness :
    ((2, 1) ∈ DrawLine 0 0 5 2)
    ∧ 2 * absInt ((5 - 0) * (((2 : Int), (1 : Int)).2 - 0) - (2 - 0) * (((2 : Int), (1 : Int)).1 - 0))
        ≤ max (absInt (5 - 0)) (absInt (2 - 0)) :=
  ⟨by decide, DrawLine_near_ideal 0 0 5 2 (2, 1) (by decide)⟩

/-- The line from `(2, 2)` to `(2, 2)` over unbounded integers: exactly the single
cell `(2, 2)`. -/
theorem DrawLine_path_witness : DrawLine 2 2 2 2 = [(2, 2)] :=
  (DrawLine_path 2 2 2 2).2.2.2

/-! ### DrawCircle with radius zero -/

/-- The loop of `DrawPolygon`, entered at `i` with the iterations left that take it
past `nSides`, makes one `DrawLine` call per iteration, each starting where the
previous one ended (the first at `p2`). -/
theorem DrawPolygonLoop_spec {F : Type} (next : F → F) (point : F → Int × Int)
    (nSides : Int) :
    ∀ (n : Nat) (i : Int) (angle : F) (p2 : Int × Int), i + n = nSides + 1 →
      (DrawPolygonLoop next point nSides n i angle p2).length = n
      ∧ List.Chain (fun a b : (Int × Int) × (Int × Int) => b.1 = a.2) (p2, p2)
          (DrawPolygonLoop next point nSides n i angle p2) := by
  intro n
  induction n with
  | zero =>
    intro i angle p2 _
    exact ⟨rfl, List.Chain.nil⟩
  | succ n ih =>
    intro i angle p2 h
    have hg : i ≤ nSides := by omega
    obtain ⟨h1, h2⟩ := ih (i + 1) (next angle) (point (next angle)) (by omega)
    rw [DrawPolygonLoop, if_pos hg]
    refine ⟨by simp [h1], List.Chain.cons rfl ?_⟩
    cases hl : DrawPolygonLoop next point nSides n (i + 1) (next angle) (point (next angle)) with
    | nil => exact List.Chain.nil
    | cons seg rest =>
      rw [hl] at h2
      cases h2 with
      | cons hrel hrest => exact List.Chain.cons hrel hrest

/-- For `nSides >= 0`, whatever the floating-point part computes, `DrawPolygon` makes
`nSides + 1` `DrawLine` calls, each starting where the previous one ended. -/
theorem DrawPolygonLines_spec {F : Type} (angle0 : F) (next : F → F)
    (point : F → Int × Int) (nSides : Int) (hn : 0 ≤ nSides) :
    ((DrawPolygonLines angle0 next point nSides).length : Int) = nSides + 1
    ∧ List.Chain' (fun a b : (Int × Int) × (Int × Int) => b.1 = a.2)
        (DrawPolygonLines angle0 next point nSides) := by
  have hfuel : (0 : Int) + ((nSides + 1).toNat : Nat) = nSides + 1 := by
    rw [Int.toNat_of_nonneg (by omega)]; ring
  obtain ⟨h1, h2⟩ :=
    DrawPolygonLoop_spec next point nSides (nSides + 1).toNat 0 angle0 (point angle0) hfuel
  unfold DrawPolygonLines
  refine ⟨?_, ?_⟩
  · rw [h1, Int.toNat_of_nonneg (by omega)]
  · cases hl : DrawPolygonLoop next point nSides (nSides + 1).toNat 0 angle0 (point angle0) with
    | nil => exact List.chain'_nil
    | cons seg rest =>
      rw [hl] at h2
      cases h2 with
      | cons _ hrest => exact hrest

/-- C14 (the code at the failing input): with `nSides = 3`, whatever the
floating-point part computes, `DrawPolygon` makes four `DrawLine` calls, not three;
the fourth starts where the third ended. -/
theorem DrawPolygon_three_sides_four_lines {F : Type} (angle0 : F) (next : F → F)
    (point : F → Int × Int) :
    DrawPolygonLines angle0 next point 3
      = [ (point angle0, point (next angle0)),
          (point (next angle0), point (next (next angle0))),
          (point (next (next angle0)), point (next (next (next angle0)))),
          (point (next (next (next angle0))), point (next (next (next (next angle0))))) ]
    ∧ (DrawPolygonLines angle0 next point 3).length = 4 := by
  constructor <;> rfl

/-! ### ProcessKeys: the mouse buttons -/

/-- The test `(dwButtonState & (1 << m)) > 0` reads bit `m` of the mask. -/
theorem and_shiftLeft_pos (mask m : Nat) :
    decide ((mask &&& (1 <<< m)) > 0) = mask.testBit m := by
  rw [Nat.one_shiftLeft]
  by_cases hb : mask.testBit m = true
  · rw [hb, decide_eq_true_eq]
    apply Nat.pos_of_ne_zero
    intro h0
    have h := Nat.testBit_and mask (2 ^ m) m
    rw [h0, Nat.zero_testBit, hb, Nat.testBit_two_pow_self] at h
    exact absurd h (by decide)
  · have hf : mask.testBit m = false := by simpa using hb
    rw [hf, decide_eq_false_iff_not]
    intro hpos
    obtain ⟨i, hi⟩ := Nat.ne_zero_implies_bit_true (Nat.pos_iff_ne_zero.mp hpos)
    rw [Nat.testBit_and, Nat.testBit_two_pow, Bool.and_eq_true, decide_eq_true_eq] at hi
    obtain ⟨h1, h2⟩ := hi
    subst h2
    rw [hf] at h1
    exact absurd h1 (by decide)

/-- The loop run for a button-state event stores bit `m` of the mask for every
button `m < 5` and leaves the other entries alone. -/
theorem buttonLoop_spec (mask : Nat) :
    ∀ (n i : Nat) (f : Nat → Bool), i + n = 5 → ∀ m : Nat,
      buttonLoop mask n i f m = if i ≤ m ∧ m < 5 then mask.testBit m else f m := by
  intro n
  induction n with
  | zero =>
    intro i f h m
    have : ¬ (i ≤ m ∧ m < 5) := by omega
    simp [buttonLoop, this]
  | succ n ih =>
    intro i f h m
    have hlt : i < 5 := by omega
    rw [buttonLoop, if_pos hlt, ih (i + 1) _ (by omega) m]
    by_cases hmi : m = i
    · subst hmi
      have ha : ¬ (m + 1 ≤ m ∧ m < 5) := by omega
      have hb : m ≤ m ∧ m < 5 := by omega
      rw [if_neg ha, if_pos hb, Function.update_same, and_shiftLeft_pos]
    · by_cases hr : i + 1 ≤ m ∧ m < 5
      · have hb : i ≤ m ∧ m < 5 := by omega
        rw [if_pos hr, if_pos hb]
      · have hb : ¬ (i ≤ m ∧ m < 5) := by omega
        rw [if_neg hr, if_neg hb, Function.update_noteq hmi]

theorem keyboardBody_mouse (G : Nat → Nat) (s : ConsoleGraphicsEngine) (i : Nat) :
    (keyboardBody G s i).mouse = s.mouse
    ∧ (keyboardBody G s i).mouseOldState = s.mouseOldState
    ∧ (keyboardBody G s i).mouseNewState = s.mouseNewState :=
  ⟨rfl, rfl, rfl⟩

theorem keyboardLoop_mouse (G : Nat → Nat) :
    ∀ (n i : Nat) (s : ConsoleGraphicsEngine),
      (keyboardLoop G n i s).mouse = s.mouse
      ∧ (keyboardLoop G n i s).mouseOldState = s.mouseOldState
      ∧ (keyboardLoop G n i s).mouseNewState = s.mouseNewState := by
  intro n
  induction n with
  | zero => intro i s; exact ⟨rfl, rfl, rfl⟩
  | succ n ih =>
    intro i s
    rw [keyboardLoop]
    split
    · obtain ⟨h1, h2, h3⟩ := ih (i + 1) (keyboardBody G s i)
      rw [h1, h2, h3]
      exact keyboardBody_mouse G s i
    · exact ⟨rfl, rfl, rfl⟩

/-- One input record, seen from button `m < 5`: a button-state event stores bit `m`
of its mask in `mouseNewState[m]`, any other record leaves it; the derived states
and `mouseOldState` are not touched. -/
theorem eventBody_mouse (s : ConsoleGraphicsEngine) (ev : INPUT_RECORD) (m : Nat)
    (hm : m < 5) :
    (eventBody s ev).mouse = s.mouse
    ∧ (eventBody s ev).mouseOldState = s.mouseOldState
    ∧ (eventBody s ev).mouseNewState m = buttonDownAfter (s.mouseNewState m) [ev] m := by
  cases ev with
  | MOUSE_EVENT e =>
    by_cases hmv : e.dwEventFlags = MOUSE_MOVED
    · have h0 : ¬ e.dwEventFlags = 0 := by rw [hmv]; decide
      refine ⟨?_, ?_, ?_⟩
      · simp only [eventBody, if_pos hmv]
      · simp only [eventBody, if_pos hmv]
      · simp only [eventBody, if_pos hmv, buttonDownAfter, lastButtonState, if_neg h0]
    · by_cases h0 : e.dwEventFlags = 0
      · refine ⟨?_, ?_, ?_⟩
        · simp only [eventBody, if_neg hmv, if_pos h0]
        · simp only [eventBody, if_neg hmv, if_pos h0]
        · simp only [eventBody, if_neg hmv, if_pos h0, buttonDownAfter, lastButtonState]
          rw [buttonLoop_spec e.dwButtonState 5 0 _ rfl m, if_pos ⟨Nat.zero_le m, hm⟩]
      · refine ⟨?_, ?_, ?_⟩
        · simp only [eventBody, if_neg hmv, if_neg h0]
        · simp only [eventBody, if_neg hmv, if_neg h0]
        · simp only [eventBody, if_neg hmv, if_neg h0, buttonDownAfter, lastButtonState]
  | other => exact ⟨rfl, rfl, rfl⟩

theorem buttonDownAfter_cons (prev : Bool) (ev : INPUT_RECORD) (rest : List INPUT_RECORD)
    (m : Nat) :
    buttonDownAfter prev (ev :: rest) m
      = buttonDownAfter (buttonDownAfter prev [ev] m) rest m := by
  unfold buttonDownAfter
  cases hrest : lastButtonState rest with
  | some mask => simp [lastButtonState, hrest]
  | none =>
    simp only [lastButtonState, hrest]

/-- The event loop, seen from button `m < 5`. -/
theorem events_mouse (m : Nat) (hm : m < 5) (input : List INPUT_RECORD) :
    ∀ s : ConsoleGraphicsEngine,
      (input.foldl eventBody s).mouse = s.mouse
      ∧ (input.foldl eventBody s).mouseOldState = s.mouseOldState
      ∧ (input.foldl eventBody s).mouseNewState m
          = buttonDownAfter (s.mouseNewState m) input m := by
  induction input with
  | nil => intro s; exact ⟨rfl, rfl, rfl⟩
  | cons ev rest ih =>
    intro s
    rw [List.foldl_cons]
    obtain ⟨h1, h2, h3⟩ := ih (eventBody s ev)
    obtain ⟨e1, e2, e3⟩ := eventBody_mouse s ev m hm
    rw [h1, h2, h3, e1, e2, e3, buttonDownAfter_cons (s.mouseNewState m) ev rest m]
    exact ⟨rfl, rfl, rfl⟩

/-- What the button loop body for button `j` leaves in `mouse[j]`. -/
theorem mouseBody_mouse_same (s : ConsoleGraphicsEngine) (j : Nat) :
    (mouseBody s j).mouse j
      = if s.mouseNewState j ≠ s.mouseOldState j then
          (if s.mouseNewState j = true then ⟨true, false, true⟩ else ⟨false, true, false⟩)
        else ⟨false, false, (s.mouse j).held⟩ := by
  simp only [mouseBody, Function.update_same]

theorem mouseBody_mouse_other (s : ConsoleGraphicsEngine) (i j : Nat) (h : j ≠ i) :
    (mouseBody s i).mouse j = s.mouse j
    ∧ (mouseBody s i).mouseOldState j = s.mouseOldState j := by
  simp [mouseBody, Function.update_noteq h]

/-- The button loop, started at button `i` with the iterations left that take it to
`5`: the buttons `i .. 4` get the result of their own loop body, computed from the
state before the loop; `mouseNewState` is not touched. -/
theorem mouseLoop_spec :
    ∀ (n i : Nat) (s : ConsoleGraphicsEngine), i + n = 5 →
      (mouseLoop n i s).mouseNewState = s.mouseNewState
      ∧ ∀ j : Nat,
        ((mouseLoop n i s).mouse j
            = if i ≤ j ∧ j < 5 then (mouseBody s j).mouse j else s.mouse j)
        ∧ ((mouseLoop n i s).mouseOldState j
            = if i ≤ j ∧ j < 5 then s.mouseNewState j else s.mouseOldState j) := by
  intro n
  induction n with
  | zero =>
    intro i s h
    refine ⟨rfl, ?_⟩
    intro j
    have : ¬ (i ≤ j ∧ j < 5) := by omega
    simp [mouseLoop, this]
  | succ n ih =>
    intro i s h
    have hlt : i < 5 := by omega
    rw [mouseLoop, if_pos hlt]
    obtain ⟨hnew, hrest⟩ := ih (i + 1) (mouseBody s i) (by omega)
    refine ⟨hnew, ?_⟩
    intro j
    obtain ⟨h1, h2⟩ := hrest j
    rw [h1, h2]
    by_cases hji : j = i
    · subst hji
      have ha : ¬ (j + 1 ≤ j ∧ j < 5) := by omega
      have hb : j ≤ j ∧ j < 5 := by omega
      rw [if_neg ha, if_neg ha, if_pos hb, if_pos hb]
      refine ⟨rfl, ?_⟩
      simp [mouseBody]
    · obtain ⟨o1, o2⟩ := mouseBody_mouse_other s i j hji
      by_cases hr : i + 1 ≤ j ∧ j < 5
      · have hb : i ≤ j ∧ j < 5 := by omega
        rw [if_pos hr, if_pos hr, if_pos hb, if_pos hb]
        refine ⟨?_, rfl⟩
        rw [mouseBody_mouse_same, mouseBody_mouse_same, o1, o2]
        rfl
      · have hb : ¬ (i ≤ j ∧ j < 5) := by omega
        rw [if_neg hr, if_neg hr, if_neg hb, if_neg hb]
        exact ⟨o1, o2⟩

/-- One tick of `ProcessKeys`, seen from the mouse button `j < 5`: the derived state
and both raw states after the tick, where the new raw state is bit `j` of the most
recent button-state mask of the tick, or the previous one when there is none. -/
theorem ProcessKeys_mouse (s : ConsoleGraphicsEngine) (G : Nat → Nat)
    (input : List INPUT_RECORD) (j : Nat) (hj : j < 5) :
    (ProcessKeys s G input).mouse j
        = (if buttonDownAfter (s.mouseNewState j) input j ≠ s.mouseOldState j then
            (if buttonDownAfter (s.mouseNewState j) input j = true then ⟨true, false, true⟩
             else ⟨false, true, false⟩)
          else ⟨false, false, (s.mouse j).held⟩)
      ∧ (ProcessKeys s G input).mouseOldState j = buttonDownAfter (s.mouseNewState j) input j
      ∧ (ProcessKeys s G input).mouseNewState j
          = buttonDownAfter (s.mouseNewState j) input j := by
  unfold ProcessKeys
  obtain ⟨k1, k2, k3⟩ := keyboardLoop_mouse G 256 0 s
  obtain ⟨e1, e2, e3⟩ := events_mouse j hj input (keyboardLoop G 256 0 s)
  obtain ⟨l1, l2⟩ := mouseLoop_spec 5 0 (input.foldl eventBody (keyboardLoop G 256 0 s)) rfl
  obtain ⟨l3, l4⟩ := l2 j
  have hb : 0 ≤ j ∧ j < 5 := by omega
  rw [l3, l4, l1, if_pos hb, if_pos hb, mouseBody_mouse_same, e1, e2, e3, k1, k2, k3]
  exact ⟨rfl, rfl, rfl⟩

theorem runTicks_snoc (ticks : List ((Nat → Nat) × List INPUT_RECORD))
    (t : (Nat → Nat) × List INPUT_RECORD) :
    ∀ s : ConsoleGraphicsEngine,
      runTicks s (ticks ++ [t]) = ProcessKeys (runTicks s ticks) t.1 t.2 := by
  induction ticks with
  | nil => intro s; rfl
  | cons u rest ih =>
    intro s
    simp only [List.cons_append, runTicks]
    exact ih _

theorem buttonDownSeq_snoc (m : Nat) (ticks : List ((Nat → Nat) × List INPUT_RECORD))
    (t : (Nat → Nat) × List INPUT_RECORD) :
    buttonDownSeq m (ticks ++ [t]) = buttonDownAfter (buttonDownSeq m ticks) t.2 m := by
  unfold buttonDownSeq
  rw [List.foldl_append]
  rfl

/-- After any sequence of ticks from the initial state, both raw states of button
`m < 5` and its `held` flag say whether the button counts as down. -/
theorem runTicks_mouse (s0 : ConsoleGraphicsEngine) (h0 : Idle s0) (m : Nat) (hm : m < 5) :
    ∀ ticks : List ((Nat → Nat) × List INPUT_RECORD),
      (runTicks s0 ticks).mouseNewState m = buttonDownSeq m ticks
      ∧ (runTicks s0 ticks).mouseOldState m = buttonDownSeq m ticks
      ∧ ((runTicks s0 ticks).mouse m).held = buttonDownSeq m ticks := by
  intro ticks
  induction ticks using List.reverseRecOn with
  | nil =>
    obtain ⟨a, b, c⟩ := h0.2 m
    refine ⟨c, b, ?_⟩
    show (s0.mouse m).held = false
    rw [a]
  | append_singleton ticks t ih =>
    obtain ⟨i1, i2, i3⟩ := ih
    obtain ⟨p1, p2, p3⟩ := ProcessKeys_mouse (runTicks s0 ticks) t.1 t.2 m hm
    rw [runTicks_snoc, buttonDownSeq_snoc, p1, p2, p3, i1, i2, i3]
    refine ⟨rfl, rfl, ?_⟩
    cases buttonDownSeq m ticks <;> cases buttonDownAfter _ t.2 m <;> rfl

/-- C15: starting from the initial state, for every button `m < 5` and every
sequence of ticks, the `(pressed, released, held)` derived for the button at the
last tick is the transition-table row for `(previous down, current down)`, where
the button counts as down according to bit `m` of the most recent button-state
mask, retained over ticks without a button-state event. -/
theorem ProcessKeys_mouse_table (s0 : ConsoleGraphicsEngine) (h0 : Idle s0) (m : Nat)
    (hm : m < 5) (ticks : List ((Nat → Nat) × List INPUT_RECORD))
    (t : (Nat → Nat) × List INPUT_RECORD) :
    GetMouseState (runTicks s0 (ticks ++ [t])) m
      = transitionRow (buttonDownSeq m ticks) (buttonDownSeq m (ticks ++ [t])) := by
  obtain ⟨i1, i2, i3⟩ := runTicks_mouse s0 h0 m hm ticks
  obtain ⟨p1, _, _⟩ := ProcessKeys_mouse (runTicks s0 ticks) t.1 t.2 m hm
  unfold GetMouseState
  rw [runTicks_snoc, buttonDownSeq_snoc, p1, i1, i2, i3]
  cases buttonDownSeq m ticks <;> cases buttonDownAfter _ t.2 m <;> rfl

theorem Idle_mk0 : Idle mk0 :=
  ⟨fun _ => ⟨rfl, rfl, rfl⟩, fun _ => ⟨rfl, rfl, rfl⟩⟩

/-- C15 on the sequence down, down, up, up for button `0`: a press, a movement with
the button still down, a release, a tick without records. -/
theorem ProcessKeys_mouse_table_witness :
    (Idle mk0 ∧ 0 < 5)
    ∧ GetMouseState (runTicks mk0 ([] ++ [tickButtons 1])) 0 = ⟨true, false, true⟩
    ∧ GetMouseState (runTicks mk0 ([tickButtons 1] ++ [tickMoved 3 4 1])) 0
        = ⟨false, false, true⟩
    ∧ GetMouseState (runTicks mk0 ([tickButtons 1, tickMoved 3 4 1] ++ [tickButtons 0])) 0
        = ⟨false, true, false⟩
    ∧ GetMouseState
          (runTicks mk0 ([tickButtons 1, tickMoved 3 4 1, tickButtons 0] ++ [tickQuiet])) 0
        = ⟨false, false, false⟩ :=
  ⟨⟨Idle_mk0, by decide⟩,
    ProcessKeys_mouse_table mk0 Idle_mk0 0 (by decide) [] (tickButtons 1),
    ProcessKeys_mouse_table mk0 Idle_mk0 0 (by decide) [tickButtons 1] (tickMoved 3 4 1),
    ProcessKeys_mouse_table mk0 Idle_mk0 0 (by decide) [tickButtons 1, tickMoved 3 4 1]
      (tickButtons 0),
    ProcessKeys_mouse_table mk0 Idle_mk0 0 (by decide)
      [tickButtons 1, tickMoved 3 4 1, tickButtons 0] tickQuiet⟩

/-! ### PrintStringW and the offsets DrawBorder writes -/

/-- C16 (the code at the failing input): on a 4 x 3 console filled with blanks,
`PrintStringW(3, 0, "AB", 0x000F)` puts `'A'` in the cell `(3, 0)` and `'B'` in the
cell `(0, 1)` of the next row, although `(3 + 1, 0)` lies outside the buffer;
`PrintString(3, 0, "AB")`, which goes through `PaintPixel`, leaves `(0, 1)` blank. -/
theorem PrintStringW_wraps_into_next_row :
    cellAt (PrintStringW (ConstructConsole mk0 4 3) 3 0 [65, 66] 0x000F) 3 0 = ⟨65, 0x000F⟩
    ∧ cellAt (PrintStringW (ConstructConsole mk0 4 3) 3 0 [65, 66] 0x000F) 0 1 = ⟨66, 0x000F⟩
    ∧ cellAt (ConstructConsole mk0 4 3) 0 1 = ⟨32, 0⟩
    ∧ cellAt (PrintString (ConstructConsole mk0 4 3) 3 0 [65, 66]) 0 1 = ⟨32, 0⟩ := by
  decide

/-- The first loop of `DrawBorder`, entered at row `i <= screenHeight <= screenWidth`,
reaches `i = screenHeight` and stores to the offset `screenHeight * screenWidth`. -/
theorem DrawBorderLoop1_store_at_size (w h c col : Int) (hle : h ≤ w) :
    ∀ (n : Nat) (i : Int), i + n = w + 1 → i ≤ h →
      Store.char (h * w) c ∈ DrawBorderLoop1 w h c col n i := by
  intro n
  induction n with
  | zero =>
    intro i hn hi
    omega
  | succ n ih =>
    intro i hn hi
    have hg : i ≤ w := by omega
    rw [DrawBorderLoop1, if_pos hg, if_pos hi]
    rcases eq_or_lt_of_le hi with heq | hlt
    · subst heq
      simp
    · exact List.mem_append_right _ (ih (i + 1) (by omega) (by omega))

/-- On every buffer with `0 <= screenHeight <= screenWidth`, `DrawBorder` stores to
the offset `screenHeight * screenWidth`, the first one past the cells of the
grid. -/
theorem DrawBorder_store_at_size (s : ConsoleGraphicsEngine) (c col : Int)
    (hh : 0 ≤ s.screenHeight) (hle : s.screenHeight ≤ s.screenWidth) :
    Store.char (s.screenHeight * s.screenWidth) c ∈ DrawBorderStores s c col := by
  unfold DrawBorderStores
  apply List.mem_append_left
  apply DrawBorderLoop1_store_at_size _ _ _ _ hle _ 0 _ hh
  rw [Int.toNat_of_nonneg (by omega)]
  ring

/-- C17 (the code at the failing input): on a 4 x 3 console (`screenSize = 12`)
`DrawBorder` stores to the offsets `12` and `15`, which lie past the last cell of
the buffer. -/
theorem DrawBorder_writes_past_buffer :
    (ConstructConsole mk0 4 3).screenSize = 12
    ∧ (12 : Int) ∈ (DrawBorderStores (ConstructConsole mk0 4 3) 0x2588 0x000F).map Store.index
    ∧ (15 : Int) ∈ (DrawBorderStores (ConstructConsole mk0 4 3) 0x2588 0x000F).map Store.index
    ∧ (DrawBorder (ConstructConsole mk0 4 3) 0x2588 0x000F).screen 12 = ⟨0x2588, 0x000F⟩ := by
  decide

/-! ### FillTriangle: the vertex order -/

/-- C18 (counterexample): for the vertices `(0,1), (5,1), (9,0)` the ordering step
yields `(9,0), (5,1), (0,1)`: the two vertices of row `1` come out in reverse input
order, while a stable sort gives `(9,0), (0,1), (5,1)`. -/
theorem sortVertices_not_stable :
    sortVerticesList 0 1 5 1 9 0 = [(9, 0), (5, 1), (0, 1)]
    ∧ stableSortByY [(0, 1), (5, 1), (9, 0)] = [(9, 0), (0, 1), (5, 1)]
    ∧ sortVerticesList 0 1 5 1 9 0 ≠ stableSortByY [(0, 1), (5, 1), (9, 0)] := by
  decide

/-- C18 (amended): for every three input vertices the ordering step yields a
permutation of the inputs with `y1 <= y2 <= y3`; vertices with equal `y` keep their
input order (the result is that of a stable sort by `y`) unless the first two
inputs share a row below the third input's (`y1 = y2 > y3`), in which case the
result is the input in reverse order. -/
theorem sortVertices_order (x1 y1 x2 y2 x3 y3 : Int) :
    List.Perm (sortVerticesList x1 y1 x2 y2 x3 y3) [(x1, y1), (x2, y2), (x3, y3)]
    ∧ (sortVertices x1 y1 x2 y2 x3 y3).1.2 ≤ (sortVertices x1 y1 x2 y2 x3 y3).2.1.2
    ∧ (sortVertices x1 y1 x2 y2 x3 y3).2.1.2 ≤ (sortVertices x1 y1 x2 y2 x3 y3).2.2.2
    ∧ (¬ (y1 = y2 ∧ y3 < y1) →
        sortVerticesList x1 y1 x2 y2 x3 y3
          = stableSortByY [(x1, y1), (x2, y2), (x3, y3)])
    ∧ (y1 = y2 ∧ y3 < y1 →
        sortVerticesList x1 y1 x2 y2 x3 y3 = [(x3, y3), (x2, y2), (x1, y1)]) := by
  obtain ⟨hs1, hs2, _, _⟩ := sortVertices_y x1 y1 x2 y2 x3 y3
  refine ⟨?_, hs1, hs2, ?_, ?_⟩
  · unfold sortVerticesList sortVertices
    by_cases h1 : y1 > y2 <;> by_cases h2 : y1 > y3 <;> by_cases h3 : y2 > y3
      <;> by_cases h4 : y2 > y1 <;> by_cases h5 : y3 > y1 <;> by_cases h6 : y3 > y2
      <;> simp only [h1, h2, h3, h4, h5, h6, if_true, if_false]
      <;> first
        | exact List.Perm.refl _
        | exact List.Perm.swap _ _ _
        | exact List.Perm.cons _ (List.Perm.swap _ _ _)
        | exact (List.Perm.swap _ _ _).trans
            ((List.Perm.cons _ (List.Perm.swap _ _ _)).trans (List.Perm.swap _ _ _))
        | exact (List.Perm.cons _ (List.Perm.swap _ _ _)).trans (List.Perm.swap _ _ _)
        | exact (List.Perm.swap _ _ _).trans (List.Perm.cons _ (List.Perm.swap _ _ _))
  · intro hns
    clear hs1 hs2
    by_cases h1 : y1 > y2 <;> by_cases h2 : y1 > y3 <;> by_cases h3 : y2 > y3
      <;> by_cases h4 : y2 > y1 <;> by_cases h5 : y3 > y1 <;> by_cases h6 : y3 > y2
      <;> by_cases g1 : y2 ≤ y3 <;> by_cases g2 : y1 ≤ y2 <;> by_cases g3 : y1 ≤ y3
      <;> first
        | (exfalso; omega)
        | simp only [sortVerticesList, sortVertices, stableSortByY, List.insertionSort,
            List.orderedInsert, h1, h2, h3, h4, h5, h6, g1, g2, g3, if_true, if_false]
  · rintro ⟨he, hlt⟩
    clear hs1 hs2
    unfold sortVerticesList sortVertices
    have h1 : ¬ y1 > y2 := by omega
    have h2 : y1 > y3 := by omega
    have h3 : ¬ y2 > y1 := by omega
    simp only [h1, h2, h3, if_true, if_false]

/-! ### ProcessKeys: consistency of the derived states -/

/-- Whatever the state before, after one tick of `ProcessKeys` the derived state of
every key code `k < 256` and of every mouse button `j < 5` is consistent. -/
theorem ProcessKeys_ok (s : ConsoleGraphicsEngine) (G : Nat → Nat)
    (input : List INPUT_RECORD) (k j : Nat) (hk : k < 256) (hj : j < 5) :
    KeyStateOK ((ProcessKeys s G input).keys k)
    ∧ KeyStateOK ((ProcessKeys s G input).mouse j) := by
  obtain ⟨p1, _⟩ := ProcessKeys_keys s G input k hk
  obtain ⟨q1, _, _⟩ := ProcessKeys_mouse s G input j hj
  rw [p1, q1]
  unfold KeyStateOK
  constructor
  · split_ifs
    · cases (s.keys k).held <;> decide
    · decide
    · cases (s.keys k).held <;> decide
  · split_ifs
    · decide
    · decide
    · cases (s.mouse j).held <;> decide

/-- C20: in every state reached from the initial state by any number of
`ProcessKeys` ticks, for every key code `k < 256` and every mouse button `j < 5`,
`pressed` and `released` are not both true, `pressed` implies `held`, and
`released` implies not `held`. -/
theorem ProcessKeys_invariants (s0 : ConsoleGraphicsEngine) (h0 : Idle s0)
    (ticks : List ((Nat → Nat) × List INPUT_RECORD)) (k j : Nat) (hk : k < 256)
    (hj : j < 5) :
    (¬ (((runTicks s0 ticks).keys k).pressed = true
          ∧ ((runTicks s0 ticks).keys k).released = true)
      ∧ (((runTicks s0 ticks).keys k).pressed = true
          → ((runTicks s0 ticks).keys k).held = true)
      ∧ (((runTicks s0 ticks).keys k).released = true
          → ((runTicks s0 ticks).keys k).held = false))
    ∧ (¬ (((runTicks s0 ticks).mouse j).pressed = true
          ∧ ((runTicks s0 ticks).mouse j).released = true)
      ∧ (((runTicks s0 ticks).mouse j).pressed = true
          → ((runTicks s0 ticks).mouse j).held = true)
      ∧ (((runTicks s0 ticks).mouse j).released = true
          → ((runTicks s0 ticks).mouse j).held = false)) := by
  induction ticks using List.reverseRecOn with
  | nil =>
    have hkeys : (runTicks s0 []).keys k = ⟨false, false, false⟩ := (h0.1 k).1
    have hmouse : (runTicks s0 []).mouse j = ⟨false, false, false⟩ := (h0.2 j).1
    rw [hkeys, hmouse]
    decide
  | append_singleton ticks t _ =>
    rw [runTicks_snoc]
    exact ProcessKeys_ok (runTicks s0 ticks) t.1 t.2 k j hk hj

theorem ProcessKeys_invariants_witness :
    (Idle mk0 ∧ 65 < 256 ∧ 0 < 5)
    ∧ (¬ (((runTicks mk0 [tickButtons 1, tickQuiet]).keys 65).pressed = true
          ∧ ((runTicks mk0 [tickButtons 1, tickQuiet]).keys 65).released = true)
      ∧ (((runTicks mk0 [tickButtons 1, tickQuiet]).keys 65).pressed = true
          → ((runTicks mk0 [tickButtons 1, tickQuiet]).keys 65).held = true)
      ∧ (((runTicks mk0 [tickButtons 1, tickQuiet]).keys 65).released = true
          → ((runTicks mk0 [tickButtons 1, tickQuiet]).keys 65).held = false))
    ∧ (¬ (((runTicks mk0 [tickButtons 1, tickQuiet]).mouse 0).pressed = true
          ∧ ((runTicks mk0 [tickButtons 1, tickQuiet]).mouse 0).released = true)
      ∧ (((runTicks mk0 [tickButtons 1, tickQuiet]).mouse 0).pressed = true
          → ((runTicks mk0 [tickButtons 1, tickQuiet]).mouse 0).held = true)
      ∧ (((runTicks mk0 [tickButtons 1, tickQuiet]).mouse 0).released = true
          → ((runTicks mk0 [tickButtons 1, tickQuiet]).mouse 0).held = false)) :=
  ⟨⟨Idle_mk0, by decide, by decide⟩,
    ProcessKeys_invariants mk0 Idle_mk0 [tickButtons 1, tickQuiet] 65 0 (by decide)
      (by decide)⟩

/-! ### FillTriangle: termination -/

/-- The walk along the second edge in the second half when the edge is horizontal
(`dy2 = 0`, `changed2` unset): `e2` stays below `dx2`, so `t2x` moves by `signx2`
in each pass, and the loop `while (t2x != x3)` ends after the `k` passes that take
`t2x` to `x3`. -/
theorem secondEdge2_flat (x3 : Int) :
    ∀ (k : Nat) (v : TriLocals), v.t2x + (k : Int) * v.signx2 = x3 → v.dy2 = 0 →
      v.changed2 = false → 0 ≤ v.e2 → (v.e2 < v.dx2 ∨ v.t2x = x3) →
      ∀ n : Nat, k ≤ n → secondEdge2 x3 n v = some { v with t2x := x3 } := by
  intro k
  induction k with
  | zero =>
    intro v hk _ _ _ _ n _
    have hx : v.t2x = x3 := by simpa using hk
    have hv : ({ v with t2x := x3 } : TriLocals) = v := by rw [← hx]
    have hg : ¬ v.t2x ≠ x3 := by simp [hx]
    rw [hv]
    cases n with
    | zero => rw [secondEdge2, if_neg hg]
    | succ j => rw [secondEdge2, if_neg hg]
  | succ k ih =>
    intro v hk hdy hc h0 he n hn
    by_cases hx : v.t2x = x3
    · have hv : ({ v with t2x := x3 } : TriLocals) = v := by rw [← hx]
      have hg : ¬ v.t2x ≠ x3 := by simp [hx]
      rw [hv]
      cases n with
      | zero => rw [secondEdge2, if_neg hg]
      | succ j => rw [secondEdge2, if_neg hg]
    · have hlt : v.e2 < v.dx2 := by
        rcases he with h | h
        · exact h
        · exact absurd h hx
      obtain ⟨j, rfl⟩ : ∃ j, n = j + 1 := ⟨n - 1, by omega⟩
      have hsub := sub2_spec { v with e2 := v.e2 + v.dy2 } (by dsimp only; omega)
      dsimp only at hsub
      have hrec := ih { v with e2 := v.e2 + v.dy2, t2x := v.t2x + v.signx2 }
        (by dsimp only; push_cast at hk; rw [← hk]; ring) hdy hc (by dsimp only; omega)
        (Or.inl (by dsimp only; omega)) j (by omega)
      have hcn : ¬ v.changed2 = true := by simp [hc]
      rw [secondEdge2, if_pos hx]
      dsimp only
      rw [hsub (j + 1) (by omega), if_neg (by omega)]
      dsimp only
      rw [if_neg hcn, hrec, hdy, add_zero]

/-- The second `for` loop entered on the last row with a horizontal second edge that
is `k` steps away from `x3`: both walks end, one `drawline` call is made for the
row, and the function returns. -/
theorem secondHalf_flat (x3 y3 : Int) (k : Nat) (v : TriLocals) (hy : v.y = y3)
    (hS : SecondInv v 0) (hk : v.t2x + (k : Int) * v.signx2 = x3) (hdy : v.dy2 = 0)
    (hc : v.changed2 = false) (h0 : 0 ≤ v.e2) (he : v.e2 < v.dx2 ∨ v.t2x = x3) :
    ∃ sp : Int × Int × Int,
      sp.1 ≤ sp.2.1 ∧ sp.2.2 = v.y
      ∧ ∀ n : Nat, v.dx1.toNat + k + 1 ≤ n → secondHalf x3 y3 n v = some [sp] := by
  -- the state after `rowStart`
  obtain ⟨a, b, hab, hs0⟩ := rowStart_frame v
  obtain ⟨v0, hv0⟩ : ∃ v0, v0 = rowStart v := ⟨_, rfl⟩
  rw [← hv0] at hs0
  have hS0 : SecondInv v0 0 := by rw [hs0]; exact hS
  have hy0 : v0.y = v.y := by rw [hs0]
  have hm0 : v0.minx ≤ v0.maxx := by rw [hs0]; exact hab
  have hdx10 : v0.dx1 = v.dx1 := by rw [hs0]
  -- the walk along the first edge
  obtain ⟨i', e1', t1x', t1xp', _, hrun1⟩ := secondEdge1_row v0 0 (le_refl 0) hS0
  obtain ⟨v1, hv1⟩ : ∃ v1, v1 = { v0 with i := i', e1 := e1', t1x := t1x', t1xp := t1xp' } :=
    ⟨_, rfl⟩
  rw [← hv1] at hrun1
  have hy1 : v1.y = v.y := by rw [hv1]; exact hy0
  have hm1 : v1.minx ≤ v1.maxx := by rw [hv1]; exact hm0
  have hk1 : v1.t2x + (k : Int) * v1.signx2 = x3 := by rw [hv1, hs0]; exact hk
  have hdy1 : v1.dy2 = 0 := by rw [hv1, hs0]; exact hdy
  have hc1 : v1.changed2 = false := by rw [hv1, hs0]; exact hc
  have h01 : 0 ≤ v1.e2 := by rw [hv1, hs0]; exact h0
  have he1 : v1.e2 < v1.dx2 ∨ v1.t2x = x3 := by rw [hv1, hs0]; exact he
  -- the walk along the second edge
  have hrun2 := secondEdge2_flat x3 k v1 hk1 hdy1 hc1 h01 he1
  obtain ⟨v2, hv2⟩ : ∃ v2, v2 = { v1 with t2x := x3 } := ⟨_, rfl⟩
  rw [← hv2] at hrun2
  have hy2 : v2.y = v.y := by rw [hv2]; exact hy1
  have hm2 : v2.minx ≤ v2.maxx := by rw [hv2]; exact hm1
  -- `minx`, `maxx` and the step to the next row
  obtain ⟨a', b', hab', hs3⟩ := rowMinMax_frame v2 hm2
  obtain ⟨v3, hv3⟩ : ∃ v3, v3 = rowMinMax v2 := ⟨_, rfl⟩
  rw [← hv3] at hs3
  have hy3 : v3.y = v.y := by rw [hs3]; exact hy2
  have hm3 : v3.minx ≤ v3.maxx := by rw [hs3]; exact hab'
  obtain ⟨p, q, hs4⟩ := rowAdvance_frame v3
  obtain ⟨v4, hv4⟩ : ∃ v4, v4 = rowAdvance v3 := ⟨_, rfl⟩
  rw [← hv4] at hs4
  have hy4 : v4.y = v.y + 1 := by rw [hs4]; show v3.y + 1 = v.y + 1; rw [hy3]
  refine ⟨(v3.minx, v3.maxx, v3.y), hm3, hy3, ?_⟩
  intro n hn
  obtain ⟨j, rfl⟩ : ∃ j, n = j + 1 := ⟨n - 1, by omega⟩
  have hguard : v.i ≤ v.dx1 := hS.2.1
  rw [secondHalf, if_pos hguard, ← hv0, hrun1 (j + 1) (by omega)]
  dsimp only
  rw [hrun2 (j + 1) (by omega)]
  dsimp only
  rw [← hv3, ← hv4, if_pos (by rw [hy4]; omega)]

/-- The set-up for three vertices in one row: the second edge is horizontal,
`changed2` is unset, `e2` is below `dx2` unless `x1 = x3`, and `t2x` is `dx2` steps
of `signx2` away from `x3`. -/
theorem triSetup_flat (x1 y1 x2 y2 x3 : Int) :
    (triSetup x1 y1 x2 y2 x3 y1).dy2 = 0
    ∧ (triSetup x1 y1 x2 y2 x3 y1).changed2 = false
    ∧ 0 ≤ (triSetup x1 y1 x2 y2 x3 y1).e2
    ∧ ((triSetup x1 y1 x2 y2 x3 y1).e2 < (triSetup x1 y1 x2 y2 x3 y1).dx2
        ∨ (triSetup x1 y1 x2 y2 x3 y1).t2x = x3)
    ∧ (triSetup x1 y1 x2 y2 x3 y1).t2x
        + (((triSetup x1 y1 x2 y2 x3 y1).dx2.toNat : Nat) : Int)
          * (triSetup x1 y1 x2 y2 x3 y1).signx2 = x3 := by
  unfold triSetup
  dsimp only
  have hyy : y1 - y1 = 0 := sub_self y1
  rw [hyy]
  by_cases hneg : x3 - x1 < 0
  · have hsw : ¬ (0 > -(x3 - x1)) := by omega
    simp only [hneg, hsw, if_true, if_false, decide_False]
    refine ⟨trivial, trivial, by omega, Or.inl (by omega), ?_⟩
    rw [Int.toNat_of_nonneg (by omega)]
    ring
  · have hsw : ¬ (0 > x3 - x1) := by omega
    simp only [hneg, hsw, if_false, decide_False]
    refine ⟨trivial, trivial, by omega, ?_, ?_⟩
    · by_cases hz : x3 - x1 = 0
      · exact Or.inr (by omega)
      · exact Or.inl (by omega)
    · rw [Int.toNat_of_nonneg (by omega)]
      ring

/-- For three vertices in one row, `FillTriangle` makes one `drawline` call, for
that row, in finitely many steps. -/
theorem FillTriangleSpans_flat (x1 y1 x2 y2 x3 y3 : Int) (h12 : y2 = y1) (h13 : y3 = y1) :
    ∃ (N : Nat) (sp : Int × Int × Int),
      (∀ fuel : Nat, N ≤ fuel → FillTriangleSpans fuel x1 y1 x2 y2 x3 y3 = some [sp])
      ∧ sp.1 ≤ sp.2.1 ∧ sp.2.2 = y1 := by
  rw [h12, h13]
  have hsv : sortVertices x1 y1 x2 y1 x3 y1 = ((x1, y1), (x2, y1), (x3, y1)) := by
    unfold sortVertices
    simp only [gt_iff_lt, lt_self_iff_false, if_false]
  obtain ⟨hdy, hc, h0, he, hk⟩ := triSetup_flat x1 y1 x2 y1 x3
  obtain ⟨hS, _, hyS, _⟩ :=
    triSecondSetup_spec x2 y1 x3 y1 (triSetup x1 y1 x2 y1 x3 y1) (le_refl y1)
  rw [sub_self] at hS
  have hy := triSetup_y x1 y1 x2 y1 x3 y1
  obtain ⟨sp, hsp1, hsp2, hrun⟩ :=
    secondHalf_flat x3 y1 (triSetup x1 y1 x2 y1 x3 y1).dx2.toNat
      (triSecondSetup x2 y1 x3 y1 (triSetup x1 y1 x2 y1 x3 y1))
      (by rw [hyS, hy]) hS hk hdy hc h0 he
  obtain ⟨N, hN⟩ : ∃ N : Nat,
      N = (triSecondSetup x2 y1 x3 y1 (triSetup x1 y1 x2 y1 x3 y1)).dx1.toNat
        + (triSetup x1 y1 x2 y1 x3 y1).dx2.toNat + 1 := ⟨_, rfl⟩
  rw [← hN] at hrun
  refine ⟨N, sp, ?_, hsp1, by rw [hsp2, hyS, hy]⟩
  intro fuel hfuel
  simp only [FillTriangleSpans, hsv, if_true]
  exact hrun fuel hfuel

/-- The loop of `drawline(sx, ex, ny)` ends: once the iteration bound is at least
`ex + 1 - sx`, the loop condition is false before the bound is reached, and the
cells are those of `drawline`. -/
theorem drawlineLoop_ends (ex ny : Int) :
    ∀ (n : Nat) (i : Int), (ex + 1 - i).toNat ≤ n →
      drawlineLoop ex ny n i = drawline i ex ny := by
  intro n
  induction n with
  | zero =>
    intro i hn
    have h0 : (ex + 1 - i).toNat = 0 := by omega
    unfold drawline
    rw [h0]
  | succ n ih =>
    intro i hn
    unfold drawline
    by_cases hg : i ≤ ex
    · have hs : (ex + 1 - i).toNat = (ex + 1 - (i + 1)).toNat + 1 := by omega
      rw [hs, drawlineLoop, drawlineLoop, if_pos hg, if_pos hg, ih (i + 1) (by omega)]
      rfl
    · have h0 : (ex + 1 - i).toNat = 0 := by omega
      rw [h0, drawlineLoop, drawlineLoop, if_neg hg]

/-- Three coincident vertices: the call returns after one `drawline` call for the
single cell. -/
theorem FillTriangle_point_example :
    FillTriangle 1 2 5 2 5 2 5 = some [(2, 5)] := by
  decide

/-- Three vertices in one row, the middle one first: the call returns after one
`drawline` call for the row. -/
theorem FillTriangle_row_example :
    FillTriangle 8 1 0 (-2) 0 3 0 = some [(-2, 0), (-1, 0), (0, 0), (1, 0), (2, 0), (3, 0)] := by
  decide

/-- C21: `FillTriangle` returns for every choice of the six vertex coordinates,
with integers taken as unbounded: there is a number `N` of iterations that no loop
of the two halves exceeds, so that every iteration bound from `N` on gives one and
the same list of cells, and the loop of each `drawline` call ends after
`ex + 1 - sx` iterations.  Flat-top, flat-bottom, collinear and coincident vertices
are included, as no condition is put on the coordinates. -/
theorem FillTriangle_terminates (x1 y1 x2 y2 x3 y3 : Int) :
    (∃ (N : Nat) (pts : List (Int × Int)),
      ∀ fuel : Nat, N ≤ fuel → FillTriangle fuel x1 y1 x2 y2 x3 y3 = some pts)
    ∧ ∀ (sx ex ny : Int) (n : Nat), (ex + 1 - sx).toNat ≤ n →
        drawlineLoop ex ny n sx = drawline sx ex ny := by
  refine ⟨?_, fun sx ex ny n hn => drawlineLoop_ends ex ny n sx hn⟩
  by_cases hrows : min y1 (min y2 y3) < max y1 (max y2 y3)
  · obtain ⟨N, spans, hrun, _, _⟩ := FillTriangleSpans_rows x1 y1 x2 y2 x3 y3 hrows
    refine ⟨N, (spans.map (fun sp => drawline sp.1 sp.2.1 sp.2.2)).flatten, ?_⟩
    intro fuel hfuel
    unfold FillTriangle
    rw [hrun fuel hfuel]
    rfl
  · have h12 : y2 = y1 := by omega
    have h13 : y3 = y1 := by omega
    obtain ⟨N, sp, hrun, _, _⟩ := FillTriangleSpans_flat x1 y1 x2 y2 x3 y3 h12 h13
    refine ⟨N, ([sp].map (fun sp => drawline sp.1 sp.2.1 sp.2.2)).flatten, ?_⟩
    intro fuel hfuel
    unfold FillTriangle
    rw [hrun fuel hfuel]
    rfl

/-! ### 32-bit `int`: lines -/

theorem wrapInt_eq (v : Int) (h1 : -2147483648 ≤ v) (h2 : v < 2147483648) : wrapInt v = v := by
  unfold wrapInt
  omega

theorem wrapInt_range (v : Int) : -2147483648 ≤ wrapInt v ∧ wrapInt v < 2147483648 := by
  unfold wrapInt
  omega

theorem absInt32_eq (v : Int) (h1 : -2147483648 < v) (h2 : v < 2147483648) :
    absInt32 v = absInt v := by
  unfold absInt32 absInt
  split
  · exact wrapInt_eq _ (by omega) (by omega)
  · rfl

/-- While no intermediate value leaves the range of `int`, the loop of `DrawLineLow`
on 32-bit `int`s ends after the `m` iterations that take `x` to `x2 + 1` and passes
the cells of the loop over unbounded integers. -/
theorem DrawLineLowLoop32_eq (x2 yi dy dx : Int) (hyi : yi = 1 ∨ yi = -1)
    (hdy0 : 0 ≤ dy) (hdy : dy ≤ dx) (hdx : dx < 1073741824) (hx2 : x2 < 2147483647) :
    ∀ (m n : Nat) (x y D : Int), x + m = x2 + 1 → m ≤ n → -2147483648 ≤ x →
      -2147483648 ≤ y - m → y + m < 2147483648 →
      2 * dy - 2 * dx ≤ D → D ≤ 2 * dy →
      DrawLineLowLoop32 x2 yi dy dx n x y D
        = some (DrawLineLowLoop x2 yi dy dx m x y D) := by
  intro m
  induction m with
  | zero =>
    intro n x y D hx _ _ _ _ _ _
    have hg : ¬ x ≤ x2 := by omega
    cases n with
    | zero => rw [DrawLineLowLoop32, if_neg hg, DrawLineLowLoop]
    | succ k => rw [DrawLineLowLoop32, if_neg hg, DrawLineLowLoop]
  | succ m ih =>
    intro n x y D hx hn hx0 hy0 hy1 hD0 hD1
    obtain ⟨k, rfl⟩ : ∃ k, n = k + 1 := ⟨n - 1, by omega⟩
    have hg : x ≤ x2 := by omega
    have ex : wrapInt (x + 1) = x + 1 := wrapInt_eq _ (by omega) (by omega)
    have ey : wrapInt (y + yi) = y + yi := by
      rcases hyi with h | h <;> rw [h] <;> exact wrapInt_eq _ (by omega) (by omega)
    have e1 : wrapInt (dy - dx) = dy - dx := wrapInt_eq _ (by omega) (by omega)
    have e2 : wrapInt (2 * (dy - dx)) = 2 * (dy - dx) := wrapInt_eq _ (by omega) (by omega)
    have e3 : wrapInt (2 * dy) = 2 * dy := wrapInt_eq _ (by omega) (by omega)
    rw [DrawLineLowLoop32, if_pos hg, DrawLineLowLoop, if_pos hg, ex, e1, e2, e3]
    by_cases hD : D > 0
    · have e4 : wrapInt (D + 2 * (dy - dx)) = D + 2 * (dy - dx) :=
        wrapInt_eq _ (by omega) (by omega)
      rw [if_pos hD, if_pos hD, ey, e4,
        ih k (x + 1) (y + yi) (D + 2 * (dy - dx)) (by push_cast at hx; omega) (by omega)
          (by omega) (by rcases hyi with h | h <;> rw [h] <;> push_cast at hy0 <;> omega)
          (by rcases hyi with h | h <;> rw [h] <;> push_cast at hy1 <;> omega)
          (by omega) (by omega)]
      rfl
    · have e4 : wrapInt (D + 2 * dy) = D + 2 * dy := wrapInt_eq _ (by omega) (by omega)
      rw [if_neg hD, if_neg hD, e4,
        ih k (x + 1) y (D + 2 * dy) (by push_cast at hx; omega) (by omega)
          (by omega) (by push_cast at hy0; omega) (by push_cast at hy1; omega)
          (by omega) (by omega)]
      rfl

theorem absInt_lt_iff (v b : Int) : absInt v < b ↔ -b < v ∧ v < b := by
  unfold absInt
  split <;> omega

/-- `DrawLineLow` on 32-bit `int`s, called with `x1 <= x2`, `|y2 - y1| <= x2 - x1`
and coordinates of absolute value below `2^29`, ends and passes the cells of
`DrawLineLow` over unbounded integers. -/
theorem DrawLineLow32_eq (x1 y1 x2 y2 : Int)
    (hx1 : absInt x1 < 536870912) (hy1 : absInt y1 < 536870912)
    (hx2 : absInt x2 < 536870912) (hy2 : absInt y2 < 536870912)
    (hx : x1 ≤ x2) (hy : absInt (y2 - y1) ≤ x2 - x1) (fuel : Nat)
    (hfuel : x2 - x1 < (fuel : Int)) :
    DrawLineLow32 fuel x1 y1 x2 y2 = some (DrawLineLow x1 y1 x2 y2) := by
  rw [absInt_lt_iff] at hx1 hy1 hx2 hy2
  have hy' : -(x2 - x1) ≤ y2 - y1 ∧ y2 - y1 ≤ x2 - x1 := by
    unfold absInt at hy
    split at hy <;> omega
  have e1 : wrapInt (y2 - y1) = y2 - y1 := wrapInt_eq _ (by omega) (by omega)
  have e2 : wrapInt (x2 - x1) = x2 - x1 := wrapInt_eq _ (by omega) (by omega)
  have hm : x1 + (((x2 + 1 - x1).toNat : Nat) : Int) = x2 + 1 := by omega
  unfold DrawLineLow32 DrawLineLow
  simp only [e1, e2]
  by_cases hneg : y2 - y1 < 0
  · have e3 : wrapInt ((y2 - y1) * -1) = (y2 - y1) * -1 := wrapInt_eq _ (by omega) (by omega)
    have e4 : wrapInt (2 * ((y2 - y1) * -1)) = 2 * ((y2 - y1) * -1) :=
      wrapInt_eq _ (by omega) (by omega)
    have e5 : wrapInt (2 * ((y2 - y1) * -1) - (x2 - x1)) = 2 * ((y2 - y1) * -1) - (x2 - x1) :=
      wrapInt_eq _ (by omega) (by omega)
    simp only [if_pos hneg, e3, e4, e5]
    exact DrawLineLowLoop32_eq x2 (-1) ((y2 - y1) * -1) (x2 - x1) (Or.inr rfl) (by omega)
      (by omega) (by omega) (by omega) _ fuel x1 y1 _ hm (by omega) (by omega) (by omega)
      (by omega) (by omega) (by omega)
  · have e4 : wrapInt (2 * (y2 - y1)) = 2 * (y2 - y1) := wrapInt_eq _ (by omega) (by omega)
    have e5 : wrapInt (2 * (y2 - y1) - (x2 - x1)) = 2 * (y2 - y1) - (x2 - x1) :=
      wrapInt_eq _ (by omega) (by omega)
    simp only [if_neg hneg, e4, e5]
    exact DrawLineLowLoop32_eq x2 1 (y2 - y1) (x2 - x1) (Or.inl rfl) (by omega)
      (by omega) (by omega) (by omega) _ fuel x1 y1 _ hm (by omega) (by omega) (by omega)
      (by omega) (by omega) (by omega)

/-- The loop of `DrawLineHigh` on 32-bit `int`s is the loop of `DrawLineLow` with the
two coordinates of every cell exchanged. -/
theorem DrawLineHighLoop32_eq (y2 xi dx dy : Int) :
    ∀ (n : Nat) (y x D : Int),
      DrawLineHighLoop32 y2 xi dx dy n y x D
        = (DrawLineLowLoop32 y2 xi dx dy n y x D).map (List.map Prod.swap) := by
  intro n
  induction n with
  | zero =>
    intro y x D
    rw [DrawLineHighLoop32, DrawLineLowLoop32]
    by_cases hg : y ≤ y2
    · rw [if_pos hg]; rfl
    · rw [if_neg hg]; rfl
  | succ n ih =>
    intro y x D
    rw [DrawLineHighLoop32, DrawLineLowLoop32]
    by_cases hg : y ≤ y2
    · rw [if_pos hg, if_pos hg]
      by_cases hD : D > 0
      · rw [if_pos hD, if_pos hD, ih, Option.map_map, Option.map_map]; rfl
      · rw [if_neg hD, if_neg hD, ih, Option.map_map, Option.map_map]; rfl
    · rw [if_neg hg, if_neg hg]; rfl

theorem DrawLineHigh32_eq (fuel : Nat) (x1 y1 x2 y2 : Int) :
    DrawLineHigh32 fuel x1 y1 x2 y2
      = (DrawLineLow32 fuel y1 x1 y2 x2).map (List.map Prod.swap) := by
  simp only [DrawLineHigh32, DrawLineLow32, DrawLineHighLoop32_eq]

/-- For coordinates of absolute value below `2^29`, `DrawLine` on 32-bit `int`s ends
and passes the cells of `DrawLine` over unbounded integers, in the same order. -/
theorem DrawLine32_eq (x1 y1 x2 y2 : Int)
    (hx1 : absInt x1 < 536870912) (hy1 : absInt y1 < 536870912)
    (hx2 : absInt x2 < 536870912) (hy2 : absInt y2 < 536870912) (fuel : Nat)
    (hfuel : absInt (x2 - x1) + absInt (y2 - y1) < (fuel : Int)) :
    DrawLine32 fuel x1 y1 x2 y2 = some (DrawLine x1 y1 x2 y2) := by
  have hx1' := (absInt_lt_iff _ _).mp hx1
  have hy1' := (absInt_lt_iff _ _).mp hy1
  have hx2' := (absInt_lt_iff _ _).mp hx2
  have hy2' := (absInt_lt_iff _ _).mp hy2
  have e1 : wrapInt (y2 - y1) = y2 - y1 := wrapInt_eq _ (by omega) (by omega)
  have e2 : wrapInt (x2 - x1) = x2 - x1 := wrapInt_eq _ (by omega) (by omega)
  have e3 : absInt32 (y2 - y1) = absInt (y2 - y1) := absInt32_eq _ (by omega) (by omega)
  have e4 : absInt32 (x2 - x1) = absInt (x2 - x1) := absInt32_eq _ (by omega) (by omega)
  have hax := absInt_nonneg (x2 - x1)
  have hay := absInt_nonneg (y2 - y1)
  unfold DrawLine32 DrawLine
  simp only [e1, e2, e3, e4]
  by_cases hlow : absInt (y2 - y1) < absInt (x2 - x1)
  · rw [if_pos hlow, if_pos hlow]
    by_cases hgt : x1 > x2
    · rw [if_pos hgt, if_pos hgt]
      have hy : absInt (y1 - y2) ≤ x1 - x2 := by
        unfold absInt at hlow ⊢
        split_ifs at hlow ⊢ <;> omega
      have hf : x1 - x2 < (fuel : Int) := by
        unfold absInt at hfuel
        split_ifs at hfuel <;> omega
      exact DrawLineLow32_eq x2 y2 x1 y1 hx2 hy2 hx1 hy1 (by omega) hy fuel hf
    · rw [if_neg hgt, if_neg hgt]
      have hy : absInt (y2 - y1) ≤ x2 - x1 := by
        unfold absInt at hlow ⊢
        split_ifs at hlow ⊢ <;> omega
      have hf : x2 - x1 < (fuel : Int) := by
        unfold absInt at hfuel
        split_ifs at hfuel <;> omega
      exact DrawLineLow32_eq x1 y1 x2 y2 hx1 hy1 hx2 hy2 (by omega) hy fuel hf
  · rw [if_neg hlow, if_neg hlow]
    by_cases hgt : y1 > y2
    · rw [if_pos hgt, if_pos hgt, DrawLineHigh32_eq, DrawLineHigh_eq]
      have hy : absInt (x1 - x2) ≤ y1 - y2 := by
        unfold absInt at hlow ⊢
        split_ifs at hlow ⊢ <;> omega
      have hf : y1 - y2 < (fuel : Int) := by
        unfold absInt at hfuel
        split_ifs at hfuel <;> omega
      rw [DrawLineLow32_eq y2 x2 y1 x1 hy2 hx2 hy1 hx1 (by omega) hy fuel hf]
      rfl
    · rw [if_neg hgt, if_neg hgt, DrawLineHigh32_eq, DrawLineHigh_eq]
      have hy : absInt (x2 - x1) ≤ y2 - y1 := by
        unfold absInt at hlow ⊢
        split_ifs at hlow ⊢ <;> omega
      have hf : y2 - y1 < (fuel : Int) := by
        unfold absInt at hfuel
        split_ifs at hfuel <;> omega
      rw [DrawLineLow32_eq y1 x1 y2 x2 hy1 hx1 hy2 hx2 (by omega) hy fuel hf]
      rfl

/-- The loop of `DrawLineLow` on 32-bit `int`s, entered with `x` beyond `x2`, makes
no call. -/
theorem DrawLineLowLoop32_done (x2 yi dy dx : Int) (n : Nat) (x y D : Int) (h : x2 < x) :
    DrawLineLowLoop32 x2 yi dy dx n x y D = some [] := by
  have hg : ¬ x ≤ x2 := by omega
  cases n with
  | zero => rw [DrawLineLowLoop32, if_neg hg]
  | succ k => rw [DrawLineLowLoop32, if_neg hg]

/-- The loop of `DrawLineLow` on 32-bit `int`s with `x2 = INT_MAX`: the condition
`x <= x2` holds for every `int`, and no iteration bound is enough. -/
theorem DrawLineLowLoop32_diverges (yi dy dx : Int) :
    ∀ (n : Nat) (x y D : Int), x ≤ 2147483647 →
      DrawLineLowLoop32 2147483647 yi dy dx n x y D = none := by
  intro n
  induction n with
  | zero =>
    intro x y D hx
    rw [DrawLineLowLoop32, if_pos hx]
  | succ n ih =>
    intro x y D hx
    have hw : wrapInt (x + 1) ≤ 2147483647 := by
      have := (wrapInt_range (x + 1)).2
      omega
    rw [DrawLineLowLoop32, if_pos hx]
    by_cases hD : D > 0
    · rw [if_pos hD, ih _ _ _ hw]; rfl
    · rw [if_neg hD, ih _ _ _ hw]; rfl

/-- The loop of `DrawLineLow` on 32-bit `int`s ends whenever `x2` is below `INT_MAX`,
after the `m` iterations that take `x` to `x2 + 1`. -/
theorem DrawLineLowLoop32_ends (x2 yi dy dx : Int) (hx2 : x2 < 2147483647) :
    ∀ (m : Nat) (x y D : Int), x + m = x2 + 1 → -2147483648 ≤ x →
      ∃ pts : List (Int × Int), ∀ n : Nat, m ≤ n →
        DrawLineLowLoop32 x2 yi dy dx n x y D = some pts := by
  intro m
  induction m with
  | zero =>
    intro x y D hx _
    exact ⟨[], fun n _ => DrawLineLowLoop32_done x2 yi dy dx n x y D (by omega)⟩
  | succ m ih =>
    intro x y D hx hx0
    have hg : x ≤ x2 := by omega
    have ex : wrapInt (x + 1) = x + 1 := wrapInt_eq _ (by omega) (by omega)
    by_cases hD : D > 0
    · obtain ⟨pts, hpts⟩ := ih (x + 1) (wrapInt (y + yi))
        (wrapInt (D + wrapInt (2 * wrapInt (dy - dx)))) (by push_cast at hx; omega) (by omega)
      refine ⟨(x, y) :: pts, ?_⟩
      intro n hn
      obtain ⟨k, rfl⟩ : ∃ k, n = k + 1 := ⟨n - 1, by omega⟩
      rw [DrawLineLowLoop32, if_pos hg, if_pos hD, ex, hpts k (by omega)]
      rfl
    · obtain ⟨pts, hpts⟩ := ih (x + 1) y (wrapInt (D + wrapInt (2 * dy)))
        (by push_cast at hx; omega) (by omega)
      refine ⟨(x, y) :: pts, ?_⟩
      intro n hn
      obtain ⟨k, rfl⟩ : ∃ k, n = k + 1 := ⟨n - 1, by omega⟩
      rw [DrawLineLowLoop32, if_pos hg, if_neg hD, ex, hpts k (by omega)]
      rfl

/-- `DrawLineLow` on 32-bit `int`s returns whenever `x2` is below `INT_MAX`. -/
theorem DrawLineLow32_ends (x1 y1 x2 y2 : Int) (hx1 : -2147483648 ≤ x1)
    (hx2 : x2 < 2147483647) :
    ∃ pts : List (Int × Int), ∀ fuel : Nat, 4294967296 ≤ fuel →
      DrawLineLow32 fuel x1 y1 x2 y2 = some pts := by
  unfold DrawLineLow32
  simp only
  by_cases hg : x1 ≤ x2
  · obtain ⟨pts, hpts⟩ := DrawLineLowLoop32_ends x2
      (if wrapInt (y2 - y1) < 0 then -1 else 1)
      (if wrapInt (y2 - y1) < 0 then wrapInt (wrapInt (y2 - y1) * -1) else wrapInt (y2 - y1))
      (wrapInt (x2 - x1)) hx2 (x2 + 1 - x1).toNat x1 y1
      (wrapInt (wrapInt (2 * (if wrapInt (y2 - y1) < 0 then wrapInt (wrapInt (y2 - y1) * -1)
        else wrapInt (y2 - y1))) - wrapInt (x2 - x1))) (by omega) hx1
    exact ⟨pts, fun fuel hf => hpts fuel (by omega)⟩
  · exact ⟨[], fun fuel _ => DrawLineLowLoop32_done _ _ _ _ fuel _ _ _ (by omega)⟩

/-- `DrawLine` on 32-bit `int`s returns whenever its four coordinates are below
`INT_MAX`. -/
theorem DrawLine32_ends (x1 y1 x2 y2 : Int)
    (hx1 : -2147483648 ≤ x1 ∧ x1 < 2147483647) (hy1 : -2147483648 ≤ y1 ∧ y1 < 2147483647)
    (hx2 : -2147483648 ≤ x2 ∧ x2 < 2147483647) (hy2 : -2147483648 ≤ y2 ∧ y2 < 2147483647) :
    ∃ pts : List (Int × Int), ∀ fuel : Nat, 4294967296 ≤ fuel →
      DrawLine32 fuel x1 y1 x2 y2 = some pts := by
  unfold DrawLine32
  simp only
  split_ifs
  · exact DrawLineLow32_ends x2 y2 x1 y1 hx2.1 hx1.2
  · exact DrawLineLow32_ends x1 y1 x2 y2 hx1.1 hx2.2
  · obtain ⟨pts, hpts⟩ := DrawLineLow32_ends y2 x2 y1 x1 hy2.1 hy1.2
    exact ⟨pts.map Prod.swap, fun fuel hf => by rw [DrawLineHigh32_eq, hpts fuel hf]; rfl⟩
  · obtain ⟨pts, hpts⟩ := DrawLineLow32_ends y1 x1 y2 x2 hy1.1 hy2.2
    exact ⟨pts.map Prod.swap, fun fuel hf => by rw [DrawLineHigh32_eq, hpts fuel hf]; rfl⟩

/-- A vertical line of `2^31 + 1` cells, drawn upwards: `y2 - y1` wraps to
`INT_MIN`, whose `abs` is `INT_MIN`, so `DrawLineLow` is called with `x1 = x2` and
passes the start point alone. -/
theorem DrawLine32_vertical_up (fuel : Nat) :
    DrawLine32 (fuel + 1) 0 (-1073741824) 0 1073741824 = some [(0, -1073741824)] := by
  have h := DrawLineLowLoop32_done 0 (-1) (-2147483648) 0 fuel 1 (-1073741824) 0 (by decide)
  simp [DrawLine32, DrawLineLow32, DrawLineLowLoop32, absInt32, wrapInt, h]

/-- The same line drawn downwards passes its own start point alone. -/
theorem DrawLine32_vertical_down (fuel : Nat) :
    DrawLine32 (fuel + 1) 0 1073741824 0 (-1073741824) = some [(0, 1073741824)] := by
  have h := DrawLineLowLoop32_done 0 (-1) (-2147483648) 0 fuel 1 1073741824 0 (by decide)
  simp [DrawLine32, DrawLineLow32, DrawLineLowLoop32, absInt32, wrapInt, h]

theorem absInt32_neg (d : Int) (h0 : d ≠ -2147483648) (h1 : -2147483648 ≤ d)
    (h2 : d < 2147483648) :
    absInt32 (-d) = absInt32 d ∧ 0 ≤ absInt32 d ∧ (absInt32 d ≤ 0 → d = 0) := by
  unfold absInt32 wrapInt
  split_ifs <;> omega

/-- C2 (the claim at a failing input): the vertical line from `(0, -2^30)` to
`(0, 2^30)`.  `DrawLine` on 32-bit `int`s returns after one `PaintPixel` call, for
the start point; the end point `(0, 2^30)` is not among the cells it passes. -/
theorem DrawLine32_misses_end_point :
    (∀ fuel : Nat,
        DrawLine32 (fuel + 1) 0 (-1073741824) 0 1073741824 = some [(0, -1073741824)])
    ∧ ¬ ∃ (fuel : Nat) (pts : List (Int × Int)),
        DrawLine32 fuel 0 (-1073741824) 0 1073741824 = some pts
        ∧ ((0 : Int), (1073741824 : Int)) ∈ pts := by
  refine ⟨DrawLine32_vertical_up, ?_⟩
  rintro ⟨fuel, pts, hrun, hmem⟩
  cases fuel with
  | zero =>
    revert hrun
    simp [DrawLine32, DrawLineLow32, DrawLineLowLoop32, absInt32, wrapInt]
  | succ k =>
    rw [DrawLine32_vertical_up k] at hrun
    rw [← Option.some.inj hrun] at hmem
    revert hmem
    decide

/-- C2 (amended): for every pair of points with coordinates of absolute value below
`2^29`, `DrawLine` on 32-bit `int`s returns, and the cells it passes to `PaintPixel`
include both `(x1, y1)` and `(x2, y2)`. -/
theorem DrawLine32_endpoints (x1 y1 x2 y2 : Int)
    (hx1 : absInt x1 < 536870912) (hy1 : absInt y1 < 536870912)
    (hx2 : absInt x2 < 536870912) (hy2 : absInt y2 < 536870912) :
    ∃ pts : List (Int × Int),
      (∀ fuel : Nat, absInt (x2 - x1) + absInt (y2 - y1) < (fuel : Int) →
          DrawLine32 fuel x1 y1 x2 y2 = some pts)
      ∧ (x1, y1) ∈ pts ∧ (x2, y2) ∈ pts := by
  refine ⟨DrawLine x1 y1 x2 y2, ?_, DrawLine_endpoints x1 y1 x2 y2⟩
  intro fuel hfuel
  exact DrawLine32_eq x1 y1 x2 y2 hx1 hy1 hx2 hy2 fuel hfuel

/-- C2 (amended) for the line from `(0, 0)` to `(5, 2)`. -/
theorem DrawLine32_endpoints_witness :
    (absInt 0 < 536870912 ∧ absInt 0 < 536870912 ∧ absInt 5 < 536870912
      ∧ absInt 2 < 536870912)
    ∧ ∃ pts : List (Int × Int),
      (∀ fuel : Nat, absInt (5 - 0) + absInt (2 - 0) < (fuel : Int) →
          DrawLine32 fuel 0 0 5 2 = some pts)
      ∧ ((0 : Int), (0 : Int)) ∈ pts ∧ ((5 : Int), (2 : Int)) ∈ pts :=
  ⟨by decide, DrawLine32_endpoints 0 0 5 2 (by decide) (by decide) (by decide) (by decide)⟩

/-- C11 (the claim at a failing input): for the points `(0, -2^30)` and `(0, 2^30)`
the two calls of `DrawLine` on 32-bit `int`s return different sequences: each passes
its own start point alone. -/
theorem DrawLine32_reverse_differs :
    (∀ fuel : Nat,
        DrawLine32 (fuel + 1) 0 (-1073741824) 0 1073741824 = some [(0, -1073741824)])
    ∧ (∀ fuel : Nat,
        DrawLine32 (fuel + 1) 0 1073741824 0 (-1073741824) = some [(0, 1073741824)])
    ∧ DrawLine32 1 0 1073741824 0 (-1073741824) ≠ DrawLine32 1 0 (-1073741824) 0 1073741824 := by
  refine ⟨DrawLine32_vertical_up, DrawLine32_vertical_down, ?_⟩
  rw [DrawLine32_vertical_up 0, DrawLine32_vertical_down 0]
  decide

/-- C11 (amended): for every pair of points with `int` coordinates for which neither
`x2 - x1` nor `y2 - y1`, as computed in `int`, is `INT_MIN`, `DrawLine(x2, y2, x1, y1)`
on 32-bit `int`s makes the same `PaintPixel` calls, in the same order, as
`DrawLine(x1, y1, x2, y2)`: under every bound on the loop iterations the two calls
have the same outcome, and when the four coordinates are below `INT_MAX` both
return, with one and the same sequence. -/
theorem DrawLine32_reverse (x1 y1 x2 y2 : Int)
    (hx1 : -2147483648 ≤ x1 ∧ x1 < 2147483648) (hy1 : -2147483648 ≤ y1 ∧ y1 < 2147483648)
    (hx2 : -2147483648 ≤ x2 ∧ x2 < 2147483648) (hy2 : -2147483648 ≤ y2 ∧ y2 < 2147483648)
    (hdx : wrapInt (x2 - x1) ≠ -2147483648) (hdy : wrapInt (y2 - y1) ≠ -2147483648) :
    (∀ fuel : Nat, DrawLine32 fuel x2 y2 x1 y1 = DrawLine32 fuel x1 y1 x2 y2)
    ∧ (x1 < 2147483647 → y1 < 2147483647 → x2 < 2147483647 → y2 < 2147483647 →
        ∃ pts : List (Int × Int), ∀ fuel : Nat, 4294967296 ≤ fuel →
          DrawLine32 fuel x1 y1 x2 y2 = some pts
          ∧ DrawLine32 fuel x2 y2 x1 y1 = some pts) := by
  have hrev : ∀ fuel : Nat, DrawLine32 fuel x2 y2 x1 y1 = DrawLine32 fuel x1 y1 x2 y2 := by
    intro fuel
    have hdx' : wrapInt (x1 - x2) = -wrapInt (x2 - x1) := by
      unfold wrapInt at hdx ⊢
      omega
    have hdy' : wrapInt (y1 - y2) = -wrapInt (y2 - y1) := by
      unfold wrapInt at hdy ⊢
      omega
    obtain ⟨hax, hax0, haxz⟩ := absInt32_neg (wrapInt (x2 - x1)) hdx
      (wrapInt_range _).1 (wrapInt_range _).2
    obtain ⟨hay, hay0, hayz⟩ := absInt32_neg (wrapInt (y2 - y1)) hdy
      (wrapInt_range _).1 (wrapInt_range _).2
    unfold DrawLine32
    simp only
    rw [hdx', hdy', hax, hay]
    by_cases hlow : absInt32 (wrapInt (y2 - y1)) < absInt32 (wrapInt (x2 - x1))
    · rw [if_pos hlow, if_pos hlow]
      by_cases hgt : x1 > x2
      · rw [if_pos hgt, if_neg (by omega)]
      · rw [if_neg hgt]
        by_cases hlt : x2 > x1
        · rw [if_pos hlt]
        · exfalso
          have he : x2 - x1 = 0 := by omega
          rw [he] at hlow
          have h0 : absInt32 (wrapInt 0) = 0 := by decide
          omega
    · rw [if_neg hlow, if_neg hlow]
      by_cases hgt : y1 > y2
      · rw [if_pos hgt, if_neg (by omega)]
      · rw [if_neg hgt]
        by_cases hlt : y2 > y1
        · rw [if_pos hlt]
        · rw [if_neg hlt]
          have he : y2 - y1 = 0 := by omega
          rw [he] at hlow
          have h0 : absInt32 (wrapInt 0) = 0 := by decide
          have hz : wrapInt (x2 - x1) = 0 := haxz (by omega)
          have hxe : x2 = x1 := by
            unfold wrapInt at hz
            omega
          have hye : y2 = y1 := by omega
          rw [hxe, hye]
  refine ⟨hrev, ?_⟩
  intro h1 h2 h3 h4
  obtain ⟨pts, hpts⟩ := DrawLine32_ends x1 y1 x2 y2 ⟨hx1.1, h1⟩ ⟨hy1.1, h2⟩ ⟨hx2.1, h3⟩
    ⟨hy2.1, h4⟩
  exact ⟨pts, fun fuel hf => ⟨hpts fuel hf, by rw [hrev fuel]; exact hpts fuel hf⟩⟩

/-- C11 (amended) for the points `(0, 0)` and `(5, 2)`. -/
theorem DrawLine32_reverse_witness :
    ((-2147483648 ≤ (0 : Int) ∧ (0 : Int) < 2147483648)
      ∧ (-2147483648 ≤ (0 : Int) ∧ (0 : Int) < 2147483648)
      ∧ (-2147483648 ≤ (5 : Int) ∧ (5 : Int) < 2147483648)
      ∧ (-2147483648 ≤ (2 : Int) ∧ (2 : Int) < 2147483648)
      ∧ wrapInt (5 - 0) ≠ -2147483648 ∧ wrapInt (2 - 0) ≠ -2147483648)
    ∧ (∀ fuel : Nat, DrawLine32 fuel 5 2 0 0 = DrawLine32 fuel 0 0 5 2)
    ∧ ((0 : Int) < 2147483647 → (0 : Int) < 2147483647 → (5 : Int) < 2147483647 →
        (2 : Int) < 2147483647 →
        ∃ pts : List (Int × Int), ∀ fuel : Nat, 4294967296 ≤ fuel →
          DrawLine32 fuel 0 0 5 2 = some pts ∧ DrawLine32 fuel 5 2 0 0 = some pts) :=
  ⟨by decide, DrawLine32_reverse 0 0 5 2 (by decide) (by decide) (by decide) (by decide)
    (by decide) (by decide)⟩

/-- C12 (the claim at a failing input): the horizontal line from `(2147483645, 0)`
to `(2147483647, 0)`.  With `x2 = INT_MAX` the loop condition `x <= x2` of
`DrawLineLow` on 32-bit `int`s never fails: under no bound on the iterations does the
call return, so it does not make exactly three `PaintPixel` calls. -/
theorem DrawLine32_never_returns :
    ¬ ∃ (fuel : Nat) (pts : List (Int × Int)),
        DrawLine32 fuel 2147483645 0 2147483647 0 = some pts := by
  rintro ⟨fuel, pts, hrun⟩
  have h := DrawLineLowLoop32_diverges 1 0 2 fuel 2147483645 0 (-2) (by decide)
  revert hrun
  simp [DrawLine32, DrawLineLow32, absInt32, wrapInt, h]

/-- C12 (amended): for every pair of points with coordinates of absolute value below
`2^29`, `DrawLine` on 32-bit `int`s returns after exactly
`max(|x2-x1|, |y2-y1|) + 1` `PaintPixel` calls; consecutive cells differ by exactly
`1` along the dominant axis and by at most `1` along the other axis; and
`DrawLine(p, p)` passes exactly the single cell `p`. -/
theorem DrawLine32_path (x1 y1 x2 y2 : Int)
    (hx1 : absInt x1 < 536870912) (hy1 : absInt y1 < 536870912)
    (hx2 : absInt x2 < 536870912) (hy2 : absInt y2 < 536870912) :
    (∃ pts : List (Int × Int),
      (∀ fuel : Nat, absInt (x2 - x1) + absInt (y2 - y1) < (fuel : Int) →
          DrawLine32 fuel x1 y1 x2 y2 = some pts)
      ∧ (pts.length : Int) = max (absInt (x2 - x1)) (absInt (y2 - y1)) + 1
      ∧ (absInt (y2 - y1) < absInt (x2 - x1) →
          List.Chain' (fun p q : Int × Int => q.1 = p.1 + 1 ∧ absInt (q.2 - p.2) ≤ 1) pts)
      ∧ (¬ absInt (y2 - y1) < absInt (x2 - x1) →
          List.Chain' (fun p q : Int × Int => q.2 = p.2 + 1 ∧ absInt (q.1 - p.1) ≤ 1) pts))
    ∧ ∀ fuel : Nat, DrawLine32 (fuel + 1) x1 y1 x1 y1 = some [(x1, y1)] := by
  obtain ⟨hlen, hlow, hhigh, hpoint⟩ := DrawLine_path x1 y1 x2 y2
  refine ⟨⟨DrawLine x1 y1 x2 y2, ?_, hlen, hlow, hhigh⟩, ?_⟩
  · intro fuel hfuel
    exact DrawLine32_eq x1 y1 x2 y2 hx1 hy1 hx2 hy2 fuel hfuel
  · intro fuel
    rw [← hpoint]
    refine DrawLine32_eq x1 y1 x1 y1 hx1 hy1 hx1 hy1 (fuel + 1) ?_
    rw [sub_self, sub_self]
    have : absInt 0 = 0 := rfl
    rw [this]
    push_cast
    omega

/-- C12 (amended) for the points `(2, 2)` and `(2, 2)`: exactly the single cell
`(2, 2)`. -/
theorem DrawLine32_path_witness :
    (absInt 2 < 536870912 ∧ absInt 2 < 536870912 ∧ absInt 2 < 536870912
      ∧ absInt 2 < 536870912)
    ∧ ∀ fuel : Nat, DrawLine32 (fuel + 1) 2 2 2 2 = some [(2, 2)] :=
  ⟨by decide,
    (DrawLine32_path 2 2 2 2 (by decide) (by decide) (by decide) (by decide)).2⟩

/-- The first eight iterations of the loop of `DrawLineLow` on 32-bit `int`s for the
line from `(0, 0)` to `(1200000000, 1100000000)`: `2 * dy` wraps to `-2094967296`,
and the cells `(6, 5)` and `(7, 5)` follow `(5, 5)`. -/
theorem DrawLineLowLoop32_wrapped_steps (k : Nat) :
    DrawLineLowLoop32 1200000000 1 1100000000 1200000000 (k + 1 + 1 + 1 + 1 + 1 + 1 + 1 + 1)
        0 0 1000000000
      = (DrawLineLowLoop32 1200000000 1 1100000000 1200000000 k 8 6 (-94967296)).map
          (fun rest => (0, 0) :: (1, 1) :: (2, 2) :: (3, 3) :: (4, 4) :: (5, 5) :: (6, 5)
            :: (7, 5) :: rest) := by
  simp [DrawLineLowLoop32, wrapInt, Option.map_map, Function.comp_def]

/-- C19 (the claim at a failing input): the line from `(0, 0)` to
`(1200000000, 1100000000)`.  `DrawLine` on 32-bit `int`s returns, and the cell
`(7, 5)` is among those it passes, for which
`2 * |dx * y - dy * x| = 3400000000` exceeds `max(|dx|, |dy|) = 1200000000`. -/
theorem DrawLine32_far_from_ideal :
    ∃ pts : List (Int × Int),
      (∀ fuel : Nat, 1200000001 ≤ fuel →
          DrawLine32 fuel 0 0 1200000000 1100000000 = some pts)
      ∧ ((7 : Int), (5 : Int)) ∈ pts
      ∧ ¬ (2 * absInt ((1200000000 - 0) * (5 - 0) - (1100000000 - 0) * (7 - 0))
            ≤ max (absInt (1200000000 - 0)) (absInt (1100000000 - 0))) := by
  obtain ⟨tail, htail⟩ := DrawLineLowLoop32_ends 1200000000 1 1100000000 1200000000
    (by decide) 1199999993 8 6 (-94967296) (by decide) (by decide)
  refine ⟨(0, 0) :: (1, 1) :: (2, 2) :: (3, 3) :: (4, 4) :: (5, 5) :: (6, 5) :: (7, 5) :: tail,
    ?_, by simp, by decide⟩
  intro fuel hfuel
  obtain ⟨k, rfl⟩ : ∃ k, fuel = k + 1 + 1 + 1 + 1 + 1 + 1 + 1 + 1 := ⟨fuel - 8, by omega⟩
  have hrun : DrawLine32 (k + 1 + 1 + 1 + 1 + 1 + 1 + 1 + 1) 0 0 1200000000 1100000000
      = DrawLineLowLoop32 1200000000 1 1100000000 1200000000
          (k + 1 + 1 + 1 + 1 + 1 + 1 + 1 + 1) 0 0 1000000000 := by
    simp [DrawLine32, DrawLineLow32, absInt32, wrapInt]
  rw [hrun, DrawLineLowLoop32_wrapped_steps, htail k (by omega)]
  rfl

/-- C19 (amended): for every pair of points with coordinates of absolute value below
`2^29`, `DrawLine` on 32-bit `int`s returns, and every cell `(x, y)` it passes
satisfies `2 * |dx * (y - y1) - dy * (x - x1)| <= max(|dx|, |dy|)`, with
`dx = x2 - x1` and `dy = y2 - y1` in exact integer arithmetic. -/
theorem DrawLine32_near_ideal (x1 y1 x2 y2 : Int)
    (hx1 : absInt x1 < 536870912) (hy1 : absInt y1 < 536870912)
    (hx2 : absInt x2 < 536870912) (hy2 : absInt y2 < 536870912) :
    ∃ pts : List (Int × Int),
      (∀ fuel : Nat, absInt (x2 - x1) + absInt (y2 - y1) < (fuel : Int) →
          DrawLine32 fuel x1 y1 x2 y2 = some pts)
      ∧ ∀ p ∈ pts,
          2 * absInt ((x2 - x1) * (p.2 - y1) - (y2 - y1) * (p.1 - x1))
            ≤ max (absInt (x2 - x1)) (absInt (y2 - y1)) := by
  refine ⟨DrawLine x1 y1 x2 y2, ?_, DrawLine_near_ideal x1 y1 x2 y2⟩
  intro fuel hfuel
  exact DrawLine32_eq x1 y1 x2 y2 hx1 hy1 hx2 hy2 fuel hfuel

/-- C19 (amended) for the line from `(0, 0)` to `(5, 2)`. -/
theorem DrawLine32_near_ideal_witness :
    (absInt 0 < 536870912 ∧ absInt 0 < 536870912 ∧ absInt 5 < 536870912
      ∧ absInt 2 < 536870912)
    ∧ ∃ pts : List (Int × Int),
      (∀ fuel : Nat, absInt (5 - 0) + absInt (2 - 0) < (fuel : Int) →
          DrawLine32 fuel 0 0 5 2 = some pts)
      ∧ ∀ p ∈ pts,
          2 * absInt ((5 - 0) * (p.2 - 0) - (2 - 0) * (p.1 - 0))
            ≤ max (absInt (5 - 0)) (absInt (2 - 0)) :=
  ⟨by decide, DrawLine32_near_ideal 0 0 5 2 (by decide) (by decide) (by decide) (by decide)⟩

/-! ### 32-bit `int`: Fill -/

/-- With `y2` below `INT_MAX`, the inner loop of `Fill` on 32-bit `int`s ends after
the `m` iterations that take `y1` to `y2 + 1`, with the result of the loop over
unbounded integers. -/
theorem FillInner32_eq (x1 y2 inputChar color : Int) (hy2 : y2 < 2147483647) :
    ∀ (m n : Nat) (y1 : Int) (s : ConsoleGraphicsEngine), y1 + m = y2 + 1 → m ≤ n →
      -2147483648 ≤ y1 →
      FillInner32 x1 y2 inputChar color n y1 s = some (FillInner x1 y2 inputChar color m y1 s) := by
  intro m
  induction m with
  | zero =>
    intro n y1 s hy _ _
    have hg : ¬ y1 ≤ y2 := by omega
    cases n with
    | zero => rw [FillInner32, if_neg hg, FillInner]
    | succ k => rw [FillInner32, if_neg hg, FillInner]
  | succ m ih =>
    intro n y1 s hy hn hy0
    obtain ⟨k, rfl⟩ : ∃ k, n = k + 1 := ⟨n - 1, by omega⟩
    have hg : y1 ≤ y2 := by omega
    have ey : wrapInt (y1 + 1) = y1 + 1 := wrapInt_eq _ (by omega) (by omega)
    rw [FillInner32, if_pos hg, FillInner, if_pos hg, ey,
      ih k (y1 + 1) _ (by push_cast at hy; omega) (by omega) (by omega)]

/-- With `x2` and `y2` below `INT_MAX`, the outer loop of `Fill` on 32-bit `int`s
ends with the result of the loop over unbounded integers. -/
theorem FillOuter32_eq (fuel : Nat) (ystart x2 y2 inputChar color : Int)
    (hx2 : x2 < 2147483647) (hy2 : y2 < 2147483647) (hys : -2147483648 ≤ ystart)
    (hy : ystart ≤ y2) (hfuel : y2 - ystart < (fuel : Int)) :
    ∀ (m n : Nat) (x1 : Int) (s : ConsoleGraphicsEngine), x1 + m = x2 + 1 → m ≤ n →
      -2147483648 ≤ x1 →
      FillOuter32 fuel ystart x2 y2 inputChar color n x1 s
        = some (FillOuter ystart x2 y2 inputChar color m x1 s) := by
  intro m
  induction m with
  | zero =>
    intro n x1 s hx _ _
    have hg : ¬ x1 ≤ x2 := by omega
    cases n with
    | zero => rw [FillOuter32, if_neg hg, FillOuter]
    | succ k => rw [FillOuter32, if_neg hg, FillOuter]
  | succ m ih =>
    intro n x1 s hx hn hx0
    obtain ⟨k, rfl⟩ : ∃ k, n = k + 1 := ⟨n - 1, by omega⟩
    have hg : x1 ≤ x2 := by omega
    have ex : wrapInt (x1 + 1) = x1 + 1 := wrapInt_eq _ (by omega) (by omega)
    have hin := FillInner32_eq x1 y2 inputChar color hy2 (y2 + 1 - ystart).toNat fuel ystart s
      (by omega) (by omega) hys
    rw [FillOuter32, if_pos hg, hin, FillOuter, if_pos hg]
    dsimp only
    rw [ex, ih k (x1 + 1) _ (by push_cast at hx; omega) (by omega) (by omega)]

/-- The outer loop of `Fill` on 32-bit `int`s with `x2 = INT_MAX`: the condition
`x1 <= x2` holds for every `int`, and no iteration bound is enough. -/
theorem FillOuter32_diverges (fuel : Nat) (ystart y2 inputChar color : Int) :
    ∀ (n : Nat) (x1 : Int) (s : ConsoleGraphicsEngine), x1 ≤ 2147483647 →
      FillOuter32 fuel ystart 2147483647 y2 inputChar color n x1 s = none := by
  intro n
  induction n with
  | zero =>
    intro x1 s hx
    rw [FillOuter32, if_pos hx]
  | succ n ih =>
    intro x1 s hx
    have hw : wrapInt (x1 + 1) ≤ 2147483647 := by
      have := (wrapInt_range (x1 + 1)).2
      omega
    rw [FillOuter32, if_pos hx]
    cases FillInner32 x1 y2 inputChar color fuel ystart s with
    | none => rfl
    | some s1 => exact ih _ s1 hw

/-- C9 (the claim at a failing input): `Fill(0, 0, 2147483647, 0)` on a 2 x 2
console.  With `x2 = INT_MAX` the condition `x1 <= x2` of the outer loop never fails
on 32-bit `int`s: under no bound on the iterations does the call return. -/
theorem Fill32_never_returns :
    ¬ ∃ (fuel : Nat) (s1 : ConsoleGraphicsEngine),
        Fill32 fuel (ConstructConsole mk0 2 2) 0 0 2147483647 0 0x2588 0x000F = some s1 := by
  rintro ⟨fuel, s1, hrun⟩
  unfold Fill32 at hrun
  rw [FillOuter32_diverges fuel 0 0 0x2588 0x000F fuel 0 _ (by decide)] at hrun
  exact Option.noConfusion hrun

/-- C9 (amended): for `int`s `x1 <= x2` and `y1 <= y2` with `x2` and `y2` below
`INT_MAX`, `Fill(x1, y1, x2, y2, char, colour)` on 32-bit `int`s returns; after it
every cell `(x, y)` of the grid with `x1 <= x <= x2` and `y1 <= y <= y2` holds
`(char, colour)`, and every other cell of the grid, and every offset of `screen`
that is not such a cell, is unchanged. -/
theorem Fill32_spec (s : ConsoleGraphicsEngine) (x1 y1 x2 y2 inputChar color : Int)
    (hx : x1 ≤ x2) (hy : y1 ≤ y2) (hx1 : -2147483648 ≤ x1) (hy1 : -2147483648 ≤ y1)
    (hx2 : x2 < 2147483647) (hy2 : y2 < 2147483647) :
    ∃ s1 : ConsoleGraphicsEngine,
      (∀ fuel : Nat, x2 - x1 < (fuel : Int) → y2 - y1 < (fuel : Int) →
          Fill32 fuel s x1 y1 x2 y2 inputChar color = some s1)
      ∧ (∀ x y : Int, 0 ≤ x → x < s.screenWidth → 0 ≤ y → y < s.screenHeight →
          x1 ≤ x → x ≤ x2 → y1 ≤ y → y ≤ y2 →
          cellAt s1 x y = ⟨toWord inputChar, toWord color⟩)
      ∧ (∀ x y : Int, 0 ≤ x → x < s.screenWidth → 0 ≤ y → y < s.screenHeight →
          ¬ (x1 ≤ x ∧ x ≤ x2 ∧ y1 ≤ y ∧ y ≤ y2) →
          cellAt s1 x y = cellAt s x y)
      ∧ (∀ j : Int,
          (∀ x y : Int, 0 ≤ x → x < s.screenWidth → 0 ≤ y → y < s.screenHeight →
            x1 ≤ x → x ≤ x2 → y1 ≤ y → y ≤ y2 → j ≠ y * s.screenWidth + x) →
          s1.screen j = s.screen j) := by
  refine ⟨Fill s x1 y1 x2 y2 inputChar color, ?_, Fill_spec s x1 y1 x2 y2 inputChar color hx hy⟩
  intro fuel hfx hfy
  unfold Fill32 Fill
  exact FillOuter32_eq fuel y1 x2 y2 inputChar color hx2 hy2 hy1 hy hfy (x2 + 1 - x1).toNat
    fuel x1 s (by omega) (by omega) hx1

/-- C9 (amended) for `Fill(1, 1, 8, 2, 'A', 0x000F)` on a 6 x 4 console. -/
theorem Fill32_spec_witness :
    ((1 : Int) ≤ 8 ∧ (1 : Int) ≤ 2 ∧ -2147483648 ≤ (1 : Int) ∧ -2147483648 ≤ (1 : Int)
      ∧ (8 : Int) < 2147483647 ∧ (2 : Int) < 2147483647)
    ∧ ∃ s1 : ConsoleGraphicsEngine,
      (∀ fuel : Nat, 8 - 1 < (fuel : Int) → 2 - 1 < (fuel : Int) →
          Fill32 fuel (ConstructConsole mk0 6 4) 1 1 8 2 65 0x000F = some s1)
      ∧ (∀ x y : Int, 0 ≤ x → x < (ConstructConsole mk0 6 4).screenWidth →
          0 ≤ y → y < (ConstructConsole mk0 6 4).screenHeight →
          1 ≤ x → x ≤ 8 → 1 ≤ y → y ≤ 2 →
          cellAt s1 x y = ⟨toWord 65, toWord 0x000F⟩)
      ∧ (∀ x y : Int, 0 ≤ x → x < (ConstructConsole mk0 6 4).screenWidth →
          0 ≤ y → y < (ConstructConsole mk0 6 4).screenHeight →
          ¬ (1 ≤ x ∧ x ≤ 8 ∧ 1 ≤ y ∧ y ≤ 2) →
          cellAt s1 x y = cellAt (ConstructConsole mk0 6 4) x y)
      ∧ (∀ j : Int,
          (∀ x y : Int, 0 ≤ x → x < (ConstructConsole mk0 6 4).screenWidth →
            0 ≤ y → y < (ConstructConsole mk0 6 4).screenHeight →
            1 ≤ x → x ≤ 8 → 1 ≤ y → y ≤ 2 →
            j ≠ y * (ConstructConsole mk0 6 4).screenWidth + x) →
          s1.screen j = (ConstructConsole mk0 6 4).screen j) :=
  ⟨by decide,
    Fill32_spec (ConstructConsole mk0 6 4) 1 1 8 2 65 0x000F (by decide) (by decide)
      (by decide) (by decide) (by decide) (by decide)⟩

/-! ### 32-bit `int`: FillTriangle -/

/-- With `ex` below `INT_MAX`, the loop of `drawline` on 32-bit `int`s ends after the
`m` iterations that take `i` to `ex + 1`, with the cells of the loop over unbounded
integers. -/
theorem drawlineLoop32_eq (ex ny : Int) (hex : ex < 2147483647) :
    ∀ (m n : Nat) (i : Int), i + m = ex + 1 → m ≤ n → -2147483648 ≤ i →
      drawlineLoop32 ex ny n i = some (drawlineLoop ex ny m i) := by
  intro m
  induction m with
  | zero =>
    intro n i hi _ _
    have hg : ¬ i ≤ ex := by omega
    cases n with
    | zero => rw [drawlineLoop32, if_neg hg, drawlineLoop]
    | succ k => rw [drawlineLoop32, if_neg hg, drawlineLoop]
  | succ m ih =>
    intro n i hi hn hi0
    obtain ⟨k, rfl⟩ : ∃ k, n = k + 1 := ⟨n - 1, by omega⟩
    have hg : i ≤ ex := by omega
    have e : wrapInt (i + 1) = i + 1 := wrapInt_eq _ (by omega) (by omega)
    rw [drawlineLoop32, if_pos hg, drawlineLoop, if_pos hg, e,
      ih k (i + 1) (by push_cast at hi; omega) (by omega) (by omega)]
    rfl

theorem drawline32_eq (fuel : Nat) (sx ex ny : Int) (h : sx ≤ ex) (hsx : -2147483648 ≤ sx)
    (hex : ex < 2147483647) (hfuel : ex - sx < (fuel : Int)) :
    drawline32 fuel sx ex ny = some (drawline sx ex ny) := by
  unfold drawline32 drawline
  exact drawlineLoop32_eq ex ny hex (ex + 1 - sx).toNat fuel sx (by omega) (by omega) hsx

/-- A bound on the distance an edge has moved in `x`, from the relation between
that distance, the error term and the rows done. -/
theorem edge_bound (t X e R dx dy : Int) (hdy : 0 < dy) (hdx : 0 ≤ dx) (he : e ≤ dx)
    (hR : R ≤ dy + 1) (hJ : (t - X) * dy ≤ e + R * dx) : t - X ≤ 3 * dx := by
  by_contra hcon
  have h1 : 0 ≤ (t - X - 3 * dx - 1) * (dy - 1) := mul_nonneg (by omega) (by omega)
  have h2 : 0 ≤ (dy + 1 - R) * dx := mul_nonneg (by omega) hdx
  have h3 : 0 ≤ (dy - 1) * dx := mul_nonneg (by omega) hdx
  nlinarith

/-- The inner loop on `e2` on 32-bit `int`s agrees with the loop over unbounded
integers, and what the loop leaves. -/
theorem sub2_32_sim :
    ∀ (n : Nat) (v : TriLocals), 0 ≤ v.dx2 → 0 ≤ v.e2 → v.e2 < 2147483648 →
      sub2_32 n v = sub2 n v
      ∧ ∀ (w : TriLocals) (b : Bool), sub2 n v = some (w, b) →
          ∃ e t : Int, w = { v with e2 := e, t2xp := t } ∧ 0 ≤ e ∧ e ≤ v.e2
            ∧ (b = false → e < v.dx2)
            ∧ (v.changed2 = false → t = v.t2xp
                ∧ (b = true → e = v.e2 - v.dx2 ∧ v.dx2 ≤ v.e2) ∧ (b = false → e = v.e2))
            ∧ (v.changed2 = true → b = false ∧ (t = v.t2xp ∨ t = v.signx2)) := by
  intro n
  induction n with
  | zero =>
    intro v hdx he0 he1
    refine ⟨rfl, ?_⟩
    intro w b hrun
    rw [sub2] at hrun
    by_cases hge : v.e2 ≥ v.dx2
    · rw [if_pos hge] at hrun
      exact Option.noConfusion hrun
    · rw [if_neg hge] at hrun
      obtain ⟨rfl, rfl⟩ := Prod.mk.inj (Option.some.inj hrun)
      exact ⟨v.e2, v.t2xp, rfl, he0, le_refl _, fun _ => by omega,
        fun _ => ⟨rfl, fun h => Bool.noConfusion h, fun _ => rfl⟩,
        fun _ => ⟨rfl, Or.inl rfl⟩⟩
  | succ n ih =>
    intro v hdx he0 he1
    by_cases hge : v.e2 ≥ v.dx2
    · have ew : wrapInt (v.e2 - v.dx2) = v.e2 - v.dx2 := wrapInt_eq _ (by omega) (by omega)
      by_cases hc : v.changed2 = true
      · obtain ⟨hsim, hpost⟩ := ih { v with e2 := v.e2 - v.dx2, t2xp := v.signx2 } hdx
          (by dsimp only; omega) (by dsimp only; omega)
        refine ⟨?_, ?_⟩
        · rw [sub2_32, sub2, if_pos hge, if_pos hge]
          dsimp only
          rw [if_pos hc, if_pos hc, ew]
          exact hsim
        · intro w b hrun
          rw [sub2, if_pos hge] at hrun
          dsimp only at hrun
          rw [if_pos hc] at hrun
          obtain ⟨e, t, hw, h0, h1, h2, _, h4⟩ := hpost w b hrun
          dsimp only at hw h1 h2 h4
          refine ⟨e, t, hw, h0, by omega, h2, fun hcf => ?_, fun _ => ?_⟩
          · rw [hc] at hcf
            exact Bool.noConfusion hcf
          · obtain ⟨hb, ht⟩ := h4 hc
            exact ⟨hb, Or.inr (by rcases ht with h | h <;> exact h)⟩
      · have hcf : v.changed2 = false := by simpa using hc
        refine ⟨?_, ?_⟩
        · rw [sub2_32, sub2, if_pos hge, if_pos hge]
          dsimp only
          rw [if_neg hc, if_neg hc, ew]
        · intro w b hrun
          rw [sub2, if_pos hge] at hrun
          dsimp only at hrun
          rw [if_neg hc] at hrun
          obtain ⟨rfl, rfl⟩ := Prod.mk.inj (Option.some.inj hrun)
          exact ⟨v.e2 - v.dx2, v.t2xp, rfl, by omega, by omega,
            fun h => Bool.noConfusion h,
            fun _ => ⟨rfl, fun _ => ⟨rfl, hge⟩, fun h => Bool.noConfusion h⟩,
            fun h => absurd h hc⟩
    · refine ⟨?_, ?_⟩
      · rw [sub2_32, sub2, if_neg hge, if_neg hge]
      · intro w b hrun
        rw [sub2, if_neg hge] at hrun
        obtain ⟨rfl, rfl⟩ := Prod.mk.inj (Option.some.inj hrun)
        exact ⟨v.e2, v.t2xp, rfl, he0, le_refl _, fun _ => by omega,
          fun _ => ⟨rfl, fun h => Bool.noConfusion h, fun _ => rfl⟩,
          fun _ => ⟨rfl, Or.inl rfl⟩⟩

/-- The inner loop on `e1` of the first half on 32-bit `int`s agrees with the loop
over unbounded integers, and what the loop leaves. -/
theorem firstSub1_32_sim :
    ∀ (n : Nat) (v : TriLocals), 0 ≤ v.dx1 → 0 ≤ v.e1 → v.e1 < 2147483648 →
      firstSub1_32 n v = firstSub1 n v
      ∧ ∀ (w : TriLocals) (b : Bool), firstSub1 n v = some (w, b) →
          ∃ e t : Int, w = { v with e1 := e, t1xp := t } ∧ 0 ≤ e ∧ e ≤ v.e1
            ∧ (b = false → e < v.dx1)
            ∧ (b = true → v.changed1 = false ∧ e = v.e1 - v.dx1)
            ∧ (t = v.t1xp ∨ (v.changed1 = true ∧ t = v.signx1)) := by
  intro n
  induction n with
  | zero =>
    intro v hdx he0 he1
    refine ⟨rfl, ?_⟩
    intro w b hrun
    rw [firstSub1] at hrun
    by_cases hge : v.e1 ≥ v.dx1
    · rw [if_pos hge] at hrun
      exact Option.noConfusion hrun
    · rw [if_neg hge] at hrun
      obtain ⟨rfl, rfl⟩ := Prod.mk.inj (Option.some.inj hrun)
      exact ⟨v.e1, v.t1xp, rfl, he0, le_refl _, fun _ => by omega,
        fun h => Bool.noConfusion h, Or.inl rfl⟩
  | succ n ih =>
    intro v hdx he0 he1
    by_cases hge : v.e1 ≥ v.dx1
    · have ew : wrapInt (v.e1 - v.dx1) = v.e1 - v.dx1 := wrapInt_eq _ (by omega) (by omega)
      by_cases hc : v.changed1 = true
      · obtain ⟨hsim, hpost⟩ := ih { v with e1 := v.e1 - v.dx1, t1xp := v.signx1 } hdx
          (by dsimp only; omega) (by dsimp only; omega)
        refine ⟨?_, ?_⟩
        · rw [firstSub1_32, firstSub1, if_pos hge, if_pos hge]
          dsimp only
          rw [if_pos hc, if_pos hc, ew]
          exact hsim
        · intro w b hrun
          rw [firstSub1, if_pos hge] at hrun
          dsimp only at hrun
          rw [if_pos hc] at hrun
          obtain ⟨e, t, hw, h0, h1, h2, h3, h4⟩ := hpost w b hrun
          dsimp only at hw h1 h2 h3 h4
          refine ⟨e, t, hw, h0, by omega, h2, fun hb => ?_, Or.inr ⟨hc, ?_⟩⟩
          · have := (h3 hb).1
            rw [hc] at this
            exact Bool.noConfusion this
          · rcases h4 with h | h
            · exact h
            · exact h.2
      · refine ⟨?_, ?_⟩
        · rw [firstSub1_32, firstSub1, if_pos hge, if_pos hge]
          dsimp only
          rw [if_neg hc, if_neg hc, ew]
        · intro w b hrun
          rw [firstSub1, if_pos hge] at hrun
          dsimp only at hrun
          rw [if_neg hc] at hrun
          obtain ⟨rfl, rfl⟩ := Prod.mk.inj (Option.some.inj hrun)
          exact ⟨v.e1 - v.dx1, v.t1xp, rfl, by omega, by omega,
            fun h => Bool.noConfusion h, fun _ => ⟨by simpa using hc, rfl⟩, Or.inl rfl⟩
    · refine ⟨?_, ?_⟩
      · rw [firstSub1_32, firstSub1, if_neg hge, if_neg hge]
      · intro w b hrun
        rw [firstSub1, if_neg hge] at hrun
        obtain ⟨rfl, rfl⟩ := Prod.mk.inj (Option.some.inj hrun)
        exact ⟨v.e1, v.t1xp, rfl, he0, le_refl _, fun _ => by omega,
          fun h => Bool.noConfusion h, Or.inl rfl⟩

/-- The walk along the first edge in the first half on 32-bit `int`s agrees with the
walk over unbounded integers and keeps clear of overflow. -/
theorem firstEdge1_32_sim (X Y : Int) :
    ∀ (n : Nat) (v : TriLocals), Edge1Ok X Y v → v.i ≤ v.dx1 →
      (v.t1xp = 0 ∨ (v.changed1 = true ∧ v.t1xp = v.signx1)) →
      firstEdge1_32 n v = firstEdge1 n v
      ∧ ∀ w : TriLocals, firstEdge1 n v = some w →
          (∃ i e t tp : Int, w = { v with i := i, e1 := e, t1x := t, t1xp := tp })
          ∧ Edge1Ok X Y w ∧ w.i ≤ w.dx1
          ∧ (w.t1xp = 0 ∨ (w.changed1 = true ∧ w.t1xp = w.signx1)) := by
  intro n
  induction n with
  | zero =>
    intro v hE hi htp
    refine ⟨rfl, ?_⟩
    intro w hrun
    rw [firstEdge1] at hrun
    by_cases hlt : v.i < v.dx1
    · rw [if_pos hlt] at hrun
      exact Option.noConfusion hrun
    · rw [if_neg hlt] at hrun
      obtain rfl := Option.some.inj hrun
      exact ⟨⟨_, _, _, _, rfl⟩, hE, hi, htp⟩
  | succ n ih =>
    intro v hE hi htp
    obtain ⟨hs, hdy0, hdy, hdx, he0, he1, hi0, hi1, hX0, hX1, hY0, hY1, hy1, ht0, ht1⟩ := hE
    by_cases hlt : v.i < v.dx1
    · have ewi : wrapInt (v.i + 1) = v.i + 1 := wrapInt_eq _ (by omega) (by omega)
      have ewe : wrapInt (v.e1 + v.dy1) = v.e1 + v.dy1 := wrapInt_eq _ (by omega) (by omega)
      obtain ⟨hsim1, hpost1⟩ := firstSub1_32_sim (n + 1)
        { v with i := v.i + 1, e1 := v.e1 + v.dy1 } (by dsimp only; omega)
        (by dsimp only; omega) (by dsimp only; omega)
      cases hrun1 : firstSub1 (n + 1) { v with i := v.i + 1, e1 := v.e1 + v.dy1 } with
      | none =>
        refine ⟨?_, ?_⟩
        · rw [firstEdge1_32, firstEdge1, if_pos hlt, if_pos hlt]
          dsimp only
          rw [ewi, ewe, hsim1, hrun1]
        · intro w hrun
          rw [firstEdge1, if_pos hlt] at hrun
          dsimp only at hrun
          rw [hrun1] at hrun
          exact Option.noConfusion hrun
      | some r =>
        obtain ⟨w1, b⟩ := r
        obtain ⟨e, t, hw1, h0, h1, h2, h3, h4⟩ := hpost1 w1 b hrun1
        dsimp only at hw1 h1 h2 h3 h4
        have htp1 : t = 0 ∨ (v.changed1 = true ∧ t = v.signx1) := by
          rcases h4 with h | h
          · rw [h]; exact htp
          · exact Or.inr h
        cases b with
        | true =>
          have he : e = v.e1 + v.dy1 - v.dx1 := (h3 rfl).2
          refine ⟨?_, ?_⟩
          · rw [firstEdge1_32, firstEdge1, if_pos hlt, if_pos hlt]
            dsimp only
            rw [ewi, ewe, hsim1, hrun1]
          · intro w hrun
            rw [firstEdge1, if_pos hlt] at hrun
            dsimp only at hrun
            rw [hrun1] at hrun
            obtain rfl := Option.some.inj hrun
            rw [hw1]
            exact ⟨⟨_, _, _, _, rfl⟩,
              ⟨hs, hdy0, hdy, hdx, h0, by dsimp only; omega, by dsimp only; omega,
                by dsimp only; omega, hX0, hX1, hY0, hY1, hy1, by dsimp only; omega,
                by dsimp only; omega⟩,
              by dsimp only; omega, htp1⟩
        | false =>
          have hlt1 : e < v.dx1 := h2 rfl
          by_cases hc : v.changed1 = true
          · have hc1 : w1.changed1 = true := by rw [hw1]; exact hc
            refine ⟨?_, ?_⟩
            · rw [firstEdge1_32, firstEdge1, if_pos hlt, if_pos hlt]
              dsimp only
              rw [ewi, ewe, hsim1, hrun1]
              dsimp only
              rw [if_pos hc1, if_pos hc1]
            · intro w hrun
              rw [firstEdge1, if_pos hlt] at hrun
              dsimp only at hrun
              rw [hrun1] at hrun
              dsimp only at hrun
              rw [if_pos hc1] at hrun
              obtain rfl := Option.some.inj hrun
              rw [hw1]
              exact ⟨⟨_, _, _, _, rfl⟩,
                ⟨hs, hdy0, hdy, hdx, h0, by dsimp only; omega, by dsimp only; omega,
                  by dsimp only; omega, hX0, hX1, hY0, hY1, hy1, by dsimp only; omega,
                  by dsimp only; omega⟩,
                by dsimp only; omega, htp1⟩
          · have hc1 : ¬ w1.changed1 = true := by rw [hw1]; exact hc
            have ht1x : w1.t1x = v.t1x := by rw [hw1]
            have hsg : w1.signx1 = v.signx1 := by rw [hw1]
            have ewt : wrapInt (w1.t1x + w1.signx1) = w1.t1x + w1.signx1 := by
              rw [ht1x, hsg]
              rcases hs with h | h <;> rw [h] <;> exact wrapInt_eq _ (by omega) (by omega)
            have hE2 : Edge1Ok X Y { w1 with t1x := w1.t1x + w1.signx1 } := by
              rw [hw1]
              refine ⟨hs, hdy0, hdy, hdx, h0, by dsimp only; omega, by dsimp only; omega,
                by dsimp only; omega, hX0, hX1, hY0, hY1, hy1, ?_, ?_⟩
              · dsimp only
                rcases hs with h | h <;> rw [h] <;> omega
              · dsimp only
                rcases hs with h | h <;> rw [h] <;> omega
            obtain ⟨hsim2, hpost2⟩ := ih { w1 with t1x := w1.t1x + w1.signx1 } hE2
              (by rw [hw1]; dsimp only; omega)
              (by rw [hw1]; exact htp1)
            refine ⟨?_, ?_⟩
            · rw [firstEdge1_32, firstEdge1, if_pos hlt, if_pos hlt]
              dsimp only
              rw [ewi, ewe, hsim1, hrun1]
              dsimp only
              rw [if_neg hc1, if_neg hc1, ewt]
              exact hsim2
            · intro w hrun
              rw [firstEdge1, if_pos hlt] at hrun
              dsimp only at hrun
              rw [hrun1] at hrun
              dsimp only at hrun
              rw [if_neg hc1] at hrun
              obtain ⟨⟨i', e', t', tp', hw⟩, hEw, hiw, htw⟩ := hpost2 w hrun
              refine ⟨⟨i', e', t', tp', ?_⟩, hEw, hiw, htw⟩
              rw [hw, hw1]
    · refine ⟨?_, ?_⟩
      · rw [firstEdge1_32, firstEdge1, if_neg hlt, if_neg hlt]
      · intro w hrun
        rw [firstEdge1, if_neg hlt] at hrun
        obtain rfl := Option.some.inj hrun
        exact ⟨⟨_, _, _, _, rfl⟩,
          ⟨hs, hdy0, hdy, hdx, he0, he1, hi0, hi1, hX0, hX1, hY0, hY1, hy1, ht0, ht1⟩, hi, htp⟩

/-- From the invariant of the second edge: `t2x` is within `7 * 2^28` of zero, so
that one more step in `x` does not overflow. -/
theorem Edge2Ok_range (X Y y3 k : Int) (v : TriLocals) (hk : k = 0 ∨ k = 1)
    (h : Edge2Ok X Y y3 k v) : -1879048192 ≤ v.t2x ∧ v.t2x ≤ 1879048192 := by
  obtain ⟨hs, hdy0, hdy, hdx, he0, he1, hX0, hX1, hY0, hY1, hy3, hy3b, hsteep, hshallow⟩ := h
  by_cases hc : v.changed2 = true
  · obtain ⟨h1, h2⟩ := hsteep hc
    omega
  · have hcf : v.changed2 = false := by simpa using hc
    obtain ⟨hpos, hdyeq, hJ1, hJ2⟩ := hshallow hcf
    have hdx0 : 0 ≤ v.dx2 := by omega
    have hk0 : 0 ≤ k * v.dy2 := by
      rcases hk with h | h <;> rw [h] <;> omega
    have b1 := edge_bound v.t2x X v.e2 (v.y - Y + k) v.dx2 v.dy2 hpos hdx0 he1
      (by rcases hk with h | h <;> rw [h] <;> omega) (by linarith)
    have b2 := edge_bound X v.t2x v.e2 (v.y - Y + k) v.dx2 v.dy2 hpos hdx0 he1
      (by rcases hk with h | h <;> rw [h] <;> omega) (by linarith)
    omega

/-- The walk along the second edge in the first half on 32-bit `int`s agrees with the
walk over unbounded integers and keeps clear of overflow. -/
theorem firstEdge2_32_sim (X Y y3 : Int) :
    ∀ (n : Nat) (v : TriLocals), Edge2Ok X Y y3 0 v →
      (v.t2xp = 0 ∨ (v.changed2 = true ∧ v.t2xp = v.signx2)) →
      firstEdge2_32 n v = firstEdge2 n v
      ∧ ∀ w : TriLocals, firstEdge2 n v = some w →
          (∃ e t tp : Int, w = { v with e2 := e, t2x := t, t2xp := tp })
          ∧ Edge2Ok X Y y3 1 w
          ∧ (w.t2xp = 0 ∨ (w.changed2 = true ∧ w.t2xp = w.signx2)) := by
  intro n
  induction n with
  | zero =>
    intro v _ _
    refine ⟨rfl, ?_⟩
    intro w hrun
    rw [firstEdge2] at hrun
    exact Option.noConfusion hrun
  | succ n ih =>
    intro v hE htp
    have hrange := Edge2Ok_range X Y y3 0 v (Or.inl rfl) hE
    obtain ⟨hs, hdy0, hdy, hdx, he0, he1, hX0, hX1, hY0, hY1, hy3, hy3b, hsteep, hshallow⟩ := hE
    have ewe : wrapInt (v.e2 + v.dy2) = v.e2 + v.dy2 := wrapInt_eq _ (by omega) (by omega)
    obtain ⟨hsim1, hpost1⟩ := sub2_32_sim (n + 1) { v with e2 := v.e2 + v.dy2 }
      (by dsimp only; omega) (by dsimp only; omega) (by dsimp only; omega)
    cases hrun1 : sub2 (n + 1) { v with e2 := v.e2 + v.dy2 } with
    | none =>
      refine ⟨?_, ?_⟩
      · rw [firstEdge2_32, firstEdge2]
        rw [ewe, hsim1, hrun1]
      · intro w hrun
        rw [firstEdge2] at hrun
        rw [hrun1] at hrun
        exact Option.noConfusion hrun
    | some r =>
      obtain ⟨w1, b⟩ := r
      obtain ⟨e, t, hw1, h0, h1, h2, h3, h4⟩ := hpost1 w1 b hrun1
      dsimp only at hw1 h1 h2 h3 h4
      cases b with
      | true =>
        have hcf : v.changed2 = false := by
          by_contra hcon
          have hc : v.changed2 = true := by simpa using hcon
          exact Bool.noConfusion (h4 hc).1
        obtain ⟨ht, hb, _⟩ := h3 hcf
        obtain ⟨he, hge⟩ := hb rfl
        obtain ⟨hpos, hdyeq, hJ1, hJ2⟩ := hshallow hcf
        refine ⟨?_, ?_⟩
        · rw [firstEdge2_32, firstEdge2]
          rw [ewe, hsim1, hrun1]
        · intro w hrun
          rw [firstEdge2] at hrun
          rw [hrun1] at hrun
          obtain rfl := Option.some.inj hrun
          rw [hw1]
          refine ⟨⟨_, _, _, rfl⟩,
            ⟨hs, hdy0, hdy, hdx, h0, by dsimp only; omega, hX0, hX1, hY0, hY1, hy3, hy3b,
              fun hc => ?_, fun _ => ⟨hpos, hdyeq, ?_, ?_⟩⟩, ?_⟩
          · have : v.changed2 = true := hc
            rw [hcf] at this
            exact Bool.noConfusion this
          · dsimp only
            rw [he]
            linarith
          · dsimp only
            rw [he]
            linarith
          · dsimp only
            rw [ht]
            exact htp
      | false =>
        have hlt1 : e < v.dx2 := h2 rfl
        by_cases hc : v.changed2 = true
        · have hc1 : w1.changed2 = true := by rw [hw1]; exact hc
          obtain ⟨_, ht⟩ := h4 hc
          refine ⟨?_, ?_⟩
          · rw [firstEdge2_32, firstEdge2]
            rw [ewe, hsim1, hrun1]
            dsimp only
            rw [if_pos hc1, if_pos hc1]
          · intro w hrun
            rw [firstEdge2] at hrun
            rw [hrun1] at hrun
            dsimp only at hrun
            rw [if_pos hc1] at hrun
            obtain rfl := Option.some.inj hrun
            rw [hw1]
            refine ⟨⟨_, _, _, rfl⟩,
              ⟨hs, hdy0, hdy, hdx, h0, by dsimp only; omega, hX0, hX1, hY0, hY1, hy3, hy3b,
                fun _ => hsteep hc, fun hcf => ?_⟩, ?_⟩
            · have : v.changed2 = false := hcf
              rw [hc] at this
              exact Bool.noConfusion this
            · dsimp only
              rcases ht with h | h
              · rw [h]; exact htp
              · exact Or.inr ⟨hc, h⟩
        · have hcf : v.changed2 = false := by simpa using hc
          have hc1 : ¬ w1.changed2 = true := by rw [hw1]; exact hc
          obtain ⟨ht, _, hb⟩ := h3 hcf
          have he : e = v.e2 + v.dy2 := hb rfl
          obtain ⟨hpos, hdyeq, hJ1, hJ2⟩ := hshallow hcf
          have ht2x : w1.t2x = v.t2x := by rw [hw1]
          have hsg : w1.signx2 = v.signx2 := by rw [hw1]
          have ewt : wrapInt (w1.t2x + w1.signx2) = w1.t2x + w1.signx2 := by
            rw [ht2x, hsg]
            rcases hs with h | h <;> rw [h] <;> exact wrapInt_eq _ (by omega) (by omega)
          have hE2 : Edge2Ok X Y y3 0 { w1 with t2x := w1.t2x + w1.signx2 } := by
            rw [hw1]
            refine ⟨hs, hdy0, hdy, hdx, h0, by dsimp only; omega, hX0, hX1, hY0, hY1, hy3,
              hy3b, fun hcc => ?_, fun _ => ⟨hpos, hdyeq, ?_, ?_⟩⟩
            · have : v.changed2 = true := hcc
              rw [hcf] at this
              exact Bool.noConfusion this
            · dsimp only
              rw [he]
              rcases hs with h | h <;> rw [h] <;> linarith
            · dsimp only
              rw [he]
              rcases hs with h | h <;> rw [h] <;> linarith
          obtain ⟨hsim2, hpost2⟩ := ih { w1 with t2x := w1.t2x + w1.signx2 } hE2
            (by rw [hw1]; dsimp only; rw [ht]; exact htp)
          refine ⟨?_, ?_⟩
          · rw [firstEdge2_32, firstEdge2]
            rw [ewe, hsim1, hrun1]
            dsimp only
            rw [if_neg hc1, if_neg hc1, ewt]
            exact hsim2
          · intro w hrun
            rw [firstEdge2] at hrun
            rw [hrun1] at hrun
            dsimp only at hrun
            rw [if_neg hc1] at hrun
            obtain ⟨⟨e', t', tp', hw⟩, hEw, htw⟩ := hpost2 w hrun
            refine ⟨⟨e', t', tp', ?_⟩, hEw, htw⟩
            rw [hw, hw1]

/-- One pass of the loop `while (i < dx1)` of the second half, over unbounded
integers. -/
theorem secondEdge1_step (n : Nat) (v : TriLocals) (hi : v.i < v.dx1) :
    secondEdge1 (n + 1) v
      = if v.e1 + v.dy1 ≥ v.dx1 then
          (if v.changed1 = true then
            some { v with e1 := v.e1 + v.dy1 - v.dx1, t1xp := v.signx1 }
           else some { v with e1 := v.e1 + v.dy1 - v.dx1 })
        else if v.changed1 = true then some { v with e1 := v.e1 + v.dy1 }
        else secondEdge1 n
          { v with e1 := v.e1 + v.dy1, t1x := v.t1x + v.signx1, i := v.i + 1 } := by
  rw [secondEdge1, if_pos hi]
  by_cases hge : v.e1 + v.dy1 ≥ v.dx1
  · by_cases hc : v.changed1 = true
    · simp only [secondSub1, if_pos hge, hc, if_true]
    · have hcf : v.changed1 = false := by simpa using hc
      simp only [secondSub1, if_pos hge, hcf, Bool.false_eq_true, if_false]
  · by_cases hc : v.changed1 = true
    · simp only [secondSub1, if_neg hge, hc, if_true]
    · have hcf : v.changed1 = false := by simpa using hc
      simp only [secondSub1, if_neg hge, hcf, hi, if_true, Bool.false_eq_true, if_false]

/-- One pass of the loop `while (i < dx1)` of the second half on 32-bit `int`s. -/
theorem secondEdge1_32_step (n : Nat) (v : TriLocals) (hi : v.i < v.dx1) :
    secondEdge1_32 (n + 1) v
      = if wrapInt (v.e1 + v.dy1) ≥ v.dx1 then
          (if v.changed1 = true then
            some { v with e1 := wrapInt (wrapInt (v.e1 + v.dy1) - v.dx1), t1xp := v.signx1 }
           else some { v with e1 := wrapInt (wrapInt (v.e1 + v.dy1) - v.dx1) })
        else if v.changed1 = true then some { v with e1 := wrapInt (v.e1 + v.dy1) }
        else secondEdge1_32 n
          { v with e1 := wrapInt (v.e1 + v.dy1), t1x := wrapInt (v.t1x + v.signx1),
                   i := wrapInt (v.i + 1) } := by
  rw [secondEdge1_32, if_pos hi]
  by_cases hge : wrapInt (v.e1 + v.dy1) ≥ v.dx1
  · by_cases hc : v.changed1 = true
    · simp only [secondSub1_32, if_pos hge, hc, if_true]
    · have hcf : v.changed1 = false := by simpa using hc
      simp only [secondSub1_32, if_pos hge, hcf, Bool.false_eq_true, if_false]
  · by_cases hc : v.changed1 = true
    · simp only [secondSub1_32, if_neg hge, hc, if_true]
    · have hcf : v.changed1 = false := by simpa using hc
      simp only [secondSub1_32, if_neg hge, hcf, hi, if_true, Bool.false_eq_true, if_false]

/-- The walk along the first edge in the second half on 32-bit `int`s agrees with the
walk over unbounded integers and keeps clear of overflow. -/
theorem secondEdge1_32_sim (X Y : Int) :
    ∀ (n : Nat) (v : TriLocals), Edge1Ok X Y v → v.i ≤ v.dx1 →
      (v.t1xp = 0 ∨ (v.changed1 = true ∧ v.t1xp = v.signx1)) →
      secondEdge1_32 n v = secondEdge1 n v
      ∧ ∀ w : TriLocals, secondEdge1 n v = some w →
          (∃ i e t tp : Int, w = { v with i := i, e1 := e, t1x := t, t1xp := tp })
          ∧ Edge1Ok X Y w ∧ w.i ≤ w.dx1
          ∧ (w.t1xp = 0 ∨ (w.changed1 = true ∧ w.t1xp = w.signx1)) := by
  intro n
  induction n with
  | zero =>
    intro v hE hi htp
    refine ⟨rfl, ?_⟩
    intro w hrun
    rw [secondEdge1] at hrun
    by_cases hlt : v.i < v.dx1
    · rw [if_pos hlt] at hrun
      exact Option.noConfusion hrun
    · rw [if_neg hlt] at hrun
      obtain rfl := Option.some.inj hrun
      exact ⟨⟨_, _, _, _, rfl⟩, hE, hi, htp⟩
  | succ n ih =>
    intro v hE hi htp
    obtain ⟨hs, hdy0, hdy, hdx, he0, he1, hi0, hi1, hX0, hX1, hY0, hY1, hy1, ht0, ht1⟩ := hE
    by_cases hlt : v.i < v.dx1
    · have ewi : wrapInt (v.i + 1) = v.i + 1 := wrapInt_eq _ (by omega) (by omega)
      have ewe : wrapInt (v.e1 + v.dy1) = v.e1 + v.dy1 := wrapInt_eq _ (by omega) (by omega)
      have ews : wrapInt (v.e1 + v.dy1 - v.dx1) = v.e1 + v.dy1 - v.dx1 :=
        wrapInt_eq _ (by omega) (by omega)
      have ewt : wrapInt (v.t1x + v.signx1) = v.t1x + v.signx1 := by
        rcases hs with h | h <;> rw [h] <;> exact wrapInt_eq _ (by omega) (by omega)
      rw [secondEdge1_32_step n v hlt, secondEdge1_step n v hlt, ewe, ews, ewt, ewi]
      by_cases hge : v.e1 + v.dy1 ≥ v.dx1
      · rw [if_pos hge, if_pos hge]
        by_cases hc : v.changed1 = true
        · rw [if_pos hc]
          refine ⟨rfl, ?_⟩
          intro w hrun
          obtain rfl := Option.some.inj hrun
          exact ⟨⟨_, _, _, _, rfl⟩,
            ⟨hs, hdy0, hdy, hdx, by dsimp only; omega, by dsimp only; omega, hi0, hi1, hX0,
              hX1, hY0, hY1, hy1, ht0, ht1⟩, hi, Or.inr ⟨hc, rfl⟩⟩
        · rw [if_neg hc]
          refine ⟨rfl, ?_⟩
          intro w hrun
          obtain rfl := Option.some.inj hrun
          exact ⟨⟨_, _, _, _, rfl⟩,
            ⟨hs, hdy0, hdy, hdx, by dsimp only; omega, by dsimp only; omega, hi0, hi1, hX0,
              hX1, hY0, hY1, hy1, ht0, ht1⟩, hi, htp⟩
      · rw [if_neg hge, if_neg hge]
        by_cases hc : v.changed1 = true
        · rw [if_pos hc, if_pos hc]
          refine ⟨rfl, ?_⟩
          intro w hrun
          obtain rfl := Option.some.inj hrun
          exact ⟨⟨_, _, _, _, rfl⟩,
            ⟨hs, hdy0, hdy, hdx, by dsimp only; omega, by dsimp only; omega, hi0, hi1, hX0,
              hX1, hY0, hY1, hy1, ht0, ht1⟩, hi, htp⟩
        · rw [if_neg hc, if_neg hc]
          have hE2 : Edge1Ok X Y
              { v with e1 := v.e1 + v.dy1, t1x := v.t1x + v.signx1, i := v.i + 1 } := by
            refine ⟨hs, hdy0, hdy, hdx, by dsimp only; omega, by dsimp only; omega,
              by dsimp only; omega, by dsimp only; omega, hX0, hX1, hY0, hY1, hy1, ?_, ?_⟩
            · dsimp only
              rcases hs with h | h <;> rw [h] <;> omega
            · dsimp only
              rcases hs with h | h <;> rw [h] <;> omega
          obtain ⟨hsim2, hpost2⟩ := ih
            { v with e1 := v.e1 + v.dy1, t1x := v.t1x + v.signx1, i := v.i + 1 } hE2
            (by dsimp only; omega) htp
          refine ⟨hsim2, ?_⟩
          intro w hrun
          obtain ⟨⟨i', e', t', tp', hw⟩, hEw, hiw, htw⟩ := hpost2 w hrun
          exact ⟨⟨i', e', t', tp', hw⟩, hEw, hiw, htw⟩
    · refine ⟨?_, ?_⟩
      · rw [secondEdge1_32, secondEdge1, if_neg hlt, if_neg hlt]
      · intro w hrun
        rw [secondEdge1, if_neg hlt] at hrun
        obtain rfl := Option.some.inj hrun
        exact ⟨⟨_, _, _, _, rfl⟩,
          ⟨hs, hdy0, hdy, hdx, he0, he1, hi0, hi1, hX0, hX1, hY0, hY1, hy1, ht0, ht1⟩, hi, htp⟩

/-- The invariant of the second edge at the top of a row gives the one after the
walk when the walk does nothing. -/
theorem Edge2Ok_mid (X Y y3 : Int) (v : TriLocals) (h : Edge2Ok X Y y3 0 v) :
    Edge2Ok X Y y3 1 v := by
  obtain ⟨hs, hdy0, hdy, hdx, he0, he1, hX0, hX1, hY0, hY1, hy3, hy3b, hsteep, hshallow⟩ := h
  refine ⟨hs, hdy0, hdy, hdx, he0, he1, hX0, hX1, hY0, hY1, hy3, hy3b, hsteep, fun hcf => ?_⟩
  obtain ⟨hpos, hdyeq, hJ1, hJ2⟩ := hshallow hcf
  exact ⟨hpos, hdyeq, by linarith, by linarith⟩

/-- The walk along the second edge in the second half on 32-bit `int`s agrees with
the walk over unbounded integers and keeps clear of overflow. -/
theorem secondEdge2_32_sim (x3 X Y y3 : Int) :
    ∀ (n : Nat) (v : TriLocals), Edge2Ok X Y y3 0 v →
      (v.t2xp = 0 ∨ (v.changed2 = true ∧ v.t2xp = v.signx2)) →
      secondEdge2_32 x3 n v = secondEdge2 x3 n v
      ∧ ∀ w : TriLocals, secondEdge2 x3 n v = some w →
          (∃ e t tp : Int, w = { v with e2 := e, t2x := t, t2xp := tp })
          ∧ Edge2Ok X Y y3 1 w
          ∧ (w.t2xp = 0 ∨ (w.changed2 = true ∧ w.t2xp = w.signx2)) := by
  intro n
  induction n with
  | zero =>
    intro v hE htp
    refine ⟨rfl, ?_⟩
    intro w hrun
    rw [secondEdge2] at hrun
    by_cases hx : v.t2x ≠ x3
    · rw [if_pos hx] at hrun
      exact Option.noConfusion hrun
    · rw [if_neg hx] at hrun
      obtain rfl := Option.some.inj hrun
      exact ⟨⟨_, _, _, rfl⟩, Edge2Ok_mid X Y y3 _ hE, htp⟩
  | succ n ih =>
    intro v hE htp
    by_cases hx : v.t2x ≠ x3
    swap
    · refine ⟨?_, ?_⟩
      · rw [secondEdge2_32, secondEdge2, if_neg hx, if_neg hx]
      · intro w hrun
        rw [secondEdge2, if_neg hx] at hrun
        obtain rfl := Option.some.inj hrun
        exact ⟨⟨_, _, _, rfl⟩, Edge2Ok_mid X Y y3 _ hE, htp⟩
    have hrange := Edge2Ok_range X Y y3 0 v (Or.inl rfl) hE
    obtain ⟨hs, hdy0, hdy, hdx, he0, he1, hX0, hX1, hY0, hY1, hy3, hy3b, hsteep, hshallow⟩ := hE
    have ewe : wrapInt (v.e2 + v.dy2) = v.e2 + v.dy2 := wrapInt_eq _ (by omega) (by omega)
    obtain ⟨hsim1, hpost1⟩ := sub2_32_sim (n + 1) { v with e2 := v.e2 + v.dy2 }
      (by dsimp only; omega) (by dsimp only; omega) (by dsimp only; omega)
    cases hrun1 : sub2 (n + 1) { v with e2 := v.e2 + v.dy2 } with
    | none =>
      refine ⟨?_, ?_⟩
      · rw [secondEdge2_32, secondEdge2, if_pos hx, if_pos hx]
        dsimp only
        rw [ewe, hsim1, hrun1]
      · intro w hrun
        rw [secondEdge2, if_pos hx] at hrun
        dsimp only at hrun
        rw [hrun1] at hrun
        exact Option.noConfusion hrun
    | some r =>
      obtain ⟨w1, b⟩ := r
      obtain ⟨e, t, hw1, h0, h1, h2, h3, h4⟩ := hpost1 w1 b hrun1
      dsimp only at hw1 h1 h2 h3 h4
      cases b with
      | true =>
        have hcf : v.changed2 = false := by
          by_contra hcon
          have hc : v.changed2 = true := by simpa using hcon
          exact Bool.noConfusion (h4 hc).1
        obtain ⟨ht, hb, _⟩ := h3 hcf
        obtain ⟨he, hge⟩ := hb rfl
        obtain ⟨hpos, hdyeq, hJ1, hJ2⟩ := hshallow hcf
        refine ⟨?_, ?_⟩
        · rw [secondEdge2_32, secondEdge2, if_pos hx, if_pos hx]
          dsimp only
          rw [ewe, hsim1, hrun1]
        · intro w hrun
          rw [secondEdge2, if_pos hx] at hrun
          dsimp only at hrun
          rw [hrun1] at hrun
          obtain rfl := Option.some.inj hrun
          rw [hw1]
          refine ⟨⟨_, _, _, rfl⟩,
            ⟨hs, hdy0, hdy, hdx, h0, by dsimp only; omega, hX0, hX1, hY0, hY1, hy3, hy3b,
              fun hc => ?_, fun _ => ⟨hpos, hdyeq, ?_, ?_⟩⟩, ?_⟩
          · have : v.changed2 = true := hc
            rw [hcf] at this
            exact Bool.noConfusion this
          · dsimp only
            rw [he]
            linarith
          · dsimp only
            rw [he]
            linarith
          · dsimp only
            rw [ht]
            exact htp
      | false =>
        have hlt1 : e < v.dx2 := h2 rfl
        by_cases hc : v.changed2 = true
        · have hc1 : w1.changed2 = true := by rw [hw1]; exact hc
          obtain ⟨_, ht⟩ := h4 hc
          refine ⟨?_, ?_⟩
          · rw [secondEdge2_32, secondEdge2, if_pos hx, if_pos hx]
            dsimp only
            rw [ewe, hsim1, hrun1]
            dsimp only
            rw [if_pos hc1, if_pos hc1]
          · intro w hrun
            rw [secondEdge2, if_pos hx] at hrun
            dsimp only at hrun
            rw [hrun1] at hrun
            dsimp only at hrun
            rw [if_pos hc1] at hrun
            obtain rfl := Option.some.inj hrun
            rw [hw1]
            refine ⟨⟨_, _, _, rfl⟩,
              ⟨hs, hdy0, hdy, hdx, h0, by dsimp only; omega, hX0, hX1, hY0, hY1, hy3, hy3b,
                fun _ => hsteep hc, fun hcf => ?_⟩, ?_⟩
            · have : v.changed2 = false := hcf
              rw [hc] at this
              exact Bool.noConfusion this
            · dsimp only
              rcases ht with h | h
              · rw [h]; exact htp
              · exact Or.inr ⟨hc, h⟩
        · have hcf : v.changed2 = false := by simpa using hc
          have hc1 : ¬ w1.changed2 = true := by rw [hw1]; exact hc
          obtain ⟨ht, _, hb⟩ := h3 hcf
          have he : e = v.e2 + v.dy2 := hb rfl
          obtain ⟨hpos, hdyeq, hJ1, hJ2⟩ := hshallow hcf
          have ht2x : w1.t2x = v.t2x := by rw [hw1]
          have hsg : w1.signx2 = v.signx2 := by rw [hw1]
          have ewt : wrapInt (w1.t2x + w1.signx2) = w1.t2x + w1.signx2 := by
            rw [ht2x, hsg]
            rcases hs with h | h <;> rw [h] <;> exact wrapInt_eq _ (by omega) (by omega)
          have hE2 : Edge2Ok X Y y3 0 { w1 with t2x := w1.t2x + w1.signx2 } := by
            rw [hw1]
            refine ⟨hs, hdy0, hdy, hdx, h0, by dsimp only; omega, hX0, hX1, hY0, hY1, hy3,
              hy3b, fun hcc => ?_, fun _ => ⟨hpos, hdyeq, ?_, ?_⟩⟩
            · have : v.changed2 = true := hcc
              rw [hcf] at this
              exact Bool.noConfusion this
            · dsimp only
              rw [he]
              rcases hs with h | h <;> rw [h] <;> linarith
            · dsimp only
              rw [he]
              rcases hs with h | h <;> rw [h] <;> linarith
          obtain ⟨hsim2, hpost2⟩ := ih { w1 with t2x := w1.t2x + w1.signx2 } hE2
            (by rw [hw1]; dsimp only; rw [ht]; exact htp)
          refine ⟨?_, ?_⟩
          · rw [secondEdge2_32, secondEdge2, if_pos hx, if_pos hx]
            dsimp only
            rw [ewe, hsim1, hrun1]
            dsimp only
            rw [if_neg hc1, if_neg hc1, ewt]
            exact hsim2
          · intro w hrun
            rw [secondEdge2, if_pos hx] at hrun
            dsimp only at hrun
            rw [hrun1] at hrun
            dsimp only at hrun
            rw [if_neg hc1] at hrun
            obtain ⟨⟨e', t', tp', hw⟩, hEw, htw⟩ := hpost2 w hrun
            refine ⟨⟨e', t', tp', ?_⟩, hEw, htw⟩
            rw [hw, hw1]

/-- The start of a row takes `minx <= maxx` from `t1x` and `t2x`. -/
theorem rowStart_range (v : TriLocals) (L U : Int) (h1 : L ≤ v.t1x ∧ v.t1x ≤ U)
    (h2 : L ≤ v.t2x ∧ v.t2x ≤ U) :
    ∃ a b : Int, a ≤ b ∧ L ≤ a ∧ b ≤ U
      ∧ rowStart v = { v with t1xp := 0, t2xp := 0, minx := a, maxx := b } := by
  unfold rowStart
  dsimp only
  by_cases h : v.t1x < v.t2x
  · exact ⟨v.t1x, v.t2x, le_of_lt h, h1.1, h2.2, by rw [if_pos h]⟩
  · exact ⟨v.t2x, v.t1x, not_lt.mp h, h2.1, h1.2, by rw [if_neg h]⟩

/-- The updates of `minx` and `maxx` keep them between the bounds of `t1x`, `t2x`
and their earlier values. -/
theorem rowMinMax_range (v : TriLocals) (L U : Int) (h : v.minx ≤ v.maxx)
    (hm : L ≤ v.minx ∧ v.maxx ≤ U) (h1 : L ≤ v.t1x ∧ v.t1x ≤ U)
    (h2 : L ≤ v.t2x ∧ v.t2x ≤ U) :
    ∃ a b : Int, a ≤ b ∧ L ≤ a ∧ b ≤ U ∧ rowMinMax v = { v with minx := a, maxx := b } := by
  rcases v with ⟨t1x, t2x, y, minx, maxx, t1xp, t2xp, c1, c2, s1, s2, dx1, dy1, dx2, dy2,
    e1, e2, i⟩
  dsimp only at h hm h1 h2
  unfold rowMinMax
  dsimp only
  by_cases g1 : minx > t1x
  · simp only [if_pos g1]
    by_cases g2 : t1x > t2x
    · simp only [if_pos g2]
      by_cases g3 : maxx < t1x
      · simp only [if_pos g3]
        by_cases g4 : t1x < t2x
        · simp only [if_pos g4]; exact ⟨_, _, by omega, by omega, by omega, rfl⟩
        · simp only [if_neg g4]; exact ⟨_, _, by omega, by omega, by omega, rfl⟩
      · simp only [if_neg g3]
        by_cases g4 : maxx < t2x
        · simp only [if_pos g4]; exact ⟨_, _, by omega, by omega, by omega, rfl⟩
        · simp only [if_neg g4]; exact ⟨_, _, by omega, by omega, by omega, rfl⟩
    · simp only [if_neg g2]
      by_cases g3 : maxx < t1x
      · simp only [if_pos g3]
        by_cases g4 : t1x < t2x
        · simp only [if_pos g4]; exact ⟨_, _, by omega, by omega, by omega, rfl⟩
        · simp only [if_neg g4]; exact ⟨_, _, by omega, by omega, by omega, rfl⟩
      · simp only [if_neg g3]
        by_cases g4 : maxx < t2x
        · simp only [if_pos g4]; exact ⟨_, _, by omega, by omega, by omega, rfl⟩
        · simp only [if_neg g4]; exact ⟨_, _, by omega, by omega, by omega, rfl⟩
  · simp only [if_neg g1]
    by_cases g2 : minx > t2x
    · simp only [if_pos g2]
      by_cases g3 : maxx < t1x
      · simp only [if_pos g3]
        by_cases g4 : t1x < t2x
        · simp only [if_pos g4]; exact ⟨_, _, by omega, by omega, by omega, rfl⟩
        · simp only [if_neg g4]; exact ⟨_, _, by omega, by omega, by omega, rfl⟩
      · simp only [if_neg g3]
        by_cases g4 : maxx < t2x
        · simp only [if_pos g4]; exact ⟨_, _, by omega, by omega, by omega, rfl⟩
        · simp only [if_neg g4]; exact ⟨_, _, by omega, by omega, by omega, rfl⟩
    · simp only [if_neg g2]
      by_cases g3 : maxx < t1x
      · simp only [if_pos g3]
        by_cases g4 : t1x < t2x
        · simp only [if_pos g4]; exact ⟨_, _, by omega, by omega, by omega, rfl⟩
        · simp only [if_neg g4]; exact ⟨_, _, by omega, by omega, by omega, rfl⟩
      · simp only [if_neg g3]
        by_cases g4 : maxx < t2x
        · simp only [if_pos g4]; exact ⟨_, _, by omega, by omega, by omega, rfl⟩
        · simp only [if_neg g4]; exact ⟨_, _, by omega, by omega, by omega, rfl⟩

/-- From the invariant of the first edge: `t1x` is within `7 * 2^28` of zero. -/
theorem Edge1Ok_range (X Y : Int) (v : TriLocals) (h : Edge1Ok X Y v) :
    -1879048192 ≤ v.t1x ∧ v.t1x ≤ 1879048192 := by
  obtain ⟨hs, hdy0, hdy, hdx, he0, he1, hi0, hi1, hX0, hX1, hY0, hY1, hy1, ht0, ht1⟩ := h
  omega

/-- The updates after `drawline` on 32-bit `int`s agree with those over unbounded
integers, and hand the invariants of both edges on to the next row. -/
theorem rowAdvance32_sim (X1 Y1 X2 Y2 y3 : Int) (v : TriLocals) (h1 : Edge1Ok X1 Y1 v)
    (h2 : Edge2Ok X2 Y2 y3 1 v)
    (htp1 : v.t1xp = 0 ∨ (v.changed1 = true ∧ v.t1xp = v.signx1))
    (htp2 : v.t2xp = 0 ∨ (v.changed2 = true ∧ v.t2xp = v.signx2)) :
    rowAdvance32 v = rowAdvance v
    ∧ (rowAdvance v).y = v.y + 1 ∧ (rowAdvance v).i = v.i ∧ (rowAdvance v).dx1 = v.dx1
    ∧ (v.y + 1 ≤ 268435456 → Edge1Ok X1 Y1 (rowAdvance v))
    ∧ (v.y + 1 ≤ y3 → Edge2Ok X2 Y2 y3 0 (rowAdvance v)) := by
  have hr1 := Edge1Ok_range X1 Y1 v h1
  have hr2 := Edge2Ok_range X2 Y2 y3 1 v (Or.inr rfl) h2
  rcases v with ⟨t1x, t2x, y, minx, maxx, t1xp, t2xp, c1, c2, s1, s2, dx1, dy1, dx2, dy2,
    e1, e2, i⟩
  obtain ⟨hs, hdy0, hdy, hdx, he0, he1, hi0, hi1, hX0, hX1, hY0, hY1, hy1, ht0, ht1⟩ := h1
  obtain ⟨gs, gdy0, gdy, gdx, ge0, ge1, gX0, gX1, gY0, gY1, gy3, gy3b, gsteep, gshallow⟩ := h2
  dsimp only at hr1 hr2 htp1 htp2 hs hdy0 hdy hdx he0 he1 hi0 hi1 hY1 hy1 ht0 ht1
  dsimp only at gs gdy0 gdy gdx ge0 ge1 gY1 gy3 gsteep gshallow
  have ey : wrapInt (y + 1) = y + 1 := wrapInt_eq _ (by omega) (by omega)
  have ep1 : ∀ a : Int, -1879048193 ≤ a → a ≤ 1879048193 → wrapInt (a + t1xp) = a + t1xp := by
    intro a ha0 ha1
    rcases htp1 with h | ⟨_, h⟩
    · rw [h]; exact wrapInt_eq _ (by omega) (by omega)
    · rw [h]
      rcases hs with h' | h' <;> rw [h'] <;> exact wrapInt_eq _ (by omega) (by omega)
  have ep2 : ∀ a : Int, -1879048193 ≤ a → a ≤ 1879048193 → wrapInt (a + t2xp) = a + t2xp := by
    intro a ha0 ha1
    rcases htp2 with h | ⟨_, h⟩
    · rw [h]; exact wrapInt_eq _ (by omega) (by omega)
    · rw [h]
      rcases gs with h' | h' <;> rw [h'] <;> exact wrapInt_eq _ (by omega) (by omega)
  have es1 : wrapInt (t1x + s1) = t1x + s1 := by
    rcases hs with h' | h' <;> rw [h'] <;> exact wrapInt_eq _ (by omega) (by omega)
  have es2 : wrapInt (t2x + s2) = t2x + s2 := by
    rcases gs with h' | h' <;> rw [h'] <;> exact wrapInt_eq _ (by omega) (by omega)
  have hb1 : -1 ≤ s1 ∧ s1 ≤ 1 := by rcases hs with h' | h' <;> rw [h'] <;> omega
  have hb2 : -1 ≤ s2 ∧ s2 ≤ 1 := by rcases gs with h' | h' <;> rw [h'] <;> omega
  have hq1 : -1 ≤ t1xp ∧ t1xp ≤ 1 := by
    rcases htp1 with h | ⟨_, h⟩ <;> rw [h] <;> omega
  have hq2 : -1 ≤ t2xp ∧ t2xp ≤ 1 := by
    rcases htp2 with h | ⟨_, h⟩ <;> rw [h] <;> omega
  cases c1 <;> cases c2
  · have hadv : rowAdvance (⟨t1x, t2x, y, minx, maxx, t1xp, t2xp, false, false, s1, s2, dx1, dy1, dx2, dy2,
        e1, e2, i⟩ : TriLocals)
        = (⟨t1x + s1 + t1xp, t2x + s2 + t2xp, y + 1, minx, maxx, t1xp, t2xp, false, false, s1, s2, dx1, dy1, dx2, dy2,
        e1, e2, i⟩ : TriLocals) := rfl
    have hadv32 : rowAdvance32 (⟨t1x, t2x, y, minx, maxx, t1xp, t2xp, false, false, s1, s2, dx1, dy1, dx2, dy2,
        e1, e2, i⟩ : TriLocals)
        = (⟨wrapInt (wrapInt (t1x + s1) + t1xp), wrapInt (wrapInt (t2x + s2) + t2xp), wrapInt (y + 1), minx, maxx, t1xp, t2xp, false, false, s1, s2, dx1, dy1, dx2, dy2,
        e1, e2, i⟩ : TriLocals) := rfl
    have hp1 : t1xp = 0 := by
      rcases htp1 with h | ⟨h, _⟩
      · exact h
      · exact Bool.noConfusion h
    have hp2 : t2xp = 0 := by
      rcases htp2 with h | ⟨h, _⟩
      · exact h
      · exact Bool.noConfusion h
    obtain ⟨gpos, gdyeq, gJ1, gJ2⟩ := gshallow rfl
    rw [hadv32, hadv, es1, ep1 (t1x + s1) (by omega) (by omega), es2, ep2 (t2x + s2) (by omega) (by omega), ey]
    refine ⟨rfl, rfl, rfl, rfl, fun hy => ?_, fun hy => ?_⟩ <;> dsimp only at hy
    · exact ⟨hs, hdy0, hdy, hdx, he0, he1, hi0, hi1, hX0, hX1, hY0, by dsimp only; omega,
        by dsimp only; omega, by dsimp only; omega, by dsimp only; omega⟩
    · refine ⟨gs, gdy0, gdy, gdx, ge0, ge1, gX0, gX1, gY0, by dsimp only; omega,
        by dsimp only; omega, gy3b, fun h => Bool.noConfusion h,
        fun _ => ⟨gpos, gdyeq, ?_, ?_⟩⟩
      · dsimp only
        rw [hp2]
        rcases gs with h' | h' <;> rw [h'] <;> linarith
      · dsimp only
        rw [hp2]
        rcases gs with h' | h' <;> rw [h'] <;> linarith
  · have hadv : rowAdvance (⟨t1x, t2x, y, minx, maxx, t1xp, t2xp, false, true, s1, s2, dx1, dy1, dx2, dy2,
        e1, e2, i⟩ : TriLocals)
        = (⟨t1x + s1 + t1xp, t2x + t2xp, y + 1, minx, maxx, t1xp, t2xp, false, true, s1, s2, dx1, dy1, dx2, dy2,
        e1, e2, i⟩ : TriLocals) := rfl
    have hadv32 : rowAdvance32 (⟨t1x, t2x, y, minx, maxx, t1xp, t2xp, false, true, s1, s2, dx1, dy1, dx2, dy2,
        e1, e2, i⟩ : TriLocals)
        = (⟨wrapInt (wrapInt (t1x + s1) + t1xp), wrapInt (t2x + t2xp), wrapInt (y + 1), minx, maxx, t1xp, t2xp, false, true, s1, s2, dx1, dy1, dx2, dy2,
        e1, e2, i⟩ : TriLocals) := rfl
    have hp1 : t1xp = 0 := by
      rcases htp1 with h | ⟨h, _⟩
      · exact h
      · exact Bool.noConfusion h
    obtain ⟨gt0, gt1⟩ := gsteep rfl
    rw [hadv32, hadv, es1, ep1 (t1x + s1) (by omega) (by omega), ep2 t2x (by omega) (by omega), ey]
    refine ⟨rfl, rfl, rfl, rfl, fun hy => ?_, fun hy => ?_⟩ <;> dsimp only at hy
    · exact ⟨hs, hdy0, hdy, hdx, he0, he1, hi0, hi1, hX0, hX1, hY0, by dsimp only; omega,
        by dsimp only; omega, by dsimp only; omega, by dsimp only; omega⟩
    · exact ⟨gs, gdy0, gdy, gdx, ge0, ge1, gX0, gX1, gY0, by dsimp only; omega,
        by dsimp only; omega, gy3b, fun _ => ⟨by dsimp only; omega, by dsimp only; omega⟩,
        fun h => Bool.noConfusion h⟩
  · have hadv : rowAdvance (⟨t1x, t2x, y, minx, maxx, t1xp, t2xp, true, false, s1, s2, dx1, dy1, dx2, dy2,
        e1, e2, i⟩ : TriLocals)
        = (⟨t1x + t1xp, t2x + s2 + t2xp, y + 1, minx, maxx, t1xp, t2xp, true, false, s1, s2, dx1, dy1, dx2, dy2,
        e1, e2, i⟩ : TriLocals) := rfl
    have hadv32 : rowAdvance32 (⟨t1x, t2x, y, minx, maxx, t1xp, t2xp, true, false, s1, s2, dx1, dy1, dx2, dy2,
        e1, e2, i⟩ : TriLocals)
        = (⟨wrapInt (t1x + t1xp), wrapInt (wrapInt (t2x + s2) + t2xp), wrapInt (y + 1), minx, maxx, t1xp, t2xp, true, false, s1, s2, dx1, dy1, dx2, dy2,
        e1, e2, i⟩ : TriLocals) := rfl
    have hp2 : t2xp = 0 := by
      rcases htp2 with h | ⟨h, _⟩
      · exact h
      · exact Bool.noConfusion h
    obtain ⟨gpos, gdyeq, gJ1, gJ2⟩ := gshallow rfl
    rw [hadv32, hadv, ep1 t1x (by omega) (by omega), es2, ep2 (t2x + s2) (by omega) (by omega), ey]
    refine ⟨rfl, rfl, rfl, rfl, fun hy => ?_, fun hy => ?_⟩ <;> dsimp only at hy
    · exact ⟨hs, hdy0, hdy, hdx, he0, he1, hi0, hi1, hX0, hX1, hY0, by dsimp only; omega,
        by dsimp only; omega, by dsimp only; omega, by dsimp only; omega⟩
    · refine ⟨gs, gdy0, gdy, gdx, ge0, ge1, gX0, gX1, gY0, by dsimp only; omega,
        by dsimp only; omega, gy3b, fun h => Bool.noConfusion h,
        fun _ => ⟨gpos, gdyeq, ?_, ?_⟩⟩
      · dsimp only
        rw [hp2]
        rcases gs with h' | h' <;> rw [h'] <;> linarith
      · dsimp only
        rw [hp2]
        rcases gs with h' | h' <;> rw [h'] <;> linarith
  · have hadv : rowAdvance (⟨t1x, t2x, y, minx, maxx, t1xp, t2xp, true, true, s1, s2, dx1, dy1, dx2, dy2,
        e1, e2, i⟩ : TriLocals)
        = (⟨t1x + t1xp, t2x + t2xp, y + 1, minx, maxx, t1xp, t2xp, true, true, s1, s2, dx1, dy1, dx2, dy2,
        e1, e2, i⟩ : TriLocals) := rfl
    have hadv32 : rowAdvance32 (⟨t1x, t2x, y, minx, maxx, t1xp, t2xp, true, true, s1, s2, dx1, dy1, dx2, dy2,
        e1, e2, i⟩ : TriLocals)
        = (⟨wrapInt (t1x + t1xp), wrapInt (t2x + t2xp), wrapInt (y + 1), minx, maxx, t1xp, t2xp, true, true, s1, s2, dx1, dy1, dx2, dy2,
        e1, e2, i⟩ : TriLocals) := rfl
    obtain ⟨gt0, gt1⟩ := gsteep rfl
    rw [hadv32, hadv, ep1 t1x (by omega) (by omega), ep2 t2x (by omega) (by omega), ey]
    refine ⟨rfl, rfl, rfl, rfl, fun hy => ?_, fun hy => ?_⟩ <;> dsimp only at hy
    · exact ⟨hs, hdy0, hdy, hdx, he0, he1, hi0, hi1, hX0, hX1, hY0, by dsimp only; omega,
        by dsimp only; omega, by dsimp only; omega, by dsimp only; omega⟩
    · exact ⟨gs, gdy0, gdy, gdx, ge0, ge1, gX0, gX1, gY0, by dsimp only; omega,
        by dsimp only; omega, gy3b, fun _ => ⟨by dsimp only; omega, by dsimp only; omega⟩,
        fun h => Bool.noConfusion h⟩

theorem spanCells_nil : spanCells [] = [] := rfl

theorem spanCells_cons (sp : Int × Int × Int) (rest : List (Int × Int × Int)) :
    spanCells (sp :: rest) = drawline sp.1 sp.2.1 sp.2.2 ++ spanCells rest := by
  simp [spanCells]

/-- The first `for` loop on 32-bit `int`s agrees with the loop over unbounded
integers: while the invariants of the two edges hold at the top of a row above `y2`,
no value leaves the range of `int`, and the cells passed are those of the `drawline`
calls of the unbounded loop. -/
theorem firstHalf32_sim (fuel : Nat) (y2 X1 Y1 X2 Y2 y3 : Int)
    (hfuel : 3758096384 < (fuel : Int)) (hy23 : y2 ≤ y3) :
    ∀ (n : Nat) (v : TriLocals), Edge1Ok X1 Y1 v → Edge2Ok X2 Y2 y3 0 v → v.y < y2 →
      firstHalf32 fuel y2 n v = (firstHalf y2 n v).map (fun r => (r.1, spanCells r.2))
      ∧ ∀ (w : TriLocals) (spans : List (Int × Int × Int)),
          firstHalf y2 n v = some (w, spans) → Edge2Ok X2 Y2 y3 0 w := by
  intro n
  induction n with
  | zero =>
    intro v hE1 hE2 hy
    refine ⟨?_, ?_⟩
    · rw [firstHalf32, firstHalf]
      by_cases hg : v.i < v.dx1
      · rw [if_pos hg, if_pos hg]; rfl
      · rw [if_neg hg, if_neg hg]; rfl
    · intro w spans hrun
      rw [firstHalf] at hrun
      by_cases hg : v.i < v.dx1
      · rw [if_pos hg] at hrun
        exact Option.noConfusion hrun
      · rw [if_neg hg] at hrun
        obtain ⟨rfl, _⟩ := Prod.mk.inj (Option.some.inj hrun)
        exact hE2
  | succ n ih =>
    intro v hE1 hE2 hy
    by_cases hg : v.i < v.dx1
    swap
    · refine ⟨?_, ?_⟩
      · rw [firstHalf32, firstHalf, if_neg hg, if_neg hg]; rfl
      · intro w spans hrun
        rw [firstHalf, if_neg hg] at hrun
        obtain ⟨rfl, _⟩ := Prod.mk.inj (Option.some.inj hrun)
        exact hE2
    have hy3b : y3 ≤ 268435456 := hE2.2.2.2.2.2.2.2.2.2.2.2.1
    -- the state after `rowStart`
    obtain ⟨a, b, hab, ha, hb, hs0⟩ := rowStart_range v (-1879048192) 1879048192
      (Edge1Ok_range X1 Y1 v hE1) (Edge2Ok_range X2 Y2 y3 0 v (Or.inl rfl) hE2)
    obtain ⟨v0, hv0⟩ : ∃ v0, v0 = rowStart v := ⟨_, rfl⟩
    rw [← hv0] at hs0
    have hE10 : Edge1Ok X1 Y1 v0 := by rw [hs0]; exact hE1
    have hE20 : Edge2Ok X2 Y2 y3 0 v0 := by rw [hs0]; exact hE2
    have hy0 : v0.y = v.y := by rw [hs0]
    have hm0 : v0.minx ≤ v0.maxx ∧ -1879048192 ≤ v0.minx ∧ v0.maxx ≤ 1879048192 := by
      rw [hs0]; exact ⟨hab, ha, hb⟩
    -- the walk along the first edge
    obtain ⟨hsimA, hpostA⟩ := firstEdge1_32_sim X1 Y1 (n + 1) v0 hE10
      (by rw [hs0]; exact le_of_lt hg) (by rw [hs0]; exact Or.inl rfl)
    cases hA : firstEdge1 (n + 1) v0 with
    | none =>
      refine ⟨?_, ?_⟩
      · rw [firstHalf32, firstHalf, if_pos hg, if_pos hg, ← hv0, hsimA, hA]; rfl
      · intro w spans hrun
        rw [firstHalf, if_pos hg, ← hv0, hA] at hrun
        exact Option.noConfusion hrun
    | some v1 =>
      obtain ⟨⟨i1, e1, t1, tp1, hv1⟩, hE11, _, htp11⟩ := hpostA v1 hA
      have hE21 : Edge2Ok X2 Y2 y3 0 v1 := by rw [hv1]; exact hE20
      have hy1 : v1.y = v.y := by rw [hv1]; exact hy0
      have hm1 : v1.minx ≤ v1.maxx ∧ -1879048192 ≤ v1.minx ∧ v1.maxx ≤ 1879048192 := by
        rw [hv1]; exact hm0
      -- the walk along the second edge
      obtain ⟨hsimB, hpostB⟩ := firstEdge2_32_sim X2 Y2 y3 (n + 1) v1 hE21
        (by rw [hv1, hs0]; exact Or.inl rfl)
      cases hB : firstEdge2 (n + 1) v1 with
      | none =>
        refine ⟨?_, ?_⟩
        · rw [firstHalf32, firstHalf, if_pos hg, if_pos hg, ← hv0, hsimA, hA]
          dsimp only
          rw [hsimB, hB]; rfl
        · intro w spans hrun
          rw [firstHalf, if_pos hg, ← hv0, hA] at hrun
          dsimp only at hrun
          rw [hB] at hrun
          exact Option.noConfusion hrun
      | some v2 =>
        obtain ⟨⟨e2, t2, tp2, hv2⟩, hE22, htp22⟩ := hpostB v2 hB
        have hE12 : Edge1Ok X1 Y1 v2 := by rw [hv2]; exact hE11
        have htp12 : v2.t1xp = 0 ∨ (v2.changed1 = true ∧ v2.t1xp = v2.signx1) := by
          rw [hv2]; exact htp11
        have hy2' : v2.y = v.y := by rw [hv2]; exact hy1
        have hm2 : v2.minx ≤ v2.maxx ∧ -1879048192 ≤ v2.minx ∧ v2.maxx ≤ 1879048192 := by
          rw [hv2]; exact hm1
        -- `minx`, `maxx`, the `drawline` call and the step to the next row
        obtain ⟨a', b', hab', ha', hb', hs3⟩ := rowMinMax_range v2 (-1879048192) 1879048192
          hm2.1 ⟨hm2.2.1, hm2.2.2⟩ (Edge1Ok_range X1 Y1 v2 hE12)
          (Edge2Ok_range X2 Y2 y3 1 v2 (Or.inr rfl) hE22)
        obtain ⟨v3, hv3⟩ : ∃ v3, v3 = rowMinMax v2 := ⟨_, rfl⟩
        rw [← hv3] at hs3
        have hE13 : Edge1Ok X1 Y1 v3 := by rw [hs3]; exact hE12
        have hE23 : Edge2Ok X2 Y2 y3 1 v3 := by rw [hs3]; exact hE22
        have htp13 : v3.t1xp = 0 ∨ (v3.changed1 = true ∧ v3.t1xp = v3.signx1) := by
          rw [hs3]; exact htp12
        have htp23 : v3.t2xp = 0 ∨ (v3.changed2 = true ∧ v3.t2xp = v3.signx2) := by
          rw [hs3]; exact htp22
        have hy3' : v3.y = v.y := by rw [hs3]; exact hy2'
        have hmin3 : v3.minx = a' := by rw [hs3]
        have hmax3 : v3.maxx = b' := by rw [hs3]
        have hdraw : drawline32 fuel v3.minx v3.maxx v3.y
            = some (drawline v3.minx v3.maxx v3.y) :=
          drawline32_eq fuel _ _ _ (by rw [hmin3, hmax3]; exact hab')
            (by rw [hmin3]; omega) (by rw [hmax3]; omega) (by rw [hmin3, hmax3]; omega)
        obtain ⟨hadv, hy4, _, _, hE14, hE24⟩ :=
          rowAdvance32_sim X1 Y1 X2 Y2 y3 v3 hE13 hE23 htp13 htp23
        obtain ⟨v4, hv4⟩ : ∃ v4, v4 = rowAdvance v3 := ⟨_, rfl⟩
        rw [← hv4] at hy4 hE14 hE24 hadv
        by_cases hend : v4.y = y2
        · refine ⟨?_, ?_⟩
          · rw [firstHalf32, firstHalf, if_pos hg, if_pos hg, ← hv0, hsimA, hA]
            dsimp only
            rw [hsimB, hB]
            dsimp only
            rw [← hv3, hdraw]
            dsimp only
            rw [hadv, if_pos hend, ← hv4, if_pos hend]
            simp only [Option.map_some', spanCells_cons, spanCells_nil, List.append_nil]
          · intro w spans hrun
            rw [firstHalf, if_pos hg, ← hv0, hA] at hrun
            dsimp only at hrun
            rw [hB] at hrun
            dsimp only at hrun
            rw [← hv3, ← hv4, if_pos hend] at hrun
            obtain ⟨rfl, _⟩ := Prod.mk.inj (Option.some.inj hrun)
            exact hE24 (by omega)
        · have hlt4 : v4.y < y2 := by omega
          obtain ⟨hsimR, hpostR⟩ := ih v4 (hE14 (by omega)) (hE24 (by omega)) hlt4
          refine ⟨?_, ?_⟩
          · rw [firstHalf32, firstHalf, if_pos hg, if_pos hg, ← hv0, hsimA, hA]
            dsimp only
            rw [hsimB, hB]
            dsimp only
            rw [← hv3, hdraw]
            dsimp only
            rw [hadv, if_neg hend, ← hv4, if_neg hend, hsimR]
            cases firstHalf y2 n v4 with
            | none => rfl
            | some r =>
              simp only [Option.map_some', spanCells_cons]
          · intro w spans hrun
            rw [firstHalf, if_pos hg, ← hv0, hA] at hrun
            dsimp only at hrun
            rw [hB] at hrun
            dsimp only at hrun
            rw [← hv3, ← hv4, if_neg hend] at hrun
            cases hR : firstHalf y2 n v4 with
            | none =>
              rw [hR] at hrun
              exact Option.noConfusion hrun
            | some r =>
              rw [hR] at hrun
              obtain ⟨w', sp'⟩ := r
              obtain ⟨rfl, _⟩ := Prod.mk.inj (Option.some.inj hrun)
              exact hpostR _ sp' hR

/-- The second `for` loop on 32-bit `int`s agrees with the loop over unbounded
integers: while the invariants of the two edges hold at the top of a row, no value
leaves the range of `int`, and the cells passed are those of the `drawline` calls of
the unbounded loop. -/
theorem secondHalf32_sim (fuel : Nat) (x3 y3 X1 Y1 X2 Y2 : Int)
    (hfuel : 3758096384 < (fuel : Int)) :
    ∀ (n : Nat) (v : TriLocals), Edge1Ok X1 Y1 v → Edge2Ok X2 Y2 y3 0 v →
      secondHalf32 fuel x3 y3 n v = (secondHalf x3 y3 n v).map spanCells := by
  intro n
  induction n with
  | zero =>
    intro v hE1 hE2
    rw [secondHalf32, secondHalf]
    by_cases hg : v.i ≤ v.dx1
    · rw [if_pos hg, if_pos hg]; rfl
    · rw [if_neg hg, if_neg hg]; rfl
  | succ n ih =>
    intro v hE1 hE2
    by_cases hg : v.i ≤ v.dx1
    swap
    · rw [secondHalf32, secondHalf, if_neg hg, if_neg hg]; rfl
    have hy3b : y3 ≤ 268435456 := hE2.2.2.2.2.2.2.2.2.2.2.2.1
    have hyle : v.y ≤ y3 := hE2.2.2.2.2.2.2.2.2.2.2.1
    -- the state after `rowStart`
    obtain ⟨a, b, hab, ha, hb, hs0⟩ := rowStart_range v (-1879048192) 1879048192
      (Edge1Ok_range X1 Y1 v hE1) (Edge2Ok_range X2 Y2 y3 0 v (Or.inl rfl) hE2)
    obtain ⟨v0, hv0⟩ : ∃ v0, v0 = rowStart v := ⟨_, rfl⟩
    rw [← hv0] at hs0
    have hE10 : Edge1Ok X1 Y1 v0 := by rw [hs0]; exact hE1
    have hE20 : Edge2Ok X2 Y2 y3 0 v0 := by rw [hs0]; exact hE2
    have hy0 : v0.y = v.y := by rw [hs0]
    have hm0 : v0.minx ≤ v0.maxx ∧ -1879048192 ≤ v0.minx ∧ v0.maxx ≤ 1879048192 := by
      rw [hs0]; exact ⟨hab, ha, hb⟩
    -- the walk along the first edge
    obtain ⟨hsimA, hpostA⟩ := secondEdge1_32_sim X1 Y1 (n + 1) v0 hE10
      (by rw [hs0]; exact hg) (by rw [hs0]; exact Or.inl rfl)
    cases hA : secondEdge1 (n + 1) v0 with
    | none =>
      rw [secondHalf32, secondHalf, if_pos hg, if_pos hg, ← hv0, hsimA, hA]; rfl
    | some v1 =>
      obtain ⟨⟨i1, e1, t1, tp1, hv1⟩, hE11, hi11, htp11⟩ := hpostA v1 hA
      have hE21 : Edge2Ok X2 Y2 y3 0 v1 := by rw [hv1]; exact hE20
      have hy1 : v1.y = v.y := by rw [hv1]; exact hy0
      have hm1 : v1.minx ≤ v1.maxx ∧ -1879048192 ≤ v1.minx ∧ v1.maxx ≤ 1879048192 := by
        rw [hv1]; exact hm0
      -- the walk along the second edge
      obtain ⟨hsimB, hpostB⟩ := secondEdge2_32_sim x3 X2 Y2 y3 (n + 1) v1 hE21
        (by rw [hv1, hs0]; exact Or.inl rfl)
      cases hB : secondEdge2 x3 (n + 1) v1 with
      | none =>
        rw [secondHalf32, secondHalf, if_pos hg, if_pos hg, ← hv0, hsimA, hA]
        dsimp only
        rw [hsimB, hB]; rfl
      | some v2 =>
        obtain ⟨⟨e2, t2, tp2, hv2⟩, hE22, htp22⟩ := hpostB v2 hB
        have hE12 : Edge1Ok X1 Y1 v2 := by rw [hv2]; exact hE11
        have hi12 : v2.i ≤ v2.dx1 := by rw [hv2]; exact hi11
        have htp12 : v2.t1xp = 0 ∨ (v2.changed1 = true ∧ v2.t1xp = v2.signx1) := by
          rw [hv2]; exact htp11
        have hy2' : v2.y = v.y := by rw [hv2]; exact hy1
        have hm2 : v2.minx ≤ v2.maxx ∧ -1879048192 ≤ v2.minx ∧ v2.maxx ≤ 1879048192 := by
          rw [hv2]; exact hm1
        -- `minx`, `maxx`, the `drawline` call and the step to the next row
        obtain ⟨a', b', hab', ha', hb', hs3⟩ := rowMinMax_range v2 (-1879048192) 1879048192
          hm2.1 ⟨hm2.2.1, hm2.2.2⟩ (Edge1Ok_range X1 Y1 v2 hE12)
          (Edge2Ok_range X2 Y2 y3 1 v2 (Or.inr rfl) hE22)
        obtain ⟨v3, hv3⟩ : ∃ v3, v3 = rowMinMax v2 := ⟨_, rfl⟩
        rw [← hv3] at hs3
        have hE13 : Edge1Ok X1 Y1 v3 := by rw [hs3]; exact hE12
        have hE23 : Edge2Ok X2 Y2 y3 1 v3 := by rw [hs3]; exact hE22
        have hi13 : v3.i ≤ v3.dx1 := by rw [hs3]; exact hi12
        have htp13 : v3.t1xp = 0 ∨ (v3.changed1 = true ∧ v3.t1xp = v3.signx1) := by
          rw [hs3]; exact htp12
        have htp23 : v3.t2xp = 0 ∨ (v3.changed2 = true ∧ v3.t2xp = v3.signx2) := by
          rw [hs3]; exact htp22
        have hy3' : v3.y = v.y := by rw [hs3]; exact hy2'
        have hmin3 : v3.minx = a' := by rw [hs3]
        have hmax3 : v3.maxx = b' := by rw [hs3]
        have hdraw : drawline32 fuel v3.minx v3.maxx v3.y
            = some (drawline v3.minx v3.maxx v3.y) :=
          drawline32_eq fuel _ _ _ (by rw [hmin3, hmax3]; exact hab')
            (by rw [hmin3]; omega) (by rw [hmax3]; omega) (by rw [hmin3, hmax3]; omega)
        obtain ⟨hadv, hy4, hi4, hdx4, hE14, hE24⟩ :=
          rowAdvance32_sim X1 Y1 X2 Y2 y3 v3 hE13 hE23 htp13 htp23
        obtain ⟨v4, hv4⟩ : ∃ v4, v4 = rowAdvance v3 := ⟨_, rfl⟩
        rw [← hv4] at hy4 hi4 hdx4 hE14 hE24 hadv
        rw [secondHalf32, secondHalf, if_pos hg, if_pos hg, ← hv0, hsimA, hA]
        dsimp only
        rw [hsimB, hB]
        dsimp only
        rw [← hv3, hdraw]
        dsimp only
        rw [hadv, ← hv4]
        by_cases hend : v4.y > y3
        · rw [if_pos hend, if_pos hend]
          simp only [Option.map_some', spanCells_cons, spanCells_nil, List.append_nil]
        · have hE14' := hE14 (by omega)
          have hE24' := hE24 (by omega)
          obtain ⟨hs, hdy0, hdy, hdx, he0, he1, hi0, hi1, hX0, hX1, hY0, hY1, hy1', ht0, ht1⟩ :=
            hE14'
          have ewi : wrapInt (v4.i + 1) = v4.i + 1 := wrapInt_eq _ (by omega) (by omega)
          have hE15 : Edge1Ok X1 Y1 { v4 with i := v4.i + 1 } :=
            ⟨hs, hdy0, hdy, hdx, he0, he1, by dsimp only; omega, by dsimp only; omega, hX0,
              hX1, hY0, hY1, hy1', by dsimp only; omega, by dsimp only; omega⟩
          have hE25 : Edge2Ok X2 Y2 y3 0 { v4 with i := v4.i + 1 } := hE24'
          rw [if_neg hend, if_neg hend, ewi, ih _ hE15 hE25]
          cases secondHalf x3 y3 n { v4 with i := v4.i + 1 } with
          | none => rfl
          | some r =>
            simp only [Option.map_some', spanCells_cons]

theorem absInt_le_iff (v b : Int) : absInt v ≤ b ↔ -b ≤ v ∧ v ≤ b := by
  unfold absInt
  split <;> omega

/-- For coordinates of absolute value at most `2^28`, the set-up on 32-bit `int`s is
the set-up over unbounded integers. -/
theorem triSetup32_eq (x1 y1 x2 y2 x3 y3 : Int)
    (hx1 : -268435456 ≤ x1 ∧ x1 ≤ 268435456) (hy1 : -268435456 ≤ y1 ∧ y1 ≤ 268435456)
    (hx2 : -268435456 ≤ x2 ∧ x2 ≤ 268435456) (hy2 : -268435456 ≤ y2 ∧ y2 ≤ 268435456)
    (hx3 : -268435456 ≤ x3 ∧ x3 ≤ 268435456) (hy3 : -268435456 ≤ y3 ∧ y3 ≤ 268435456) :
    triSetup32 x1 y1 x2 y2 x3 y3 = triSetup x1 y1 x2 y2 x3 y3 := by
  have e1 : wrapInt (x2 - x1) = x2 - x1 := wrapInt_eq _ (by omega) (by omega)
  have e2 : wrapInt (-(x2 - x1)) = -(x2 - x1) := wrapInt_eq _ (by omega) (by omega)
  have e3 : wrapInt (y2 - y1) = y2 - y1 := wrapInt_eq _ (by omega) (by omega)
  have e4 : wrapInt (x3 - x1) = x3 - x1 := wrapInt_eq _ (by omega) (by omega)
  have e5 : wrapInt (-(x3 - x1)) = -(x3 - x1) := wrapInt_eq _ (by omega) (by omega)
  have e6 : wrapInt (y3 - y1) = y3 - y1 := wrapInt_eq _ (by omega) (by omega)
  unfold triSetup32 triSetup
  simp only [e1, e2, e3, e4, e5, e6]

theorem triSecondSetup32_eq (x2 y2 x3 y3 : Int) (v : TriLocals)
    (hx2 : -268435456 ≤ x2 ∧ x2 ≤ 268435456) (hy2 : -268435456 ≤ y2 ∧ y2 ≤ 268435456)
    (hx3 : -268435456 ≤ x3 ∧ x3 ≤ 268435456) (hy3 : -268435456 ≤ y3 ∧ y3 ≤ 268435456) :
    triSecondSetup32 x2 y2 x3 y3 v = triSecondSetup x2 y2 x3 y3 v := by
  have e1 : wrapInt (x3 - x2) = x3 - x2 := wrapInt_eq _ (by omega) (by omega)
  have e2 : wrapInt (-(x3 - x2)) = -(x3 - x2) := wrapInt_eq _ (by omega) (by omega)
  have e3 : wrapInt (y3 - y2) = y3 - y2 := wrapInt_eq _ (by omega) (by omega)
  unfold triSecondSetup32 triSecondSetup
  simp only [e1, e2, e3]

/-- After the set-up, for sorted vertices spanning more than one row with coordinates
of absolute value at most `2^28`, the second edge satisfies its invariant. -/
theorem triSetup_Edge2Ok (x1 y1 x2 y2 x3 y3 : Int)
    (hx1 : -268435456 ≤ x1 ∧ x1 ≤ 268435456) (hy1 : -268435456 ≤ y1 ∧ y1 ≤ 268435456)
    (hx3 : -268435456 ≤ x3 ∧ x3 ≤ 268435456) (hy3 : -268435456 ≤ y3 ∧ y3 ≤ 268435456)
    (h13 : y1 < y3) :
    Edge2Ok x1 y1 y3 0 (triSetup x1 y1 x2 y2 x3 y3) := by
  unfold Edge2Ok triSetup
  dsimp only
  have hd : 0 ≤ (if x3 - x1 < 0 then -(x3 - x1) else x3 - x1)
      ∧ (if x3 - x1 < 0 then -(x3 - x1) else x3 - x1) ≤ 536870912 := by
    split <;> omega
  have hsg : ((if x3 - x1 < 0 then -1 else 1 : Int) = 1)
      ∨ ((if x3 - x1 < 0 then -1 else 1 : Int) = -1) := by
    split
    · exact Or.inr rfl
    · exact Or.inl rfl
  generalize (if x3 - x1 < 0 then -(x3 - x1) else x3 - x1) = d at hd ⊢
  generalize (if x3 - x1 < 0 then -1 else 1 : Int) = sg at hsg ⊢
  by_cases hsw : y3 - y1 > d
  · simp only [hsw, if_true, decide_True]
    refine ⟨hsg, by omega, by omega, by omega, by omega, by omega, hx1.1, hx1.2, hy1.1,
      le_refl _, by omega, hy3.2, fun _ => ⟨by omega, by omega⟩,
      fun h => Bool.noConfusion h⟩
  · simp only [hsw, if_false, decide_False]
    have hhalf : 0 ≤ d / 2 := by omega
    refine ⟨hsg, by omega, by omega, by omega, by omega, by omega, hx1.1, hx1.2, hy1.1,
      le_refl _, by omega, hy3.2, fun h => Bool.noConfusion h,
      fun _ => ⟨by omega, trivial, by linarith, by linarith⟩⟩

/-- After the set-up and `e1 = dx1 >> 1`, for sorted vertices with `y1 < y2` and
coordinates of absolute value at most `2^28`, the first edge satisfies its
invariant. -/
theorem triSetup_Edge1Ok (x1 y1 x2 y2 x3 y3 : Int)
    (hx1 : -268435456 ≤ x1 ∧ x1 ≤ 268435456) (hy1 : -268435456 ≤ y1 ∧ y1 ≤ 268435456)
    (hx2 : -268435456 ≤ x2 ∧ x2 ≤ 268435456) (hy2 : -268435456 ≤ y2 ∧ y2 ≤ 268435456)
    (h12 : y1 ≤ y2) :
    Edge1Ok x1 y1 { triSetup x1 y1 x2 y2 x3 y3 with
      e1 := (triSetup x1 y1 x2 y2 x3 y3).dx1 / 2, i := 0 } := by
  unfold Edge1Ok triSetup
  dsimp only
  have hd : 0 ≤ (if x2 - x1 < 0 then -(x2 - x1) else x2 - x1)
      ∧ (if x2 - x1 < 0 then -(x2 - x1) else x2 - x1) ≤ 536870912 := by
    split <;> omega
  have hsg : ((if x2 - x1 < 0 then -1 else 1 : Int) = 1)
      ∨ ((if x2 - x1 < 0 then -1 else 1 : Int) = -1) := by
    split
    · exact Or.inr rfl
    · exact Or.inl rfl
  generalize (if x2 - x1 < 0 then -(x2 - x1) else x2 - x1) = d at hd ⊢
  generalize (if x2 - x1 < 0 then -1 else 1 : Int) = sg at hsg ⊢
  by_cases hsw : y2 - y1 > d
  · simp only [hsw, if_true]
    exact ⟨hsg, by omega, by omega, by omega, by omega, by omega, le_refl _, by omega,
      hx1.1, hx1.2, hy1.1, le_refl _, hy1.2, by omega, by omega⟩
  · simp only [hsw, if_false]
    exact ⟨hsg, by omega, by omega, by omega, by omega, by omega, le_refl _, by omega,
      hx1.1, hx1.2, hy1.1, le_refl _, hy1.2, by omega, by omega⟩

/-- After the label `next`, for `y2 <= y3` and coordinates of absolute value at most
`2^28`, the first edge satisfies its invariant, anchored at the row reached; the
second edge is as before. -/
theorem triSecondSetup_Edge1Ok (x2 y2 x3 y3 : Int) (v : TriLocals)
    (hx2 : -268435456 ≤ x2 ∧ x2 ≤ 268435456) (hy2 : -268435456 ≤ y2 ∧ y2 ≤ 268435456)
    (hx3 : -268435456 ≤ x3 ∧ x3 ≤ 268435456) (hy3 : -268435456 ≤ y3 ∧ y3 ≤ 268435456)
    (h23 : y2 ≤ y3) (hvy : -268435456 ≤ v.y ∧ v.y ≤ 268435456) :
    Edge1Ok x2 v.y (triSecondSetup x2 y2 x3 y3 v) := by
  unfold Edge1Ok triSecondSetup
  dsimp only
  have hd : 0 ≤ (if x3 - x2 < 0 then -(x3 - x2) else x3 - x2)
      ∧ (if x3 - x2 < 0 then -(x3 - x2) else x3 - x2) ≤ 536870912 := by
    split <;> omega
  have hsg : ((if x3 - x2 < 0 then -1 else 1 : Int) = 1)
      ∨ ((if x3 - x2 < 0 then -1 else 1 : Int) = -1) := by
    split
    · exact Or.inr rfl
    · exact Or.inl rfl
  generalize (if x3 - x2 < 0 then -(x3 - x2) else x3 - x2) = d at hd ⊢
  generalize (if x3 - x2 < 0 then -1 else 1 : Int) = sg at hsg ⊢
  by_cases hsw : y3 - y2 > d
  · simp only [hsw, if_true]
    exact ⟨hsg, by omega, by omega, by omega, by omega, by omega, le_refl _, by omega,
      hx2.1, hx2.2, hvy.1, le_refl _, hvy.2, by omega, by omega⟩
  · simp only [hsw, if_false]
    exact ⟨hsg, by omega, by omega, by omega, by omega, by omega, le_refl _, by omega,
      hx2.1, hx2.2, hvy.1, le_refl _, hvy.2, by omega, by omega⟩

/-- The vertex ordering step returns its six inputs, in some order. -/
theorem sortVertices_bounds (P : Int → Prop) (x1 y1 x2 y2 x3 y3 : Int)
    (hx1 : P x1) (hy1 : P y1) (hx2 : P x2) (hy2 : P y2) (hx3 : P x3) (hy3 : P y3) :
    P (sortVertices x1 y1 x2 y2 x3 y3).1.1 ∧ P (sortVertices x1 y1 x2 y2 x3 y3).1.2
    ∧ P (sortVertices x1 y1 x2 y2 x3 y3).2.1.1 ∧ P (sortVertices x1 y1 x2 y2 x3 y3).2.1.2
    ∧ P (sortVertices x1 y1 x2 y2 x3 y3).2.2.1 ∧ P (sortVertices x1 y1 x2 y2 x3 y3).2.2.2 := by
  unfold sortVertices
  by_cases h1 : y1 > y2 <;> by_cases h2 : y1 > y3 <;> by_cases h3 : y2 > y3
    <;> by_cases h4 : y2 > y1 <;> by_cases h5 : y3 > y1 <;> by_cases h6 : y3 > y2
    <;> simp only [h1, h2, h3, h4, h5, h6, if_true, if_false]
    <;> exact ⟨by assumption, by assumption, by assumption, by assumption, by assumption,
      by assumption⟩

theorem spanCells_append (l1 l2 : List (Int × Int × Int)) :
    spanCells (l1 ++ l2) = spanCells l1 ++ spanCells l2 := by
  simp [spanCells]

theorem FillTriangle_spanCells (fuel : Nat) (x1 y1 x2 y2 x3 y3 : Int) :
    FillTriangle fuel x1 y1 x2 y2 x3 y3
      = (FillTriangleSpans fuel x1 y1 x2 y2 x3 y3).map spanCells := rfl

/-- For a triangle that spans more than one row, with coordinates of absolute value
at most `2^28`, `FillTriangle` on 32-bit `int`s has, under every iteration bound above
`3758096384`, the outcome of `FillTriangle` over unbounded integers: no intermediate
value leaves the range of `int`. -/
theorem FillTriangle32_eq (x1 y1 x2 y2 x3 y3 : Int)
    (hx1 : absInt x1 ≤ 268435456) (hy1 : absInt y1 ≤ 268435456)
    (hx2 : absInt x2 ≤ 268435456) (hy2 : absInt y2 ≤ 268435456)
    (hx3 : absInt x3 ≤ 268435456) (hy3 : absInt y3 ≤ 268435456)
    (hrows : min y1 (min y2 y3) < max y1 (max y2 y3)) (fuel : Nat)
    (hfuel : 3758096384 < (fuel : Int)) :
    FillTriangle32 fuel x1 y1 x2 y2 x3 y3 = FillTriangle fuel x1 y1 x2 y2 x3 y3 := by
  rw [absInt_le_iff] at hx1 hy1 hx2 hy2 hx3 hy3
  obtain ⟨hs12, hs23, hsmin, hsmax⟩ := sortVertices_y x1 y1 x2 y2 x3 y3
  obtain ⟨ha1, hb1, ha2, hb2, ha3, hb3⟩ :=
    sortVertices_bounds (fun v => -268435456 ≤ v ∧ v ≤ 268435456) x1 y1 x2 y2 x3 y3
      hx1 hy1 hx2 hy2 hx3 hy3
  rcases hsv : sortVertices x1 y1 x2 y2 x3 y3 with ⟨⟨a1, b1⟩, ⟨a2, b2⟩, ⟨a3, b3⟩⟩
  rw [hsv] at hs12 hs23 hsmin hsmax ha1 hb1 ha2 hb2 ha3 hb3
  dsimp only at hs12 hs23 hsmin hsmax ha1 hb1 ha2 hb2 ha3 hb3
  rw [← hsmin, ← hsmax] at hrows
  have hE2 := triSetup_Edge2Ok a1 b1 a2 b2 a3 b3 ha1 hb1 ha3 hb3 hrows
  have hy := triSetup_y a1 b1 a2 b2 a3 b3
  rw [FillTriangle_spanCells]
  simp only [FillTriangle32, FillTriangleSpans, hsv]
  rw [triSetup32_eq a1 b1 a2 b2 a3 b3 ha1 hb1 ha2 hb2 ha3 hb3]
  by_cases h12 : b1 = b2
  · rw [if_pos h12, if_pos h12, triSecondSetup32_eq a2 b2 a3 b3 _ ha2 hb2 ha3 hb3]
    have hE1 := triSecondSetup_Edge1Ok a2 b2 a3 b3 (triSetup a1 b1 a2 b2 a3 b3) ha2 hb2 ha3
      hb3 hs23 (by rw [hy]; exact hb1)
    exact secondHalf32_sim fuel a3 b3 a2 (triSetup a1 b1 a2 b2 a3 b3).y a1 b1 hfuel fuel _
      hE1 hE2
  · rw [if_neg h12, if_neg h12]
    have hE1 := triSetup_Edge1Ok a1 b1 a2 b2 a3 b3 ha1 hb1 ha2 hb2 hs12
    obtain ⟨hsim, hpost⟩ := firstHalf32_sim fuel b2 a1 b1 a1 b1 b3 hfuel hs23 fuel
      { triSetup a1 b1 a2 b2 a3 b3 with
        e1 := (triSetup a1 b1 a2 b2 a3 b3).dx1 / 2, i := 0 } hE1 hE2
      (by show (triSetup a1 b1 a2 b2 a3 b3).y < b2; rw [hy]; omega)
    rw [hsim]
    cases hF : firstHalf b2 fuel
        { triSetup a1 b1 a2 b2 a3 b3 with
          e1 := (triSetup a1 b1 a2 b2 a3 b3).dx1 / 2, i := 0 } with
    | none => rfl
    | some r =>
      obtain ⟨w, spans⟩ := r
      have hE2w := hpost w spans hF
      have hwy : -268435456 ≤ w.y ∧ w.y ≤ 268435456 := by
        obtain ⟨_, _, _, _, _, _, _, _, g1, g2, g3, g4, _, _⟩ := hE2w
        omega
      have hE1w := triSecondSetup_Edge1Ok a2 b2 a3 b3 w ha2 hb2 ha3 hb3 hs23 hwy
      have hsim2 := secondHalf32_sim fuel a3 b3 a2 w.y a1 b1 hfuel fuel
        (triSecondSetup a2 b2 a3 b3 w) hE1w hE2w
      simp only [Option.map_some']
      rw [triSecondSetup32_eq a2 b2 a3 b3 w ha2 hb2 ha3 hb3, hsim2]
      cases secondHalf a3 b3 fuel (triSecondSetup a2 b2 a3 b3 w) with
      | none => rfl
      | some r2 =>
        simp only [Option.map_some', spanCells_append]

/-- The loop of `drawline` on 32-bit `int`s with `ex = INT_MAX`: the condition
`i <= ex` holds for every `int`, and no iteration bound is enough. -/
theorem drawlineLoop32_diverges (ny : Int) :
    ∀ (n : Nat) (i : Int), i ≤ 2147483647 → drawlineLoop32 2147483647 ny n i = none := by
  intro n
  induction n with
  | zero =>
    intro i hi
    rw [drawlineLoop32, if_pos hi]
  | succ n ih =>
    intro i hi
    have hw : wrapInt (i + 1) ≤ 2147483647 := by
      have := (wrapInt_range (i + 1)).2
      omega
    rw [drawlineLoop32, if_pos hi, ih _ hw]
    rfl

/-- C3 (the claim at a failing input): the triangle `(2147483646, 0)`,
`(2147483647, 0)`, `(2147483646, 1)`, whose vertices are not collinear.  In its first
row `FillTriangle` on 32-bit `int`s calls `drawline(2147483646, 2147483647, 0)`, whose
loop condition `i <= ex` never fails: under no bound on the iterations does the call
return, and the row `y = 1` is never reached. -/
theorem FillTriangle32_never_returns :
    ((2147483647 - 2147483646) * (1 - 0) ≠ (2147483646 - 2147483646) * ((0 : Int) - 0))
    ∧ ¬ ∃ (fuel : Nat) (pts : List (Int × Int)),
        FillTriangle32 fuel 2147483646 0 2147483647 0 2147483646 1 = some pts := by
  refine ⟨by decide, ?_⟩
  rintro ⟨fuel, pts, hrun⟩
  cases fuel with
  | zero =>
    have h0 : FillTriangle32 0 2147483646 0 2147483647 0 2147483646 1 = none := by decide
    rw [h0] at hrun
    exact Option.noConfusion hrun
  | succ n =>
    have hd := drawlineLoop32_diverges 0 (n + 1) 2147483646 (by decide)
    revert hrun
    simp [FillTriangle32, sortVertices, triSetup32, triSecondSetup32, secondHalf32, rowStart,
      secondEdge1_32, secondSub1_32, secondEdge2_32, rowMinMax, drawline32, wrapInt, hd]

/-- C3 (amended): for every triangle whose three vertices are not collinear and have
coordinates of absolute value at most `2^28`, `FillTriangle` on 32-bit `int`s returns
(for every iteration bound from some `N` on, with one and the same result), every row
`y` from the least to the greatest `y` of the vertices receives cells, and the cells
emitted in such a row are exactly those of one interval `a <= x <= b`. -/
theorem FillTriangle32_rows (x1 y1 x2 y2 x3 y3 : Int)
    (hx1 : absInt x1 ≤ 268435456) (hy1 : absInt y1 ≤ 268435456)
    (hx2 : absInt x2 ≤ 268435456) (hy2 : absInt y2 ≤ 268435456)
    (hx3 : absInt x3 ≤ 268435456) (hy3 : absInt y3 ≤ 268435456)
    (hnc : (x2 - x1) * (y3 - y1) ≠ (x3 - x1) * (y2 - y1)) :
    ∃ (N : Nat) (pts : List (Int × Int)),
      (∀ fuel : Nat, N ≤ fuel → FillTriangle32 fuel x1 y1 x2 y2 x3 y3 = some pts)
      ∧ ∀ y : Int, min y1 (min y2 y3) ≤ y → y ≤ max y1 (max y2 y3) →
          ∃ a b : Int, a ≤ b ∧ ∀ x : Int, ((x, y) ∈ pts ↔ a ≤ x ∧ x ≤ b) := by
  have hrows : min y1 (min y2 y3) < max y1 (max y2 y3) := by
    by_contra hcon
    have h12 : y2 = y1 := by omega
    have h13 : y3 = y1 := by omega
    apply hnc
    rw [h12, h13]
    ring
  obtain ⟨N, pts, hrun, hcells⟩ := FillTriangle_rows x1 y1 x2 y2 x3 y3 hnc
  refine ⟨max N 3758096385, pts, ?_, hcells⟩
  intro fuel hfuel
  have h1 : N ≤ fuel := le_trans (le_max_left _ _) hfuel
  have h2 : 3758096385 ≤ fuel := le_trans (le_max_right _ _) hfuel
  rw [FillTriangle32_eq x1 y1 x2 y2 x3 y3 hx1 hy1 hx2 hy2 hx3 hy3 hrows fuel (by omega)]
  exact hrun fuel h1

/-- C3 (amended) for the triangle `(0,0), (10,0), (0,10)`. -/
theorem FillTriangle32_rows_witness :
    (absInt 0 ≤ 268435456 ∧ absInt 0 ≤ 268435456 ∧ absInt 10 ≤ 268435456
      ∧ absInt 0 ≤ 268435456 ∧ absInt 0 ≤ 268435456 ∧ absInt 10 ≤ 268435456
      ∧ (10 - 0) * (10 - 0) ≠ (0 - 0) * ((0 : Int) - 0))
    ∧ ∃ (N : Nat) (pts : List (Int × Int)),
      (∀ fuel : Nat, N ≤ fuel → FillTriangle32 fuel 0 0 10 0 0 10 = some pts)
      ∧ ∀ y : Int, min 0 (min 0 10) ≤ y → y ≤ max 0 (max 0 10) →
          ∃ a b : Int, a ≤ b ∧ ∀ x : Int, ((x, y) ∈ pts ↔ a ≤ x ∧ x ≤ b) :=
  ⟨by decide,
    FillTriangle32_rows 0 0 10 0 0 10 (by decide) (by decide) (by decide) (by decide)
      (by decide) (by decide) (by decide)⟩

end ConsoleGraphicsEngine
